import Mathlib

/-!
# Sparse (CCS) matrix multiplication: a shallow embedding

The definitions below follow `tasks/stl/sparse_matrix/src/sparse_matrix_stl.cpp`
function by function.

Modelling conventions.
* A `double` value is a rational number (`ℚ`); `kThreshold` is `1/1000000`.  In the
  reference product `MultiplyMatrices` every multiplication and every addition is rounded
  to the nearest double (`roundDouble`: IEEE-754 binary64, ties to even, gradual
  underflow, no fused multiply-add); the model covers the executions in which no double
  operation overflows.  In `operator*` the accumulation `sum += x * y` is kept exact:
  the statements about it are either relative to the accumulated sum or about exact
  arithmetic.
* `int` / `size_t` quantities (dimensions, indices, counters) are natural numbers; the
  model covers the executions in which no `int` computation overflows.  The one place
  where the source subtracts two `int`s (`CountElements`) is kept as an integer
  subtraction.
* `std::vector` is a `List`.  Every indexed read or write is checked: an access outside
  the bounds of a vector (undefined behaviour in C++) makes the function return `none`.
* `std::for_each(std::execution::par, ...)` over the column indices is modelled by
  running the per-column body over an explicit list of column indices.
-/

namespace sparse_matrix_multiplication_stl

/-! ## Loops and checked vector accesses -/

/-- The loop `for (i = 0; i < n; i++) st = body st i`, stopping at the first fault. -/
def forRange {σ : Type} (n : Nat) (init : σ) (body : σ → Nat → Option σ) : Option σ :=
  (List.range n).foldlM body init

/-- Checked write `xs[i] = v`. -/
def writeAt {α : Type} (xs : List α) (i : Nat) (v : α) : Option (List α) :=
  if i < xs.length then some (xs.set i v) else none

/-! ## Data model -/

/-- The constant `SparseMatrix::kThreshold = 1e-6`. -/
def kThreshold : ℚ := 1 / 1000000

/-- The class `SparseMatrix` (compressed sparse column storage).  The field defaults are
those of the defaulted constructor `SparseMatrix() = default`. -/
structure SparseMatrix where
  rows_count_ : Nat := 0
  cols_count_ : Nat := 0
  values_ : List ℚ := []
  row_indices_ : List Nat := []
  cumulative_elements_ : List Nat := []
deriving DecidableEq, Repr

/-- The two ways `MultiplyMatrices` can fail. -/
inductive Fault where
  /-- The exception `std::invalid_argument` thrown on incompatible dimensions. -/
  | invalid_argument
  /-- A vector access outside its bounds. -/
  | out_of_range
deriving DecidableEq, Repr

/-! ## Double-precision arithmetic -/

/-- Rounding of the non-negative ratio `n / d` to the nearest integer, ties to even. -/
def roundHalfEven (n d : Nat) : Nat :=
  if 2 * (n % d) < d then n / d
  else if d < 2 * (n % d) then n / d + 1
  else if (n / d) % 2 = 0 then n / d else n / d + 1

/-- The number of binary digits of `n`, found by at most `fuel` halvings. -/
def bitLength : Nat → Nat → Nat
  | 0, _ => 0
  | fuel + 1, n => if n = 0 then 0 else bitLength fuel (n / 2) + 1

/-- The binary exponent of the positive ratio `n / d`: the `e` with
`2^e ≤ n / d < 2^(e+1)`. -/
def binaryExponent (n d : Nat) : Int :=
  if (if bitLength d d ≤ bitLength n n then d * 2 ^ (bitLength n n - bitLength d d) ≤ n
      else d ≤ n * 2 ^ (bitLength d d - bitLength n n))
  then (bitLength n n : Int) - bitLength d d else (bitLength n n : Int) - bitLength d d - 1

/-- The double nearest to the positive ratio `n / d`: with `e` its binary exponent, not
below the least normal exponent -1022, the ratio is rounded to a multiple of `2^(e-52)`
(53 significant bits), ties to even. -/
def roundPos (n d : Nat) : ℚ :=
  if max (binaryExponent n d) (-1022) ≤ 52 then
    (roundHalfEven (n * 2 ^ (52 - max (binaryExponent n d) (-1022)).toNat) d : ℚ) /
      (2 ^ (52 - max (binaryExponent n d) (-1022)).toNat : Nat)
  else
    (roundHalfEven n (d * 2 ^ (max (binaryExponent n d) (-1022) - 52).toNat) : ℚ) *
      (2 ^ (max (binaryExponent n d) (-1022) - 52).toNat : Nat)

/-- The result of a double operation whose exact value is `x`: the nearest double. -/
def roundDouble (x : ℚ) : ℚ :=
  if x = 0 then 0 else if 0 < x then roundPos x.num.natAbs x.den
  else -roundPos x.num.natAbs x.den

/-! ## Reference dense multiplication -/

/-- The innermost loop of `MultiplyMatrices`:
`for k < first_columns: sum += first_matrix[i*first_columns+k] * second_matrix[k*second_columns+j]`,
a double multiplication followed by a double addition. -/
def MultiplyMatrices.dot (first_matrix : List ℚ) (first_columns : Nat)
    (second_matrix : List ℚ) (second_columns : Nat) (i j : Nat) : Option ℚ :=
  forRange first_columns (0 : ℚ) fun sum k => do
    let a ← first_matrix[i * first_columns + k]?
    let b ← second_matrix[k * second_columns + j]?
    pure (roundDouble (sum + roundDouble (a * b)))

/-- The two outer loops of `MultiplyMatrices`, filling `result`. -/
def MultiplyMatrices.fill (first_matrix : List ℚ) (first_rows first_columns : Nat)
    (second_matrix : List ℚ) (second_columns : Nat) : Option (List ℚ) :=
  forRange first_rows (List.replicate (first_rows * second_columns) (0 : ℚ)) fun result i =>
    forRange second_columns result fun result j => do
      let sum ← MultiplyMatrices.dot first_matrix first_columns second_matrix second_columns i j
      writeAt result (i * second_columns + j) sum

/-- The function `MultiplyMatrices`: the dense triple-loop product. -/
def MultiplyMatrices (first_matrix : List ℚ) (first_rows first_columns : Nat)
    (second_matrix : List ℚ) (second_rows second_columns : Nat) : Except Fault (List ℚ) :=
  if first_columns ≠ second_rows then .error .invalid_argument
  else
    match MultiplyMatrices.fill first_matrix first_rows first_columns second_matrix
        second_columns with
    | some result => .ok result
    | none => .error .out_of_range

/-! ## Dense to sparse and back -/

/-- Loop state of `MatrixToSparse`. -/
structure ToSparseState where
  sparse_values : List ℚ
  row_indices : List Nat
  cumulative_elements : List Nat
  count : Nat
deriving DecidableEq, Repr

/-- Body of the inner loop of `MatrixToSparse` (one `row` of column `col`). -/
def MatrixToSparse.rowStep (columns_count : Nat) (values : List ℚ) (col : Nat)
    (st : ToSparseState) (row : Nat) : Option ToSparseState := do
  let val ← values[row * columns_count + col]?
  if |val| > kThreshold then
    pure { st with
      sparse_values := st.sparse_values ++ [val]
      row_indices := st.row_indices ++ [row]
      count := st.count + 1 }
  else
    pure st

/-- Body of the outer loop of `MatrixToSparse` (one column). -/
def MatrixToSparse.colStep (rows_count columns_count : Nat) (values : List ℚ)
    (st : ToSparseState) (col : Nat) : Option ToSparseState := do
  let st ← forRange rows_count st (MatrixToSparse.rowStep columns_count values col)
  pure { st with cumulative_elements := st.cumulative_elements ++ [st.count] }

/-- The function `MatrixToSparse`. -/
def MatrixToSparse (rows_count columns_count : Nat) (values : List ℚ) : Option SparseMatrix := do
  let st ← forRange columns_count ⟨[], [], [], 0⟩
    (MatrixToSparse.colStep rows_count columns_count values)
  pure ⟨rows_count, columns_count, st.sparse_values, st.row_indices, st.cumulative_elements⟩

/-- The loop `while (count == cumulative[col]) col++` of `FromSparseMatrix`, run on the
part of `cumulative` from index `col` on; reading past the end is a fault. -/
def FromSparseMatrix.skip (count : Nat) : List Nat → Nat → Option Nat
  | [], _ => none
  | c :: rest, col => if count = c then FromSparseMatrix.skip count rest (col + 1) else some col

/-- Loop state of `FromSparseMatrix`. -/
structure FromSparseState where
  dense_matrix : List ℚ
  col : Nat
  count : Nat
deriving DecidableEq, Repr

/-- Body of the loop of `FromSparseMatrix` over the stored entries. -/
def FromSparseMatrix.step (matrix : SparseMatrix) (st : FromSparseState) (i : Nat) :
    Option FromSparseState := do
  let col ← FromSparseMatrix.skip st.count (matrix.cumulative_elements_.drop st.col) st.col
  let count := st.count + 1
  let row ← matrix.row_indices_[i]?
  let v ← matrix.values_[i]?
  let dense_matrix ← writeAt st.dense_matrix (row * matrix.cols_count_ + col) v
  pure ⟨dense_matrix, col, count⟩

/-- The function `FromSparseMatrix`. -/
def FromSparseMatrix (matrix : SparseMatrix) : Option (List ℚ) := do
  let st ← forRange matrix.values_.length
    ⟨List.replicate (matrix.rows_count_ * matrix.cols_count_) (0 : ℚ), 0, 0⟩
    (FromSparseMatrix.step matrix)
  pure st.dense_matrix

/-! ## Transposition -/

/-- Loop state of the first loop of `ComputeTranspose`. -/
structure TransposeState where
  grouped_values : List (List ℚ)
  grouped_indices : List (List Nat)
  current_col : Nat
  count : Nat
deriving DecidableEq, Repr

/-- Checked `groups[k].push_back(v)`. -/
def pushAt {α : Type} (groups : List (List α)) (k : Nat) (v : α) : Option (List (List α)) := do
  let g ← groups[k]?
  pure (groups.set k (g ++ [v]))

/-- Body of the first loop of `ComputeTranspose`: a single `if` advances `current_col`. -/
def ComputeTranspose.group (matrix : SparseMatrix) (st : TransposeState) (i : Nat) :
    Option TransposeState := do
  let c ← matrix.cumulative_elements_[st.current_col]?
  let current_col := if st.count = c then st.current_col + 1 else st.current_col
  let count := st.count + 1
  let row ← matrix.row_indices_[i]?
  let v ← matrix.values_[i]?
  let grouped_values ← pushAt st.grouped_values row v
  let grouped_indices ← pushAt st.grouped_indices row current_col
  pure ⟨grouped_values, grouped_indices, current_col, count⟩

/-- Loop state of the second loop of `ComputeTranspose`. -/
structure FlattenState where
  new_values : List ℚ
  new_rows : List Nat
  new_cumulative : List Nat
deriving DecidableEq, Repr

/-- Body of the inner loop of the second loop of `ComputeTranspose`:
`new_values.push_back(grouped_values[i][j]); new_rows.push_back(grouped_indices[i][j])`. -/
def ComputeTranspose.flattenEntry (grouped_values : List (List ℚ))
    (grouped_indices : List (List Nat)) (i : Nat) (st : FlattenState) (j : Nat) :
    Option FlattenState := do
  let gv ← grouped_values[i]?
  let v ← gv[j]?
  let gi ← grouped_indices[i]?
  let r ← gi[j]?
  pure { st with new_values := st.new_values ++ [v], new_rows := st.new_rows ++ [r] }

/-- Body of the second loop of `ComputeTranspose`: bucket `i` is appended entry by entry
(`j < grouped_values[i].size()`), then the running size is recorded. -/
def ComputeTranspose.flatten (grouped_values : List (List ℚ)) (grouped_indices : List (List Nat))
    (st : FlattenState) (i : Nat) : Option FlattenState := do
  let gv ← grouped_values[i]?
  let st ← forRange gv.length st (ComputeTranspose.flattenEntry grouped_values grouped_indices i)
  pure { st with new_cumulative := st.new_cumulative ++ [st.new_values.length] }

/-- The function `SparseMatrix::ComputeTranspose`. -/
def ComputeTranspose (matrix : SparseMatrix) : Option SparseMatrix := do
  let max_dim := max matrix.rows_count_ matrix.cols_count_
  let st ← forRange matrix.values_.length
    ⟨List.replicate max_dim [], List.replicate max_dim [], 0, 0⟩
    (ComputeTranspose.group matrix)
  let out ← forRange st.grouped_values.length ⟨[], [], []⟩
    (ComputeTranspose.flatten st.grouped_values st.grouped_indices)
  pure ⟨matrix.cols_count_, matrix.rows_count_, out.new_values, out.new_rows, out.new_cumulative⟩

/-! ## Sparse multiplication -/

/-- The function `SparseMatrix::CountElements`; the difference is an `int` subtraction. -/
def CountElements (index : Nat) (elements_count : List Nat) : Option Int :=
  if index = 0 then do
    let a ← elements_count[index]?
    pure (a : Int)
  else do
    let a ← elements_count[index]?
    let b ← elements_count[index - 1]?
    pure ((a : Int) - (b : Int))

/-- The start of a column range in `operator*`: `index == 0 ? 0 : sums[index - 1]`. -/
def Multiply.startOf (index : Nat) (sums : List Nat) : Option Nat :=
  if index = 0 then some 0 else sums[index - 1]?

/-- The accumulated `sum` of `operator*` for output row `row` and output column `col`:
the two innermost loops over the stored entries of column `row` of `transposed` and of
column `col` of `other`. -/
def Multiply.cell (transposed other : SparseMatrix) (row col : Nat) : Option ℚ := do
  let first_sums := transposed.cumulative_elements_
  let second_sums := other.cumulative_elements_
  let first_count ← CountElements row first_sums
  let second_count ← CountElements col second_sums
  let first_start ← Multiply.startOf row first_sums
  let second_start ← Multiply.startOf col second_sums
  forRange first_count.toNat (0 : ℚ) fun sum i =>
    forRange second_count.toNat sum fun sum j => do
      let a ← transposed.row_indices_[first_start + i]?
      let b ← other.row_indices_[second_start + j]?
      if a = b then do
        let x ← transposed.values_[first_start + i]?
        let y ← other.values_[second_start + j]?
        pure (sum + x * y)
      else
        pure sum

/-- What one column worker of `operator*` owns while it runs, together with the global
counter `elems`. -/
structure WorkerState where
  local_values : List ℚ
  local_rows : List Nat
  local_count : Nat
  elems : Nat
deriving DecidableEq, Repr

/-- Body of the loop over `row` inside one column worker: the sum is kept when
`sum > kThreshold`. -/
def Multiply.rowStep (transposed other : SparseMatrix) (col : Nat) (st : WorkerState)
    (row : Nat) : Option WorkerState := do
  let sum ← Multiply.cell transposed other row col
  if sum > kThreshold then
    pure { local_values := st.local_values ++ [sum]
           local_rows := st.local_rows ++ [row]
           local_count := st.local_count + 1
           elems := st.elems + 1 }
  else
    pure st

/-- The per-column buffers of `operator*` and the global counter `elems`. -/
structure ParState where
  local_values_vec : List (List ℚ)
  local_rows_vec : List (List Nat)
  local_counts : List Nat
  elems : Nat
deriving DecidableEq, Repr

/-- The lambda handed to `std::for_each`: the work for output column `col`, which reads
and writes the slots `local_values_vec[col]`, `local_rows_vec[col]`, `local_counts[col]`. -/
def Multiply.worker (transposed other : SparseMatrix) (st : ParState) (col : Nat) :
    Option ParState := do
  let local_values ← st.local_values_vec[col]?
  let local_rows ← st.local_rows_vec[col]?
  let local_count ← st.local_counts[col]?
  let w ← forRange transposed.cumulative_elements_.length
    ⟨local_values, local_rows, local_count, st.elems⟩ (Multiply.rowStep transposed other col)
  pure { local_values_vec := st.local_values_vec.set col w.local_values
         local_rows_vec := st.local_rows_vec.set col w.local_rows
         local_counts := st.local_counts.set col w.local_count
         elems := w.elems }

/-- Loop state of the merge loop of `operator*`. -/
structure MergeState where
  result_values : List ℚ
  result_rows : List Nat
  result_cumulative : List Nat
deriving DecidableEq, Repr

/-- Body of the merge loop of `operator*` (column `col`). -/
def Multiply.merge (p : ParState) (st : MergeState) (col : Nat) : Option MergeState := do
  let lv ← p.local_values_vec[col]?
  let lr ← p.local_rows_vec[col]?
  let lc ← p.local_counts[col]?
  let rc ← writeAt st.result_cumulative col lc
  pure ⟨st.result_values ++ lv, st.result_rows ++ lr, rc⟩

/-- The loop `for (i = 1; i < result_cumulative.size(); i++) result_cumulative[i] +=
result_cumulative[i - 1]`; iteration `k` of the model is `i = k + 1`. -/
def Multiply.prefixSum (result_cumulative : List Nat) : Option (List Nat) :=
  forRange (result_cumulative.length - 1) result_cumulative fun rc k => do
    let a ← rc[k + 1]?
    let b ← rc[k]?
    writeAt rc (k + 1) (a + b)

/-- The function `SparseMatrix::operator*` with the column indices handed to the workers
in the order `col_order`, started with the global counter at `elems`; it returns the
product and the new value of the counter. -/
def MultiplyIn (col_order : List Nat) (self other : SparseMatrix) (elems : Nat) :
    Option (SparseMatrix × Nat) := do
  let transposed ← ComputeTranspose self
  let n := other.cols_count_
  let p ← col_order.foldlM (Multiply.worker transposed other)
    ⟨List.replicate n [], List.replicate n [], List.replicate n 0, elems⟩
  let m ← forRange n ⟨[], [], List.replicate n 0⟩ (Multiply.merge p)
  let result_cumulative ← Multiply.prefixSum m.result_cumulative
  pure (⟨n, n, m.result_values, m.result_rows, result_cumulative⟩, p.elems)

/-- The function `SparseMatrix::operator*`: `col_indices` is `0, 1, ..., cols - 1`
(`std::iota`). -/
def Multiply (self other : SparseMatrix) (elems : Nat) : Option (SparseMatrix × Nat) :=
  MultiplyIn (List.range other.cols_count_) self other elems

/-- The product matrix of `operator*`, the counter left aside. -/
def SparseMatrix.mul (self other : SparseMatrix) : Option SparseMatrix :=
  (Multiply self other 0).map Prod.fst

/-! ## The task `CCSMatrixSTL` -/

/-- The part of `ppc::core::TaskData` the task uses: the input buffers (as sequences of
doubles), the input counts and the output buffers. -/
structure TaskData where
  inputs : List (List ℚ)
  inputs_count : List Nat
  outputs : List (List ℚ)
deriving DecidableEq, Repr

/-- The class `CCSMatrixSTL`, with the process-wide counter `elems` carried along. -/
structure CCSMatrixSTL where
  task_data : TaskData
  first_matrix_ : SparseMatrix := {}
  second_matrix_ : SparseMatrix := {}
  result_matrix_ : SparseMatrix := {}
  elems : Nat := 0
deriving DecidableEq, Repr

/-- The method `CCSMatrixSTL::ValidationImpl`; `&&` evaluates its right operand only when
the left one holds. -/
def ValidationImpl (t : CCSMatrixSTL) : Option Bool := do
  let c0 ← t.task_data.inputs_count[0]?
  let c3 ← t.task_data.inputs_count[3]?
  if c0 = c3 then do
    let c1 ← t.task_data.inputs_count[1]?
    let c2 ← t.task_data.inputs_count[2]?
    pure (decide (c1 = c2))
  else
    pure false

/-- Reading `n` doubles from the start of a caller buffer. -/
def readBuffer (buffer : List ℚ) (n : Nat) : Option (List ℚ) :=
  if n ≤ buffer.length then some (buffer.take n) else none

/-- The method `CCSMatrixSTL::PreProcessingImpl`. -/
def PreProcessingImpl (t : CCSMatrixSTL) : Option (Bool × CCSMatrixSTL) := do
  let f_rows ← t.task_data.inputs_count[0]?
  let f_cols ← t.task_data.inputs_count[1]?
  let s_rows ← t.task_data.inputs_count[2]?
  let s_cols ← t.task_data.inputs_count[3]?
  if f_rows = 0 ∨ f_cols = 0 ∨ s_rows = 0 ∨ s_cols = 0 then
    pure (true, t)
  else do
    let in0 ← t.task_data.inputs[0]?
    let f_matrix ← readBuffer in0 (f_rows * f_cols)
    let first ← MatrixToSparse f_rows f_cols f_matrix
    let in1 ← t.task_data.inputs[1]?
    let s_matrix ← readBuffer in1 (s_rows * s_cols)
    let second ← MatrixToSparse s_rows s_cols s_matrix
    pure (true, { t with first_matrix_ := first, second_matrix_ := second })

/-- The method `CCSMatrixSTL::RunImpl`. -/
def RunImpl (t : CCSMatrixSTL) : Option (Bool × CCSMatrixSTL) := do
  let (result, elems) ← Multiply t.first_matrix_ t.second_matrix_ t.elems
  pure (true, { t with result_matrix_ := result, elems := elems })

/-- The method `CCSMatrixSTL::PostProcessingImpl`: the dense result is copied over the
start of `outputs[0]`. -/
def PostProcessingImpl (t : CCSMatrixSTL) : Option (Bool × CCSMatrixSTL) := do
  let result ← FromSparseMatrix t.result_matrix_
  let out ← t.task_data.outputs[0]?
  if result.length ≤ out.length then
    pure (true, { t with task_data :=
      { t.task_data with outputs := t.task_data.outputs.set 0 (result ++ out.drop result.length) } })
  else
    none

/-- The stages the tests run after a successful `Validation`: `PreProcessing`, `Run`,
`PostProcessing`; the value is the content of `outputs[0]` afterwards. -/
def runPipeline (t : CCSMatrixSTL) : Option (List ℚ) := do
  let (_, t) ← PreProcessingImpl t
  let (_, t) ← RunImpl t
  let (_, t) ← PostProcessingImpl t
  t.task_data.outputs[0]?

/-! ## Specification vocabulary -/

/-- First stored index of column `c`: `cumulative[c-1]`, with `cumulative[-1] = 0`. -/
def colStart (M : SparseMatrix) (c : Nat) : Nat :=
  if c = 0 then 0 else M.cumulative_elements_[c - 1]?.getD 0

/-- One past the last stored index of column `c`: `cumulative[c]`. -/
def colEnd (M : SparseMatrix) (c : Nat) : Nat :=
  M.cumulative_elements_[c]?.getD 0

/-- The stored index `i` lies in the range `[cumulative[c-1], cumulative[c])` of column `c`. -/
def InCol (M : SparseMatrix) (c i : Nat) : Prop :=
  c < M.cumulative_elements_.length ∧ colStart M c ≤ i ∧ i < colEnd M c

/-- The row indices stored for column `c`, i.e. `row_indices[cumulative[c-1] .. cumulative[c])`. -/
def colRows (M : SparseMatrix) (c : Nat) : List Nat :=
  (M.row_indices_.take (colEnd M c)).drop (colStart M c)

/-- The values stored for column `c`. -/
def colValues (M : SparseMatrix) (c : Nat) : List ℚ :=
  (M.values_.take (colEnd M c)).drop (colStart M c)

/-- Well-formed CCS matrix: the cumulative counts have one entry per column, are
non-decreasing and end at the number of stored values; `values` and `row_indices` are
parallel; every row index is below `rows_count`; and the row indices of each column are
strictly increasing. -/
def WellFormed (M : SparseMatrix) : Prop :=
  M.cumulative_elements_.length = M.cols_count_ ∧
  M.cumulative_elements_.Pairwise (· ≤ ·) ∧
  M.cumulative_elements_.getLast?.getD 0 = M.values_.length ∧
  M.row_indices_.length = M.values_.length ∧
  (∀ r ∈ M.row_indices_, r < M.rows_count_) ∧
  (∀ c ∈ List.range M.cols_count_, (colRows M c).Pairwise (· < ·))

instance (M : SparseMatrix) : Decidable (WellFormed M) := by
  unfold WellFormed; infer_instance

/-- Running totals `l₀, l₀+l₁, ...` of a list of lengths. -/
def prefixSums (lens : List Nat) : List Nat :=
  (List.range lens.length).map fun c => (lens.take (c + 1)).sum

/-- The CCS matrix whose column `c` stores the `(row, value)` pairs `L[c]`, in order. -/
def ofColumns (rows cols : Nat) (L : List (List (Nat × ℚ))) : SparseMatrix :=
  { rows_count_ := rows
    cols_count_ := cols
    values_ := (L.map (List.map Prod.snd)).flatten
    row_indices_ := (L.map (List.map Prod.fst)).flatten
    cumulative_elements_ := prefixSums (L.map List.length) }

/-- The entries `MatrixToSparse` keeps among the first `n` rows of column `col`: the rows
whose value exceeds the threshold in magnitude, in increasing order, with their values. -/
def keptEntries (columns_count : Nat) (values : List ℚ) (col n : Nat) : List (Nat × ℚ) :=
  ((List.range n).filter fun row =>
      decide (|values[row * columns_count + col]?.getD 0| > kThreshold)).map
    fun row => (row, values[row * columns_count + col]?.getD 0)

/-- The columns `MatrixToSparse` builds from the first `n` columns of the dense buffer. -/
def keptColumns (rows cols : Nat) (values : List ℚ) (n : Nat) : List (List (Nat × ℚ)) :=
  (List.range n).map fun c => keptEntries cols values c rows

/-- The invariant of the loop of `FromSparseMatrix` after `n` stored entries. -/
def FromSparseMatrix.Inv (M : SparseMatrix) (n : Nat) (st : FromSparseState) : Prop :=
  st.count = n ∧
  st.dense_matrix.length = M.rows_count_ * M.cols_count_ ∧
  (n = 0 → st.col = 0) ∧
  (0 < n → InCol M st.col (n - 1)) ∧
  (∀ c i, i < n → InCol M c i → ∃ r v, M.row_indices_[i]? = some r ∧ M.values_[i]? = some v ∧
    st.dense_matrix[r * M.cols_count_ + c]? = some v) ∧
  (∀ r c, r < M.rows_count_ → c < M.cols_count_ →
    (∀ i, i < n → InCol M c i → M.row_indices_[i]? ≠ some r) →
    st.dense_matrix[r * M.cols_count_ + c]? = some 0)

/-- The invariant of the first loop of `ComputeTranspose` after `n` stored entries. -/
def ComputeTranspose.GroupInv (M : SparseMatrix) (n : Nat) (st : TransposeState) : Prop :=
  st.count = n ∧
  st.grouped_values.length = max M.rows_count_ M.cols_count_ ∧
  st.grouped_values.map List.length = st.grouped_indices.map List.length ∧
  (0 < M.values_.length → st.current_col < M.cumulative_elements_.length)

/-- What `operator*` needs from an operand to address its stored entries: parallel
`values` and `row_indices`, and no cumulative count beyond their length. -/
def Addressable (M : SparseMatrix) : Prop :=
  M.row_indices_.length = M.values_.length ∧
  ∀ x ∈ M.cumulative_elements_, x ≤ M.values_.length

/-- The per-column buffers all have one slot per output column. -/
def ParState.Sized (n : Nat) (p : ParState) : Prop :=
  p.local_values_vec.length = n ∧ p.local_rows_vec.length = n ∧ p.local_counts.length = n

/-- The entry `operator*` keeps for output row `row` of output column `col`: the
accumulated sum when it is strictly greater than `kThreshold`, nothing otherwise. -/
def keptCell (T B : SparseMatrix) (col row : Nat) : Option (Nat × ℚ) :=
  (Multiply.cell T B row col).bind fun sum => if sum > kThreshold then some (row, sum) else none

/-- The entries `operator*` keeps among the first `n` output rows of output column `col`. -/
def productColumn (T B : SparseMatrix) (col n : Nat) : List (Nat × ℚ) :=
  (List.range n).filterMap (keptCell T B col)

/-- The columns of the product: one `productColumn` over all the rows of the transposed
first operand for each of the first `n` output columns. -/
def productColumns (T B : SparseMatrix) (n : Nat) : List (List (Nat × ℚ)) :=
  (List.range n).map fun c => productColumn T B c T.cumulative_elements_.length

/-- The state of the per-column buffers after the workers of columns `0 .. k-1` have run,
in that order, from empty buffers. -/
def Multiply.ColsInv (T B : SparseMatrix) (n elems k : Nat) (p : ParState) : Prop :=
  p.Sized n ∧
  (∀ c, c < n → p.local_values_vec[c]? = some
    (if c < k then (productColumn T B c T.cumulative_elements_.length).map Prod.snd else [])) ∧
  (∀ c, c < n → p.local_rows_vec[c]? = some
    (if c < k then (productColumn T B c T.cumulative_elements_.length).map Prod.fst else [])) ∧
  (∀ c, c < n → p.local_counts[c]? = some
    (if c < k then (productColumn T B c T.cumulative_elements_.length).length else 0)) ∧
  p.elems = elems + ((productColumns T B k).map List.length).sum

/-- What the first loop of `ComputeTranspose` maintains beyond `GroupInv`: the buckets at
or beyond `rows_count` stay empty, and the buckets hold `n` entries in all. -/
def ComputeTranspose.BucketInv (M : SparseMatrix) (n : Nat) (st : TransposeState) : Prop :=
  (∀ k, M.rows_count_ ≤ k → k < st.grouped_values.length → st.grouped_values[k]? = some []) ∧
  (st.grouped_values.map List.length).sum = n

/-- Entry `(i, j)` of the dense product of two row-major buffers, as a finite sum. -/
def denseEntry (A : List ℚ) (cA : Nat) (B : List ℚ) (cB : Nat) (i j : Nat) : ℚ :=
  ∑ k ∈ Finset.range cA, A[i * cA + k]?.getD 0 * B[k * cB + j]?.getD 0

/-- The rational `x` is a double: rounding leaves it as it is. -/
def IsDouble (x : ℚ) : Prop := roundDouble x = x

instance (x : ℚ) : Decidable (IsDouble x) := by
  unfold IsDouble; infer_instance

/-- Entry `(i, j)` of the dense product of two row-major buffers, accumulated in double
precision: from `0.0`, in increasing `k`, every product and every sum rounded. -/
def roundedDot (A : List ℚ) (cA : Nat) (B : List ℚ) (cB : Nat) (i j : Nat) : ℚ :=
  (List.range cA).foldl
    (fun sum k => roundDouble (sum + roundDouble (A[i * cA + k]?.getD 0 * B[k * cB + j]?.getD 0)))
    0

/-- An operand of the empty-input identity: the default-constructed matrix, or a matrix
built by `MatrixToSparse` with zero rows or zero columns. -/
def IsEmptyOperand (X : SparseMatrix) : Prop :=
  X = {} ∨ ∃ rows cols buffer, (rows = 0 ∨ cols = 0) ∧ MatrixToSparse rows cols buffer = some X

/-- A sequence of calls of `operator*`, one per pair of operands, threading the global
counter `elems`; the value is the list of products and the final counter. -/
def multiplyAll : List (SparseMatrix × SparseMatrix) → Nat → Option (List SparseMatrix × Nat)
  | [], elems => some ([], elems)
  | (A, B) :: rest, elems => do
    let (M, e) ← Multiply A B elems
    let (Ms, e') ← multiplyAll rest e
    pure (M :: Ms, e')

/-- All the accumulated sums of output column `col` are computed without fault. -/
def CellsSome (T B : SparseMatrix) (col : Nat) : Prop :=
  ∀ r, r < T.cumulative_elements_.length → ∃ s, Multiply.cell T B r col = some s

/-- The state of the per-column buffers after the workers of the columns `done` have run,
each once, from empty buffers. -/
def Multiply.OrderInv (T B : SparseMatrix) (n elems : Nat) (done : List Nat) (p : ParState) :
    Prop :=
  p.Sized n ∧
  (∀ c, c < n → p.local_values_vec[c]? = some
    (if c ∈ done then (productColumn T B c T.cumulative_elements_.length).map Prod.snd
      else [])) ∧
  (∀ c, c < n → p.local_rows_vec[c]? = some
    (if c ∈ done then (productColumn T B c T.cumulative_elements_.length).map Prod.fst
      else [])) ∧
  (∀ c, c < n → p.local_counts[c]? = some
    (if c ∈ done then (productColumn T B c T.cumulative_elements_.length).length else 0)) ∧
  p.elems = elems +
    (done.map fun c => (productColumn T B c T.cumulative_elements_.length).length).sum

/-- The per-column buffers once every column worker has run. -/
def Multiply.filled (T B : SparseMatrix) (n elems : Nat) : ParState :=
  { local_values_vec := (productColumns T B n).map (List.map Prod.snd)
    local_rows_vec := (productColumns T B n).map (List.map Prod.fst)
    local_counts := (productColumns T B n).map List.length
    elems := elems + ((productColumns T B n).map List.length).sum }

/-- The column of the stored index `i`: the first column whose cumulative count exceeds `i`. -/
def colOf (M : SparseMatrix) (i : Nat) : Nat :=
  M.cumulative_elements_.findIdx fun x => decide (i < x)

/-- Every column stores at least one entry. -/
def NonemptyCols (M : SparseMatrix) : Prop :=
  ∀ c, c < M.cumulative_elements_.length → colStart M c < colEnd M c

/-- The entries of row `k` among the first `n` stored entries, as `(column, value)` pairs
in storage order. -/
def rowBucket (M : SparseMatrix) (k n : Nat) : List (Nat × ℚ) :=
  ((List.range n).filter fun i => decide (M.row_indices_[i]?.getD 0 = k)).map
    fun i => (colOf M i, M.values_[i]?.getD 0)

/-- The columns of the transpose: one bucket per index below `max rows cols`. -/
def transposeColumns (M : SparseMatrix) : List (List (Nat × ℚ)) :=
  (List.range (max M.rows_count_ M.cols_count_)).map fun k => rowBucket M k M.values_.length

/-- The invariant of the first loop of `ComputeTranspose` on a matrix without empty
columns: `current_col` is the column of the last entry read, and bucket `k` holds the
entries of row `k` read so far, each filed under its own column. -/
def ComputeTranspose.FullInv (M : SparseMatrix) (n : Nat) (st : TransposeState) : Prop :=
  st.count = n ∧ (n = 0 → st.current_col = 0) ∧ (0 < n → InCol M st.current_col (n - 1)) ∧
  st.grouped_values = (List.range (max M.rows_count_ M.cols_count_)).map
    (fun k => (rowBucket M k n).map Prod.snd) ∧
  st.grouped_indices = (List.range (max M.rows_count_ M.cols_count_)).map
    (fun k => (rowBucket M k n).map Prod.fst)

/-- The sum `operator*` accumulates over two columns of `(row, value)` pairs: the products
of the values of every pair of entries with equal row index. -/
def pairSum (X Y : List (Nat × ℚ)) : ℚ :=
  (X.map fun x => (Y.map fun y => if x.1 = y.1 then x.2 * y.2 else 0).sum).sum

/-- A dense entry as the sparse form sees it: entries of magnitude at most the threshold
count as 0. -/
def thresholded (x : ℚ) : ℚ := if |x| > kThreshold then x else 0

/-- The entries of row `row` of a dense buffer that `MatrixToSparse` keeps among the first
`n` columns, as `(column, value)` pairs in increasing column order. -/
def keptRow (columns_count : Nat) (values : List ℚ) (row n : Nat) : List (Nat × ℚ) :=
  ((List.range n).filter fun k =>
      decide (|values[row * columns_count + k]?.getD 0| > kThreshold)).map
    fun k => (k, values[row * columns_count + k]?.getD 0)

/-- The sum of `operator*` for output cell `(r, c)` in terms of the dense operands: the
dot product of row `r` of `A` and column `c` of `B`, both thresholded. -/
def thresholdedDot (A : List ℚ) (cA : Nat) (B : List ℚ) (cB : Nat) (r c : Nat) : ℚ :=
  ∑ k ∈ Finset.range cA, thresholded (A[r * cA + k]?.getD 0) * thresholded (B[k * cB + c]?.getD 0)

/-! ## Loop lemmas -/

theorem forRange_zero {σ : Type} (init : σ) (body : σ → Nat → Option σ) :
    forRange 0 init body = some init := rfl

theorem forRange_succ {σ : Type} (n : Nat) (init : σ) (body : σ → Nat → Option σ) :
    forRange (n + 1) init body = (forRange n init body).bind fun st => body st n := by
  unfold forRange
  rw [List.range_succ, List.foldlM_append]
  cases h : List.foldlM body init (List.range n) <;> simp [h]

/-- Loop invariant rule giving both termination without fault and the invariant. -/
theorem forRange_inv {σ : Type} (Inv : Nat → σ → Prop) (n : Nat) (init : σ)
    (body : σ → Nat → Option σ) (h0 : Inv 0 init)
    (hstep : ∀ i st, i < n → Inv i st → ∃ st', body st i = some st' ∧ Inv (i + 1) st') :
    ∃ st, forRange n init body = some st ∧ Inv n st := by
  induction n with
  | zero => exact ⟨init, rfl, h0⟩
  | succ n ih =>
    obtain ⟨st, hst, hinv⟩ := ih fun i st hi => hstep i st (Nat.lt_succ_of_lt hi)
    obtain ⟨st', hst', hinv'⟩ := hstep n st (Nat.lt_succ_self n) hinv
    exact ⟨st', by rw [forRange_succ, hst]; exact hst', hinv'⟩

/-- Loop invariant rule for a run that is known to have finished. -/
theorem forRange_inv_of_eq_some {σ : Type} (Inv : Nat → σ → Prop) {n : Nat} {init st : σ}
    {body : σ → Nat → Option σ} (h0 : Inv 0 init)
    (hstep : ∀ i s s', i < n → Inv i s → body s i = some s' → Inv (i + 1) s')
    (h : forRange n init body = some st) : Inv n st := by
  induction n generalizing st with
  | zero =>
    rw [forRange_zero] at h
    cases h
    exact h0
  | succ n ih =>
    rw [forRange_succ] at h
    obtain ⟨s, hs, hs'⟩ := Option.bind_eq_some.mp h
    exact hstep n s st (Nat.lt_succ_self n)
      (ih (fun i a b hi => hstep i a b (Nat.lt_succ_of_lt hi)) hs) hs'


theorem keptEntries_succ (cols : Nat) (values : List ℚ) (col n : Nat) :
    keptEntries cols values col (n + 1) = keptEntries cols values col n ++
      (if |values[n * cols + col]?.getD 0| > kThreshold
        then [(n, values[n * cols + col]?.getD 0)] else []) := by
  unfold keptEntries
  rw [List.range_succ, List.filter_append, List.map_append]
  by_cases h : |values[n * cols + col]?.getD 0| > kThreshold
  · rw [if_pos h, List.filter_cons_of_pos (by simpa using h)]; rfl
  · rw [if_neg h, List.filter_cons_of_neg (by simpa using h)]; rfl

theorem MatrixToSparse.rows_loop (cols : Nat) (values : List ℚ) (col : Nat)
    (st : ToSparseState) (n : Nat) (hb : ∀ row, row < n → row * cols + col < values.length) :
    forRange n st (MatrixToSparse.rowStep cols values col) = some
      { sparse_values := st.sparse_values ++ (keptEntries cols values col n).map Prod.snd
        row_indices := st.row_indices ++ (keptEntries cols values col n).map Prod.fst
        cumulative_elements := st.cumulative_elements
        count := st.count + (keptEntries cols values col n).length } := by
  induction n with
  | zero => simp [forRange_zero, keptEntries]
  | succ n ih =>
    have hlt := hb n (Nat.lt_succ_self n)
    rw [forRange_succ, ih fun row hr => hb row (Nat.lt_succ_of_lt hr), keptEntries_succ]
    obtain ⟨v, hv⟩ : ∃ v, values[n * cols + col]? = some v :=
      ⟨_, List.getElem?_eq_getElem hlt⟩
    by_cases h : |v| > kThreshold
    · simp [MatrixToSparse.rowStep, hv, h, Nat.add_assoc]
    · simp [MatrixToSparse.rowStep, hv, h]


theorem prefixSums_length (lens : List Nat) : (prefixSums lens).length = lens.length := by
  simp [prefixSums]

theorem prefixSums_append_singleton (lens : List Nat) (x : Nat) :
    prefixSums (lens ++ [x]) = prefixSums lens ++ [lens.sum + x] := by
  unfold prefixSums
  rw [List.length_append, List.length_singleton, List.range_succ, List.map_append]
  congr 1
  · apply List.map_congr_left
    intro c hc
    rw [List.mem_range] at hc
    rw [List.take_append_of_le_length (by omega)]
  · simp

theorem dense_index_lt {rows cols row col : Nat} (hr : row < rows) (hc : col < cols) :
    row * cols + col < rows * cols := by
  calc row * cols + col < row * cols + cols := by omega
    _ = (row + 1) * cols := by ring
    _ ≤ rows * cols := Nat.mul_le_mul_right cols hr

theorem MatrixToSparse.cols_loop (rows cols : Nat) (values : List ℚ)
    (hlen : values.length = rows * cols) (n : Nat) (hn : n ≤ cols) :
    forRange n ⟨[], [], [], 0⟩ (MatrixToSparse.colStep rows cols values) = some
      { sparse_values := (ofColumns rows cols (keptColumns rows cols values n)).values_
        row_indices := (ofColumns rows cols (keptColumns rows cols values n)).row_indices_
        cumulative_elements :=
          (ofColumns rows cols (keptColumns rows cols values n)).cumulative_elements_
        count := ((keptColumns rows cols values n).map List.length).sum } := by
  induction n with
  | zero => simp [forRange_zero, keptColumns, ofColumns, prefixSums]
  | succ n ih =>
    rw [forRange_succ, ih (Nat.le_of_succ_le hn)]
    have hb : ∀ row, row < rows → row * cols + n < values.length := fun row hr => by
      rw [hlen]; exact dense_index_lt hr hn
    have hk : keptColumns rows cols values (n + 1) =
        keptColumns rows cols values n ++ [keptEntries cols values n rows] := by
      simp [keptColumns, List.range_succ]
    simp only [Option.some_bind, MatrixToSparse.colStep, Option.bind_eq_bind,
      MatrixToSparse.rows_loop cols values n _ rows hb, Option.pure_def, hk, ofColumns,
      List.map_append, List.map_cons, List.map_nil, List.flatten_append, List.flatten_cons,
      List.flatten_nil, List.append_nil, prefixSums_append_singleton, List.sum_append,
      List.sum_cons, List.sum_nil, Nat.add_zero]

/-- The function `MatrixToSparse` never faults on a buffer of `rows * cols` entries, and
its result stores, column by column, the kept entries. -/
theorem MatrixToSparse_eq (rows cols : Nat) (values : List ℚ)
    (hlen : values.length = rows * cols) :
    MatrixToSparse rows cols values =
      some (ofColumns rows cols (keptColumns rows cols values cols)) := by
  simp [MatrixToSparse, MatrixToSparse.cols_loop rows cols values hlen cols (Nat.le_refl _),
    ofColumns]


/-! ## Index facts about `ofColumns` -/

theorem prefixSums_getElem? (lens : List Nat) (c : Nat) (hc : c < lens.length) :
    (prefixSums lens)[c]? = some (lens.take (c + 1)).sum := by
  simp [prefixSums, List.getElem?_map, List.getElem?_range hc]

theorem sum_take_mono (lens : List Nat) : Monotone fun c => (lens.take c).sum := by
  apply monotone_nat_of_le_succ
  intro c
  by_cases hc : c < lens.length
  · simp only [List.sum_take_succ lens c hc]; omega
  · rw [List.take_of_length_le (by omega), List.take_of_length_le (by omega)]

theorem prefixSums_pairwise (lens : List Nat) : (prefixSums lens).Pairwise (· ≤ ·) := by
  rw [List.pairwise_iff_getElem]
  intro i j hi hj hij
  simp only [prefixSums, List.getElem_map, List.getElem_range]
  exact sum_take_mono lens (by omega)

theorem prefixSums_getLast? (lens : List Nat) :
    (prefixSums lens).getLast?.getD 0 = lens.sum := by
  rw [List.getLast?_eq_getElem?, prefixSums_length]
  cases lens with
  | nil => rfl
  | cons a l =>
    rw [prefixSums_getElem? _ _ (by simp)]
    simp

theorem prefixSums_mem_le (lens : List Nat) : ∀ x ∈ prefixSums lens, x ≤ lens.sum := by
  intro x hx
  simp only [prefixSums, List.mem_map, List.mem_range] at hx
  obtain ⟨c, _, rfl⟩ := hx
  have := sum_take_mono lens (show c + 1 ≤ max (c + 1) lens.length from le_max_left _ _)
  simpa [List.take_of_length_le (le_max_right (c + 1) lens.length)] using this

section ofColumns

variable (rows cols : Nat) (L : List (List (Nat × ℚ)))

theorem ofColumns_values_length :
    (ofColumns rows cols L).values_.length = (L.map List.length).sum := by
  simp [ofColumns, List.length_flatten, Function.comp_def]

theorem ofColumns_rows_length :
    (ofColumns rows cols L).row_indices_.length = (L.map List.length).sum := by
  simp [ofColumns, List.length_flatten, Function.comp_def]

theorem ofColumns_cumulative_length :
    (ofColumns rows cols L).cumulative_elements_.length = L.length := by
  simp [ofColumns, prefixSums_length]

theorem ofColumns_colEnd (c : Nat) (hc : c < L.length) :
    colEnd (ofColumns rows cols L) c = ((L.map List.length).take (c + 1)).sum := by
  have h1 : c < (L.map List.length).length := by simpa using hc
  simp [colEnd, ofColumns, prefixSums_getElem? _ c h1]

theorem ofColumns_colStart (c : Nat) (hc : c < L.length) :
    colStart (ofColumns rows cols L) c = ((L.map List.length).take c).sum := by
  unfold colStart
  split
  · subst_vars; simp
  · have h1 : c - 1 < (L.map List.length).length := by simp; omega
    have h2 : c - 1 + 1 = c := by omega
    simp [ofColumns, prefixSums_getElem? _ (c - 1) h1, h2]

theorem ofColumns_colRows (c : Nat) (hc : c < L.length) :
    colRows (ofColumns rows cols L) c = L[c].map Prod.fst := by
  have h := List.drop_take_succ_flatten_eq_getElem (L.map (List.map Prod.fst)) c
    (by simpa using hc)
  have hl : (L.map (List.map Prod.fst)).map List.length = L.map List.length := by
    simp [Function.comp_def]
  rw [hl] at h
  rw [colRows, ofColumns_colEnd rows cols L c hc, ofColumns_colStart rows cols L c hc]
  simpa [ofColumns] using h

theorem ofColumns_colValues (c : Nat) (hc : c < L.length) :
    colValues (ofColumns rows cols L) c = L[c].map Prod.snd := by
  have h := List.drop_take_succ_flatten_eq_getElem (L.map (List.map Prod.snd)) c
    (by simpa using hc)
  have hl : (L.map (List.map Prod.snd)).map List.length = L.map List.length := by
    simp [Function.comp_def]
  rw [hl] at h
  rw [colValues, ofColumns_colEnd rows cols L c hc, ofColumns_colStart rows cols L c hc]
  simpa [ofColumns] using h

theorem ofColumns_wellFormed (hlen : L.length = cols)
    (hrow : ∀ col ∈ L, ∀ e ∈ col, e.1 < rows)
    (hsorted : ∀ col ∈ L, (col.map Prod.fst).Pairwise (· < ·)) :
    WellFormed (ofColumns rows cols L) := by
  refine ⟨?_, ?_, ?_, ?_, ?_, ?_⟩
  · rw [ofColumns_cumulative_length]; exact hlen
  · exact prefixSums_pairwise _
  · rw [ofColumns_values_length]; exact prefixSums_getLast? _
  · rw [ofColumns_values_length, ofColumns_rows_length]
  · intro r hr
    simp only [ofColumns, List.mem_flatten, List.mem_map] at hr
    obtain ⟨l, ⟨col, hcol, rfl⟩, hr⟩ := hr
    obtain ⟨e, he, rfl⟩ := List.mem_map.mp hr
    exact hrow col hcol e he
  · intro c hc
    have hcL : c < L.length := by rw [hlen]; exact List.mem_range.mp hc
    rw [ofColumns_colRows rows cols L c hcL]
    exact hsorted _ (List.getElem_mem _)

end ofColumns


/-! ## Consequences of well-formedness, by index -/

theorem colRows_getElem? (M : SparseMatrix) (c k : Nat) :
    (colRows M c)[k]? =
      if colStart M c + k < colEnd M c then M.row_indices_[colStart M c + k]? else none := by
  simp [colRows, List.getElem?_drop, List.getElem?_take]

theorem colValues_getElem? (M : SparseMatrix) (c k : Nat) :
    (colValues M c)[k]? =
      if colStart M c + k < colEnd M c then M.values_[colStart M c + k]? else none := by
  simp [colValues, List.getElem?_drop, List.getElem?_take]

theorem pairwise_le_getElem?_mono {l : List Nat} (h : l.Pairwise (· ≤ ·)) {i j a b : Nat}
    (hij : i ≤ j) (ha : l[i]? = some a) (hb : l[j]? = some b) : a ≤ b := by
  obtain ⟨hi, rfl⟩ := List.getElem?_eq_some.mp ha
  obtain ⟨hj, rfl⟩ := List.getElem?_eq_some.mp hb
  rcases Nat.eq_or_lt_of_le hij with rfl | hlt
  · exact Nat.le_refl _
  · exact List.pairwise_iff_getElem.mp h i j hi hj hlt

theorem colStart_succ (M : SparseMatrix) (c : Nat) : colStart M (c + 1) = colEnd M c := by
  simp [colStart, colEnd]

namespace WellFormed

variable {M : SparseMatrix} (wf : WellFormed M)
include wf

theorem cum_length : M.cumulative_elements_.length = M.cols_count_ := wf.1

theorem cum_sorted : M.cumulative_elements_.Pairwise (· ≤ ·) := wf.2.1

theorem cum_last : M.cumulative_elements_.getLast?.getD 0 = M.values_.length := wf.2.2.1

theorem rows_length : M.row_indices_.length = M.values_.length := wf.2.2.2.1

theorem row_lt : ∀ r ∈ M.row_indices_, r < M.rows_count_ := wf.2.2.2.2.1

theorem col_sorted {c : Nat} (hc : c < M.cols_count_) : (colRows M c).Pairwise (· < ·) :=
  wf.2.2.2.2.2 c (List.mem_range.mpr hc)

/-- Every cumulative count is at most the number of stored values. -/
theorem cum_le {c x : Nat} (h : M.cumulative_elements_[c]? = some x) : x ≤ M.values_.length := by
  have hc := (List.getElem?_eq_some.mp h).1
  obtain ⟨y, hy⟩ : ∃ y, M.cumulative_elements_[M.cumulative_elements_.length - 1]? = some y :=
    ⟨_, List.getElem?_eq_getElem (by omega)⟩
  have hlast := wf.cum_last
  rw [List.getLast?_eq_getElem?, hy] at hlast
  have := pairwise_le_getElem?_mono wf.cum_sorted (show c ≤ _ by omega) h hy
  simp at hlast
  omega

theorem colEnd_le (c : Nat) : colEnd M c ≤ M.values_.length := by
  unfold colEnd
  cases h : M.cumulative_elements_[c]? with
  | none => simp
  | some x => simpa using wf.cum_le h

theorem colEnd_mono {c c' : Nat} (h : c ≤ c') (hc' : c' < M.cumulative_elements_.length) :
    colEnd M c ≤ colEnd M c' := by
  unfold colEnd
  rw [List.getElem?_eq_getElem hc', List.getElem?_eq_getElem (by omega)]
  exact pairwise_le_getElem?_mono wf.cum_sorted h (List.getElem?_eq_getElem (by omega))
    (List.getElem?_eq_getElem hc')

theorem colEnd_le_colStart {c c' : Nat} (h : c < c') (hc' : c' < M.cumulative_elements_.length) :
    colEnd M c ≤ colStart M c' := by
  obtain ⟨d, rfl⟩ : ∃ d, c' = d + 1 := ⟨c' - 1, by omega⟩
  rw [colStart_succ]
  exact wf.colEnd_mono (by omega) (by omega)

/-- A stored index lies in at most one column. -/
theorem inCol_unique {c c' i : Nat} (h : InCol M c i) (h' : InCol M c' i) : c = c' := by
  by_contra hne
  rcases Nat.lt_or_gt_of_ne hne with hlt | hlt
  · have := wf.colEnd_le_colStart hlt h'.1
    have := h.2.2
    have := h'.2.1
    omega
  · have := wf.colEnd_le_colStart hlt h.1
    have := h'.2.2
    have := h.2.1
    omega

theorem inCol_lt_length {c i : Nat} (h : InCol M c i) : i < M.values_.length :=
  Nat.lt_of_lt_of_le h.2.2 (wf.colEnd_le c)

/-- Within one column the stored row indices are strictly increasing. -/
theorem rows_strict {c i j : Nat} (hi : InCol M c i) (hj : InCol M c j) (hij : i < j) :
    ∃ ri rj, M.row_indices_[i]? = some ri ∧ M.row_indices_[j]? = some rj ∧ ri < rj := by
  have hc : c < M.cols_count_ := by rw [← wf.cum_length]; exact hi.1
  have hs := wf.col_sorted hc
  have hil : i < M.row_indices_.length := by rw [wf.rows_length]; exact wf.inCol_lt_length hi
  have hjl : j < M.row_indices_.length := by rw [wf.rows_length]; exact wf.inCol_lt_length hj
  have e1 : (colRows M c)[i - colStart M c]? = some M.row_indices_[i] := by
    rw [colRows_getElem?, if_pos (by have := hi.2.1; have := hi.2.2; omega)]
    rw [show colStart M c + (i - colStart M c) = i by have := hi.2.1; omega]
    exact List.getElem?_eq_getElem hil
  have e2 : (colRows M c)[j - colStart M c]? = some M.row_indices_[j] := by
    rw [colRows_getElem?, if_pos (by have := hj.2.1; have := hj.2.2; omega)]
    rw [show colStart M c + (j - colStart M c) = j by have := hj.2.1; omega]
    exact List.getElem?_eq_getElem hjl
  obtain ⟨h1, e1⟩ := List.getElem?_eq_some.mp e1
  obtain ⟨h2, e2⟩ := List.getElem?_eq_some.mp e2
  refine ⟨_, _, List.getElem?_eq_getElem hil, List.getElem?_eq_getElem hjl, ?_⟩
  rw [← e1, ← e2]
  exact List.pairwise_iff_getElem.mp hs _ _ h1 h2 (by have := hi.2.1; omega)

end WellFormed

/-! ## Densification of a well-formed matrix -/

theorem WellFormed.colEnd_last {M : SparseMatrix} (wf : WellFormed M) :
    colEnd M (M.cumulative_elements_.length - 1) = M.values_.length := by
  have := wf.cum_last
  rwa [List.getLast?_eq_getElem?] at this

theorem WellFormed.cum_pos_of_values {M : SparseMatrix} (wf : WellFormed M)
    (h : 0 < M.values_.length) : 0 < M.cumulative_elements_.length := by
  by_contra h0
  have hnil : M.cumulative_elements_ = [] := List.length_eq_zero.mp (by omega)
  have := wf.cum_last
  rw [hnil] at this
  simp at this
  omega

theorem colEnd_eq_getElem (M : SparseMatrix) {c : Nat} (hc : c < M.cumulative_elements_.length) :
    colEnd M c = M.cumulative_elements_[c] := by
  simp [colEnd, List.getElem?_eq_getElem hc]

/-- The column-advance loop started at a column whose range has not been passed stops,
inside the vector, at the column that holds stored index `n`. -/
theorem FromSparseMatrix.skip_spec {M : SparseMatrix} (wf : WellFormed M) {n : Nat}
    (hn : n < M.values_.length) (k : Nat) :
    ∀ col, M.cumulative_elements_.length - col = k → col < M.cumulative_elements_.length →
      colStart M col ≤ n → n ≤ colEnd M col →
      ∃ col', FromSparseMatrix.skip n (M.cumulative_elements_.drop col) col = some col' ∧
        InCol M col' n := by
  induction k with
  | zero => intro col hk hc; omega
  | succ k ih =>
    intro col hk hc hs he
    rw [List.drop_eq_getElem_cons hc, FromSparseMatrix.skip]
    by_cases heq : n = M.cumulative_elements_[col]
    · rw [if_pos heq]
      have hc1 : col + 1 < M.cumulative_elements_.length := by
        by_contra hcon
        have hlast := wf.colEnd_last
        rw [show M.cumulative_elements_.length - 1 = col by omega, colEnd_eq_getElem M hc] at hlast
        omega
      apply ih (col + 1) (by omega) hc1
      · rw [colStart_succ, colEnd_eq_getElem M hc]; omega
      · have := wf.colEnd_mono (Nat.le_add_right col 1) hc1
        rw [colEnd_eq_getElem M hc] at this
        omega
    · rw [if_neg heq]
      refine ⟨col, rfl, hc, hs, ?_⟩
      rw [colEnd_eq_getElem M hc] at he ⊢
      omega

theorem dense_index_inj {cols r c r' c' : Nat} (hc : c < cols) (hc' : c' < cols)
    (h : r * cols + c = r' * cols + c') : r = r' ∧ c = c' := by
  have h1 : (r * cols + c) % cols = c := by
    rw [Nat.add_comm, Nat.add_mul_mod_self_right, Nat.mod_eq_of_lt hc]
  have h2 : (r' * cols + c') % cols = c' := by
    rw [Nat.add_comm, Nat.add_mul_mod_self_right, Nat.mod_eq_of_lt hc']
  have hcc : c = c' := by rw [← h1, ← h2, h]
  subst hcc
  have hpos : 0 < cols := by omega
  exact ⟨Nat.eq_of_mul_eq_mul_right hpos (by omega), rfl⟩

theorem FromSparseMatrix.step_inv {M : SparseMatrix} (wf : WellFormed M) (n : Nat)
    (st : FromSparseState) (hn : n < M.values_.length) (hinv : FromSparseMatrix.Inv M n st) :
    ∃ st', FromSparseMatrix.step M st n = some st' ∧ FromSparseMatrix.Inv M (n + 1) st' := by
  obtain ⟨hcount, hlen, hzero, hpos, hA, hB⟩ := hinv
  have hcumpos := wf.cum_pos_of_values (by omega)
  -- the column-advance loop
  have hpre : st.col < M.cumulative_elements_.length ∧ colStart M st.col ≤ n ∧
      n ≤ colEnd M st.col := by
    rcases Nat.eq_zero_or_pos n with h0 | h0
    · rw [hzero h0, h0]; exact ⟨hcumpos, by simp [colStart], Nat.zero_le _⟩
    · obtain ⟨h1, h2, h3⟩ := hpos h0
      exact ⟨h1, by omega, by omega⟩
  obtain ⟨col', hskip, hcol'⟩ := FromSparseMatrix.skip_spec wf hn _ st.col rfl hpre.1 hpre.2.1
    hpre.2.2
  have hcol'lt : col' < M.cols_count_ := by rw [← wf.cum_length]; exact hcol'.1
  -- the reads
  have hnr : n < M.row_indices_.length := by rw [wf.rows_length]; exact hn
  have hrow : M.row_indices_[n] < M.rows_count_ := wf.row_lt _ (List.getElem_mem _)
  have hidx : M.row_indices_[n] * M.cols_count_ + col' < st.dense_matrix.length := by
    rw [hlen]; exact dense_index_lt hrow hcol'lt
  refine ⟨⟨st.dense_matrix.set (M.row_indices_[n] * M.cols_count_ + col') M.values_[n], col',
    st.count + 1⟩, ?_, ?_⟩
  · simp [FromSparseMatrix.step, hcount, hskip, List.getElem?_eq_getElem hnr,
      List.getElem?_eq_getElem hn, writeAt, hidx]
  · refine ⟨by simp [hcount], by simpa using hlen, by omega, fun _ => by simpa using hcol',
      ?_, ?_⟩
    · intro c i hi hic
      rcases Nat.eq_or_lt_of_le (Nat.le_of_lt_succ hi) with rfl | hlt
      · have := wf.inCol_unique hic hcol'
        subst this
        exact ⟨_, _, List.getElem?_eq_getElem hnr, List.getElem?_eq_getElem hn,
          List.getElem?_set_self hidx⟩
      · obtain ⟨r, v, hr, hv, hd⟩ := hA c i hlt hic
        refine ⟨r, v, hr, hv, ?_⟩
        simp only
        rw [List.getElem?_set_ne]
        · exact hd
        · intro heq
          have hc : c < M.cols_count_ := by rw [← wf.cum_length]; exact hic.1
          obtain ⟨hrr, hcc⟩ := dense_index_inj hcol'lt hc heq
          subst hcc
          obtain ⟨ri, rj, e1, e2, hlt'⟩ := wf.rows_strict hic hcol' hlt
          rw [List.getElem?_eq_getElem hnr] at e2
          rw [hr] at e1
          cases e1; cases e2
          omega
    · intro r c hr hc hnone
      simp only
      rw [List.getElem?_set_ne]
      · exact hB r c hr hc fun i hi => hnone i (Nat.lt_succ_of_lt hi)
      · intro heq
        obtain ⟨hrr, hcc⟩ := dense_index_inj hcol'lt hc heq
        subst hcc
        exact hnone n (Nat.lt_succ_self n) hcol' (by rw [List.getElem?_eq_getElem hnr, hrr])

/-- Densification of a well-formed matrix never faults; the result has `rows * cols`
entries, holds every stored value at the position of its row and column, and is zero at
every position for which nothing is stored. -/
theorem FromSparseMatrix_spec {M : SparseMatrix} (wf : WellFormed M) :
    ∃ d, FromSparseMatrix M = some d ∧ d.length = M.rows_count_ * M.cols_count_ ∧
      (∀ c i, InCol M c i → ∃ r v, M.row_indices_[i]? = some r ∧ M.values_[i]? = some v ∧
        d[r * M.cols_count_ + c]? = some v) ∧
      (∀ r c, r < M.rows_count_ → c < M.cols_count_ →
        (∀ i, InCol M c i → M.row_indices_[i]? ≠ some r) →
        d[r * M.cols_count_ + c]? = some 0) := by
  obtain ⟨st, hst, hinv⟩ := forRange_inv (FromSparseMatrix.Inv M)
    M.values_.length ⟨List.replicate (M.rows_count_ * M.cols_count_) (0 : ℚ), 0, 0⟩
    (FromSparseMatrix.step M)
    ⟨rfl, by simp, fun _ => rfl, fun h => absurd h (Nat.lt_irrefl 0),
      fun c i hi => absurd hi (Nat.not_lt_zero i),
      fun r c hr hc _ => by
        simp [List.getElem?_replicate, dense_index_lt hr hc]⟩
    (fun i st hi hinv => FromSparseMatrix.step_inv wf i st hi hinv)
  obtain ⟨_, hlen, _, _, hA, hB⟩ := hinv
  refine ⟨st.dense_matrix, by simp [FromSparseMatrix, hst], hlen, ?_, ?_⟩
  · intro c i hic
    exact hA c i (wf.inCol_lt_length hic) hic
  · intro r c hr hc hnone
    exact hB r c hr hc fun i _ => hnone i

/-! ## Stored entries of `ofColumns`, by index -/

theorem ofColumns_colEnd_eq (rows cols : Nat) (L : List (List (Nat × ℚ))) (c : Nat)
    (hc : c < L.length) :
    colEnd (ofColumns rows cols L) c = colStart (ofColumns rows cols L) c + L[c].length := by
  rw [ofColumns_colEnd rows cols L c hc, ofColumns_colStart rows cols L c hc,
    List.sum_take_succ _ c (by simpa using hc)]
  simp

/-- A stored index of column `c` of `ofColumns rows cols L` holds one of the pairs of `L[c]`. -/
theorem ofColumns_entry_of_inCol (rows cols : Nat) (L : List (List (Nat × ℚ))) {c i : Nat}
    (h : InCol (ofColumns rows cols L) c i) :
    ∃ (hc : c < L.length) (e : Nat × ℚ), e ∈ L[c] ∧
      (ofColumns rows cols L).row_indices_[i]? = some e.1 ∧
      (ofColumns rows cols L).values_[i]? = some e.2 := by
  have hc : c < L.length := by
    have := h.1
    rwa [ofColumns_cumulative_length] at this
  have hend := ofColumns_colEnd_eq rows cols L c hc
  have hk : i - colStart (ofColumns rows cols L) c < L[c].length := by
    have := h.2.1; have := h.2.2; omega
  have hi : colStart (ofColumns rows cols L) c + (i - colStart (ofColumns rows cols L) c) = i := by
    have := h.2.1; omega
  refine ⟨hc, L[c][i - colStart (ofColumns rows cols L) c], List.getElem_mem _, ?_, ?_⟩
  · have h1 := colRows_getElem? (ofColumns rows cols L) c (i - colStart (ofColumns rows cols L) c)
    rw [hi, if_pos h.2.2, ofColumns_colRows rows cols L c hc] at h1
    rw [← h1, List.getElem?_map, List.getElem?_eq_getElem hk]
    rfl
  · have h1 := colValues_getElem? (ofColumns rows cols L) c
      (i - colStart (ofColumns rows cols L) c)
    rw [hi, if_pos h.2.2, ofColumns_colValues rows cols L c hc] at h1
    rw [← h1, List.getElem?_map, List.getElem?_eq_getElem hk]
    rfl

/-- Every pair of `L[c]` is stored at some index of column `c` of `ofColumns rows cols L`. -/
theorem ofColumns_inCol_of_mem (rows cols : Nat) (L : List (List (Nat × ℚ))) {c : Nat}
    (hc : c < L.length) {e : Nat × ℚ} (he : e ∈ L[c]) :
    ∃ i, InCol (ofColumns rows cols L) c i ∧
      (ofColumns rows cols L).row_indices_[i]? = some e.1 ∧
      (ofColumns rows cols L).values_[i]? = some e.2 := by
  obtain ⟨k, hk, rfl⟩ := List.mem_iff_getElem.mp he
  have hend := ofColumns_colEnd_eq rows cols L c hc
  have hin : InCol (ofColumns rows cols L) c (colStart (ofColumns rows cols L) c + k) :=
    ⟨by rw [ofColumns_cumulative_length]; exact hc, Nat.le_add_right _ _, by omega⟩
  refine ⟨_, hin, ?_, ?_⟩
  · have h1 := colRows_getElem? (ofColumns rows cols L) c k
    rw [if_pos hin.2.2, ofColumns_colRows rows cols L c hc] at h1
    rw [← h1, List.getElem?_map, List.getElem?_eq_getElem hk]
    rfl
  · have h1 := colValues_getElem? (ofColumns rows cols L) c k
    rw [if_pos hin.2.2, ofColumns_colValues rows cols L c hc] at h1
    rw [← h1, List.getElem?_map, List.getElem?_eq_getElem hk]
    rfl

/-! ## What `MatrixToSparse` keeps -/

theorem mem_keptEntries {cols : Nat} {values : List ℚ} {col n : Nat} {e : Nat × ℚ} :
    e ∈ keptEntries cols values col n ↔
      e.1 < n ∧ |values[e.1 * cols + col]?.getD 0| > kThreshold ∧
        e.2 = values[e.1 * cols + col]?.getD 0 := by
  obtain ⟨r, v⟩ := e
  simp only [keptEntries, List.mem_map, List.mem_filter, List.mem_range, decide_eq_true_eq,
    Prod.mk.injEq]
  constructor
  · rintro ⟨a, ⟨ha, hk⟩, rfl, rfl⟩
    exact ⟨ha, hk, rfl⟩
  · rintro ⟨ha, hk, hv⟩
    exact ⟨r, ⟨ha, hk⟩, rfl, hv.symm⟩

theorem keptEntries_fst_pairwise (cols : Nat) (values : List ℚ) (col n : Nat) :
    ((keptEntries cols values col n).map Prod.fst).Pairwise (· < ·) := by
  have : (keptEntries cols values col n).map Prod.fst = (List.range n).filter fun row =>
      decide (|values[row * cols + col]?.getD 0| > kThreshold) := by
    simp [keptEntries, Function.comp_def]
  rw [this]
  exact List.Pairwise.filter _ (List.pairwise_lt_range n)

theorem keptEntries_length_le (cols : Nat) (values : List ℚ) (col n : Nat) :
    (keptEntries cols values col n).length ≤ n := by
  unfold keptEntries
  rw [List.length_map]
  exact (List.length_filter_le _ _).trans (by simp)

theorem keptColumns_length (rows cols : Nat) (values : List ℚ) (n : Nat) :
    (keptColumns rows cols values n).length = n := by
  simp [keptColumns]

theorem keptColumns_getElem (rows cols : Nat) (values : List ℚ) (n c : Nat)
    (hc : c < (keptColumns rows cols values n).length) :
    (keptColumns rows cols values n)[c] = keptEntries cols values c rows := by
  simp [keptColumns]

theorem mem_keptColumns {rows cols : Nat} {values : List ℚ} {n : Nat} {col : List (Nat × ℚ)}
    (h : col ∈ keptColumns rows cols values n) :
    ∃ c, c < n ∧ col = keptEntries cols values c rows := by
  simp only [keptColumns, List.mem_map, List.mem_range] at h
  obtain ⟨c, hc, rfl⟩ := h
  exact ⟨c, hc, rfl⟩

theorem keptColumns_wellFormed (rows cols : Nat) (values : List ℚ) :
    WellFormed (ofColumns rows cols (keptColumns rows cols values cols)) := by
  apply ofColumns_wellFormed
  · exact keptColumns_length rows cols values cols
  · intro col hcol e he
    obtain ⟨c, _, rfl⟩ := mem_keptColumns hcol
    exact (mem_keptEntries.mp he).1
  · intro col hcol
    obtain ⟨c, _, rfl⟩ := mem_keptColumns hcol
    exact keptEntries_fst_pairwise cols values c rows

theorem keptColumns_total_le (rows cols : Nat) (values : List ℚ) (n : Nat) :
    ((keptColumns rows cols values n).map List.length).sum ≤ rows * n := by
  have h := List.sum_le_card_nsmul ((keptColumns rows cols values n).map List.length) rows
    (by
      intro x hx
      obtain ⟨col, hcol, rfl⟩ := List.mem_map.mp hx
      obtain ⟨c, _, rfl⟩ := mem_keptColumns hcol
      exact keptEntries_length_le cols values c rows)
  simpa [keptColumns_length, Nat.mul_comm] using h

/-! ## Claims about the dense/sparse conversions -/

/-- C9 (shape invariant of conversion): for every buffer of length `rows * cols`,
`MatrixToSparse` returns a matrix whose `values` and `row_indices` have the same length,
at most `rows * cols`; whose cumulative counts have exactly `cols` entries and are
non-decreasing; and, when `cols > 0`, whose last cumulative count is the number of stored
values. -/
theorem MatrixToSparse_shape_invariant (rows cols : Nat) (values : List ℚ)
    (hlen : values.length = rows * cols) :
    ∃ M, MatrixToSparse rows cols values = some M ∧
      M.values_.length = M.row_indices_.length ∧
      M.values_.length ≤ rows * cols ∧
      M.cumulative_elements_.length = cols ∧
      (∀ (i j a b : Nat), i ≤ j → M.cumulative_elements_[i]? = some a →
        M.cumulative_elements_[j]? = some b → a ≤ b) ∧
      (0 < cols → M.cumulative_elements_.getLast? = some M.values_.length) := by
  have wf := keptColumns_wellFormed rows cols values
  refine ⟨_, MatrixToSparse_eq rows cols values hlen, wf.rows_length.symm, ?_, ?_, ?_, ?_⟩
  · rw [ofColumns_values_length]
    exact keptColumns_total_le rows cols values cols
  · rw [ofColumns_cumulative_length, keptColumns_length]
  · intro i j a b hij ha hb
    exact pairwise_le_getElem?_mono wf.cum_sorted hij ha hb
  · intro hpos
    have hne : (ofColumns rows cols (keptColumns rows cols values cols)).cumulative_elements_.length
        ≠ 0 := by
      rw [ofColumns_cumulative_length, keptColumns_length]; omega
    have hlast := wf.cum_last
    cases hl : (ofColumns rows cols (keptColumns rows cols values cols)).cumulative_elements_.getLast?
      with
    | none =>
      rw [List.getLast?_eq_none_iff] at hl
      rw [hl] at hne
      exact absurd rfl hne
    | some x =>
      rw [hl] at hlast
      simp only [Option.getD_some] at hlast
      rw [hlast]

/-- C9, at a concrete input: the 2 x 2 identity matrix. -/
theorem MatrixToSparse_shape_invariant_witness :
    ∃ M, MatrixToSparse 2 2 [1, 0, 0, 1] = some M ∧
      M.values_.length = M.row_indices_.length ∧
      M.values_.length ≤ 2 * 2 ∧
      M.cumulative_elements_.length = 2 ∧
      (∀ (i j a b : Nat), i ≤ j → M.cumulative_elements_[i]? = some a →
        M.cumulative_elements_[j]? = some b → a ≤ b) ∧
      (0 < 2 → M.cumulative_elements_.getLast? = some M.values_.length) :=
  MatrixToSparse_shape_invariant 2 2 [1, 0, 0, 1] rfl

/-- C10 (stored entries of conversion): for every buffer of length `rows * cols`, every
row index stored by `MatrixToSparse` is below `rows`, every stored value has magnitude
strictly above `kThreshold`, and inside the range `[cumulative[c-1], cumulative[c])` of a
column the stored row indices are strictly increasing. -/
theorem MatrixToSparse_stored_entries (rows cols : Nat) (values : List ℚ)
    (hlen : values.length = rows * cols) :
    ∃ M, MatrixToSparse rows cols values = some M ∧
      (∀ r ∈ M.row_indices_, r < rows) ∧
      (∀ v ∈ M.values_, |v| > kThreshold) ∧
      (∀ c i j, InCol M c i → InCol M c j → i < j →
        ∃ ri rj, M.row_indices_[i]? = some ri ∧ M.row_indices_[j]? = some rj ∧ ri < rj) := by
  have wf := keptColumns_wellFormed rows cols values
  refine ⟨_, MatrixToSparse_eq rows cols values hlen, wf.row_lt, ?_, ?_⟩
  · intro v hv
    simp only [ofColumns, List.mem_flatten, List.mem_map] at hv
    obtain ⟨l, ⟨col, hcol, rfl⟩, hv⟩ := hv
    obtain ⟨e, he, rfl⟩ := List.mem_map.mp hv
    obtain ⟨c, _, rfl⟩ := mem_keptColumns hcol
    obtain ⟨_, hk, he2⟩ := mem_keptEntries.mp he
    rw [he2]
    exact hk
  · intro c i j hi hj hij
    exact wf.rows_strict hi hj hij

/-- C10, at a concrete input: a 2 x 2 matrix with a full first column. -/
theorem MatrixToSparse_stored_entries_witness :
    ∃ M, MatrixToSparse 2 2 [1, 0, -3, 0] = some M ∧
      (∀ r ∈ M.row_indices_, r < 2) ∧
      (∀ v ∈ M.values_, |v| > kThreshold) ∧
      (∀ c i j, InCol M c i → InCol M c j → i < j →
        ∃ ri rj, M.row_indices_[i]? = some ri ∧ M.row_indices_[j]? = some rj ∧ ri < rj) :=
  MatrixToSparse_stored_entries 2 2 [1, 0, -3, 0] rfl

/-- C3 (round trip): for every buffer of length `rows * cols`, converting to CCS form and
back yields a buffer of length `rows * cols` that holds `buffer[i]` at every index `i`
with `|buffer[i]| > kThreshold` and `0` at every other index. -/
theorem FromSparseMatrix_MatrixToSparse (rows cols : Nat) (buffer : List ℚ)
    (hlen : buffer.length = rows * cols) :
    ∃ M d, MatrixToSparse rows cols buffer = some M ∧ FromSparseMatrix M = some d ∧
      d.length = rows * cols ∧
      ∀ i (hi : i < buffer.length),
        d[i]? = some (if |buffer[i]| > kThreshold then buffer[i] else 0) := by
  have wf := keptColumns_wellFormed rows cols buffer
  obtain ⟨d, hd, hdlen, hA, hB⟩ := FromSparseMatrix_spec wf
  refine ⟨_, d, MatrixToSparse_eq rows cols buffer hlen, hd, hdlen, ?_⟩
  intro i hi
  have hcols : 0 < cols := by
    rcases Nat.eq_zero_or_pos cols with h | h
    · rw [hlen, h] at hi; simp at hi
    · exact h
  have hc : i % cols < cols := Nat.mod_lt _ hcols
  have hr : i / cols < rows := by
    rw [Nat.div_lt_iff_lt_mul hcols, ← hlen]; exact hi
  have hidx : i / cols * cols + i % cols = i := Nat.div_add_mod' i cols
  have hcL : i % cols < (keptColumns rows cols buffer cols).length := by
    rw [keptColumns_length]; exact hc
  have hget : buffer[i / cols * cols + i % cols]?.getD 0 = buffer[i] := by
    simp [hidx, List.getElem?_eq_getElem hi]
  by_cases hk : |buffer[i]| > kThreshold
  · rw [if_pos hk]
    have hmem : (i / cols, buffer[i]) ∈ (keptColumns rows cols buffer cols)[i % cols] := by
      rw [keptColumns_getElem, mem_keptEntries]
      exact ⟨hr, by rw [hget]; exact hk, hget.symm⟩
    obtain ⟨idx, hin, h1, h2⟩ := ofColumns_inCol_of_mem rows cols _ hcL hmem
    obtain ⟨r, v, h1', h2', hdv⟩ := hA _ _ hin
    rw [h1] at h1'
    rw [h2] at h2'
    cases h1'; cases h2'
    simpa [ofColumns, hidx] using hdv
  · rw [if_neg hk]
    have := hB (i / cols) (i % cols) hr hc (by
      intro idx hin heq
      obtain ⟨hc', e, he, h1, _⟩ := ofColumns_entry_of_inCol rows cols _ hin
      rw [heq] at h1
      have h1 : i / cols = e.1 := Option.some.inj h1
      rw [keptColumns_getElem, mem_keptEntries, ← h1, hget] at he
      exact hk he.2.1)
    simpa [ofColumns, hidx] using this

/-- C3, at a concrete input: a 2 x 2 buffer with one entry below the threshold. -/
theorem FromSparseMatrix_MatrixToSparse_witness :
    ∃ M d, MatrixToSparse 2 2 [5, 1 / 10000000, 0, -2] = some M ∧
      FromSparseMatrix M = some d ∧ d.length = 2 * 2 ∧
      ∀ i (hi : i < [5, 1 / 10000000, 0, -2].length),
        d[i]? = some (if |[5, 1 / 10000000, 0, (-2 : ℚ)][i]| > kThreshold
          then [5, 1 / 10000000, 0, (-2 : ℚ)][i] else 0) :=
  FromSparseMatrix_MatrixToSparse 2 2 [5, 1 / 10000000, 0, -2] rfl

/-! ## Transposition never faults on a well-formed matrix -/

theorem forRange_total {σ : Type} (n : Nat) (init : σ) (body : σ → Nat → Option σ)
    (h : ∀ i st, i < n → ∃ st', body st i = some st') : ∃ st, forRange n init body = some st := by
  obtain ⟨st, hst, _⟩ := forRange_inv (fun _ _ => True) n init body
    trivial (fun i st hi _ => by
      obtain ⟨st', h'⟩ := h i st hi
      exact ⟨st', h', trivial⟩)
  exact ⟨st, hst⟩

theorem foldlM_inv {σ α : Type} (Inv : σ → Prop) (l : List α) (f : σ → α → Option σ) (init : σ)
    (h0 : Inv init) (hstep : ∀ x ∈ l, ∀ st, Inv st → ∃ st', f st x = some st' ∧ Inv st') :
    ∃ st, l.foldlM f init = some st ∧ Inv st := by
  induction l generalizing init with
  | nil => exact ⟨init, rfl, h0⟩
  | cons x l ih =>
    obtain ⟨st', hst', hinv'⟩ := hstep x (List.mem_cons_self x l) init h0
    obtain ⟨st, hst, hinv⟩ := ih st' hinv' fun y hy => hstep y (List.mem_cons_of_mem x hy)
    exact ⟨st, by rw [List.foldlM_cons, hst']; exact hst, hinv⟩

theorem pushAt_eq {α : Type} (groups : List (List α)) (k : Nat) (v : α) (hk : k < groups.length) :
    pushAt groups k v = some (groups.set k (groups[k] ++ [v])) := by
  simp [pushAt, List.getElem?_eq_getElem hk]

theorem ComputeTranspose.group_inv {M : SparseMatrix} (wf : WellFormed M) (n : Nat)
    (st : TransposeState) (hn : n < M.values_.length) (hinv : ComputeTranspose.GroupInv M n st) :
    ∃ st', ComputeTranspose.group M st n = some st' ∧ ComputeTranspose.GroupInv M (n + 1) st' := by
  obtain ⟨hcount, hlen, hshape, hcol⟩ := hinv
  have hcc := hcol (by omega)
  have hnr : n < M.row_indices_.length := by rw [wf.rows_length]; exact hn
  obtain ⟨c, hc⟩ : ∃ c, M.cumulative_elements_[st.current_col]? = some c :=
    ⟨_, List.getElem?_eq_getElem hcc⟩
  obtain ⟨r, hr⟩ : ∃ r, M.row_indices_[n]? = some r := ⟨_, List.getElem?_eq_getElem hnr⟩
  obtain ⟨v, hv⟩ : ∃ v, M.values_[n]? = some v := ⟨_, List.getElem?_eq_getElem hn⟩
  have hrow : r < M.rows_count_ := wf.row_lt _ (List.mem_iff_getElem?.mpr ⟨n, hr⟩)
  have hrv : r < st.grouped_values.length := by
    rw [hlen]; exact lt_of_lt_of_le hrow (le_max_left _ _)
  have hlen' : st.grouped_indices.length = st.grouped_values.length := by
    have := congrArg List.length hshape
    simpa using this.symm
  have hri : r < st.grouped_indices.length := by rw [hlen']; exact hrv
  have hbucket : st.grouped_values[r].length = st.grouped_indices[r].length := by
    have h1 : (st.grouped_values.map List.length)[r]? =
        (st.grouped_indices.map List.length)[r]? := by rw [hshape]
    simpa [List.getElem?_map, List.getElem?_eq_getElem hrv, List.getElem?_eq_getElem hri]
      using h1
  have hnext : (if st.count = c then st.current_col + 1 else st.current_col) <
      M.cumulative_elements_.length := by
    split
    · rename_i heq
      by_contra hcon
      have hlast := wf.colEnd_last
      rw [show M.cumulative_elements_.length - 1 = st.current_col by omega, colEnd, hc] at hlast
      simp at hlast
      omega
    · exact hcc
  refine ⟨⟨st.grouped_values.set r (st.grouped_values[r] ++ [v]),
    st.grouped_indices.set r (st.grouped_indices[r] ++
      [if st.count = c then st.current_col + 1 else st.current_col]),
    if st.count = c then st.current_col + 1 else st.current_col, st.count + 1⟩, ?_, ?_⟩
  · simp only [ComputeTranspose.group, hc, hr, hv, pushAt_eq _ _ _ hrv, pushAt_eq _ _ _ hri,
      Option.bind_eq_bind, Option.some_bind, Option.pure_def]
  · refine ⟨by simp [hcount], by simpa using hlen, ?_, fun _ => hnext⟩
    simp only [List.map_set, List.length_append, List.length_singleton, hshape, hbucket]

/-- The inner loop of the second loop of `ComputeTranspose` appends the first `m` entries
of one bucket. -/
theorem ComputeTranspose.flatten_inner (GV : List (List ℚ)) (GI : List (List Nat)) (i : Nat)
    (gv : List ℚ) (gi : List Nat) (hgv : GV[i]? = some gv) (hgi : GI[i]? = some gi)
    (hlen : gv.length = gi.length) (st : FlattenState) (m : Nat) (hm : m ≤ gv.length) :
    forRange m st (ComputeTranspose.flattenEntry GV GI i) =
    some { st with new_values := st.new_values ++ gv.take m,
                   new_rows := st.new_rows ++ gi.take m } := by
  induction m with
  | zero => simp [forRange_zero]
  | succ m ih =>
    obtain ⟨v, hv⟩ : ∃ v, gv[m]? = some v := ⟨_, List.getElem?_eq_getElem (by omega)⟩
    obtain ⟨r, hr⟩ : ∃ r, gi[m]? = some r := ⟨_, List.getElem?_eq_getElem (by omega)⟩
    rw [forRange_succ, ih (by omega)]
    simp only [ComputeTranspose.flattenEntry, hgv, hgi, hv, hr, List.take_succ,
      Option.bind_eq_bind, Option.some_bind, Option.pure_def, Option.toList,
      List.append_assoc]

/-- The second loop of `ComputeTranspose` concatenates the buckets. -/
theorem ComputeTranspose.flatten_loop (GV : List (List ℚ)) (GI : List (List Nat))
    (hshape : GV.map List.length = GI.map List.length) (n : Nat) (hn : n ≤ GV.length) :
    forRange n ⟨[], [], []⟩ (ComputeTranspose.flatten GV GI) = some
      ⟨(GV.take n).flatten, (GI.take n).flatten, prefixSums ((GV.take n).map List.length)⟩ := by
  induction n with
  | zero => simp [forRange_zero, prefixSums]
  | succ n ih =>
    have h1 : n < GV.length := by omega
    have h2 : n < GI.length := by
      have := congrArg List.length hshape
      simp at this
      omega
    have hb : GV[n].length = GI[n].length := by
      have h : (GV.map List.length)[n]? = (GI.map List.length)[n]? := by rw [hshape]
      simpa [List.getElem?_map, List.getElem?_eq_getElem h1, List.getElem?_eq_getElem h2]
        using h
    rw [forRange_succ, ih (by omega)]
    simp only [Option.some_bind, ComputeTranspose.flatten, Option.bind_eq_bind,
      List.getElem?_eq_getElem h1, Option.pure_def]
    rw [ComputeTranspose.flatten_inner GV GI n GV[n] GI[n] (List.getElem?_eq_getElem h1)
      (List.getElem?_eq_getElem h2) hb _ _ (Nat.le_refl _)]
    simp only [Option.some_bind, List.take_length, hb ▸ List.take_length GI[n]]
    have e1 : GV.take (n + 1) = GV.take n ++ [GV[n]] := by
      rw [List.take_succ, List.getElem?_eq_getElem h1]; rfl
    have e2 : GI.take (n + 1) = GI.take n ++ [GI[n]] := by
      rw [List.take_succ, List.getElem?_eq_getElem h2]; rfl
    rw [e1, e2]
    simp only [List.flatten_append, List.flatten_cons, List.flatten_nil, List.append_nil,
      List.map_append, List.map_cons, List.map_nil, prefixSums_append_singleton,
      List.length_flatten, List.length_append]

theorem WellFormed.addressable {M : SparseMatrix} (wf : WellFormed M) : Addressable M := by
  refine ⟨wf.rows_length, fun x hx => ?_⟩
  obtain ⟨c, hc⟩ := List.mem_iff_getElem?.mp hx
  exact wf.cum_le hc

/-- Transposition of a well-formed matrix never faults; the result has the dimensions
swapped and can be addressed by `operator*`. -/
theorem ComputeTranspose_total {M : SparseMatrix} (wf : WellFormed M) :
    ∃ T, ComputeTranspose M = some T ∧ T.rows_count_ = M.cols_count_ ∧
      T.cols_count_ = M.rows_count_ ∧ Addressable T := by
  obtain ⟨st, hst, hinv⟩ := forRange_inv (ComputeTranspose.GroupInv M)
    M.values_.length
    ⟨List.replicate (max M.rows_count_ M.cols_count_) [],
      List.replicate (max M.rows_count_ M.cols_count_) [], 0, 0⟩
    (ComputeTranspose.group M)
    ⟨rfl, by simp, by simp, fun h => wf.cum_pos_of_values h⟩
    (fun i st hi hinv => ComputeTranspose.group_inv wf i st hi hinv)
  obtain ⟨_, _, hshape, _⟩ := hinv
  have hfl := ComputeTranspose.flatten_loop st.grouped_values st.grouped_indices hshape
    st.grouped_values.length (Nat.le_refl _)
  have hlenI : st.grouped_indices.length = st.grouped_values.length := by
    have := congrArg List.length hshape
    simpa using this.symm
  rw [List.take_length, ← hlenI, List.take_length, hlenI] at hfl
  refine ⟨⟨M.cols_count_, M.rows_count_, st.grouped_values.flatten, st.grouped_indices.flatten,
    prefixSums (st.grouped_values.map List.length)⟩, ?_, rfl, rfl, ?_, ?_⟩
  · simp [ComputeTranspose, hst, hfl]
  · simp only [List.length_flatten, hshape]
  · intro x hx
    have := prefixSums_mem_le _ x hx
    simpa [List.length_flatten] using this

/-! ## `operator*` never faults on well-formed operands -/

theorem CountElements_spec (l : List Nat) (idx : Nat) (h : idx < l.length) :
    ∃ cnt start, CountElements idx l = some cnt ∧
      Multiply.startOf idx l = some start ∧
      ∀ i, i < cnt.toNat → start + i < l[idx] := by
  obtain ⟨a, ha⟩ : ∃ a, l[idx]? = some a := ⟨_, List.getElem?_eq_getElem h⟩
  have haeq : l[idx] = a := by
    rw [List.getElem?_eq_getElem h] at ha; exact Option.some.inj ha
  by_cases h0 : idx = 0
  · refine ⟨(a : Int), 0, ?_, by simp [Multiply.startOf, h0], ?_⟩
    · simp only [CountElements, if_pos h0, ha, Option.bind_eq_bind, Option.some_bind,
        Option.pure_def]
    · intro i hi
      rw [haeq]
      simpa using hi
  · obtain ⟨b, hb⟩ : ∃ b, l[idx - 1]? = some b := ⟨_, List.getElem?_eq_getElem (by omega)⟩
    refine ⟨(a : Int) - (b : Int), b, ?_, by simp [Multiply.startOf, h0, hb], ?_⟩
    · simp only [CountElements, if_neg h0, ha, hb, Option.bind_eq_bind, Option.some_bind,
        Option.pure_def]
    · intro i hi
      rw [haeq]
      rw [Int.toNat_sub] at hi
      omega

theorem Multiply.cell_total {T B : SparseMatrix} (hT : Addressable T) (hB : Addressable B)
    {row col : Nat} (hr : row < T.cumulative_elements_.length)
    (hc : col < B.cumulative_elements_.length) : ∃ s, Multiply.cell T B row col = some s := by
  obtain ⟨cnt1, start1, h1, hs1, hb1⟩ := CountElements_spec _ row hr
  obtain ⟨cnt2, start2, h2, hs2, hb2⟩ := CountElements_spec _ col hc
  simp only [Multiply.cell, h1, h2, hs1, hs2, Option.bind_eq_bind, Option.some_bind]
  apply forRange_total
  intro i sum hi
  apply forRange_total
  intro j sum' hj
  have hi' : start1 + i < T.values_.length :=
    lt_of_lt_of_le (hb1 i hi) (hT.2 _ (List.getElem_mem _))
  have hj' : start2 + j < B.values_.length :=
    lt_of_lt_of_le (hb2 j hj) (hB.2 _ (List.getElem_mem _))
  obtain ⟨a, ha⟩ : ∃ a, T.row_indices_[start1 + i]? = some a :=
    ⟨_, List.getElem?_eq_getElem (by rw [hT.1]; exact hi')⟩
  obtain ⟨b, hb⟩ : ∃ b, B.row_indices_[start2 + j]? = some b :=
    ⟨_, List.getElem?_eq_getElem (by rw [hB.1]; exact hj')⟩
  obtain ⟨x, hx⟩ : ∃ x, T.values_[start1 + i]? = some x := ⟨_, List.getElem?_eq_getElem hi'⟩
  obtain ⟨y, hy⟩ : ∃ y, B.values_[start2 + j]? = some y := ⟨_, List.getElem?_eq_getElem hj'⟩
  simp only [ha, hb, hx, hy, Option.some_bind, Option.pure_def]
  split <;> exact ⟨_, rfl⟩

theorem Multiply.rowStep_total {T B : SparseMatrix} (hT : Addressable T) (hB : Addressable B)
    {row col : Nat} (hr : row < T.cumulative_elements_.length)
    (hc : col < B.cumulative_elements_.length) (st : WorkerState) :
    ∃ st', Multiply.rowStep T B col st row = some st' := by
  obtain ⟨s, hs⟩ := Multiply.cell_total hT hB hr hc
  simp only [Multiply.rowStep, hs, Option.bind_eq_bind, Option.some_bind, Option.pure_def]
  split <;> exact ⟨_, rfl⟩

theorem Multiply.worker_total {T B : SparseMatrix} (hT : Addressable T) (hB : Addressable B)
    {n col : Nat} (hc : col < B.cumulative_elements_.length) (hn : col < n) (p : ParState)
    (hp : p.Sized n) : ∃ p', Multiply.worker T B p col = some p' ∧ p'.Sized n := by
  obtain ⟨h1, h2, h3⟩ := hp
  obtain ⟨lv, hlv⟩ : ∃ lv, p.local_values_vec[col]? = some lv :=
    ⟨_, List.getElem?_eq_getElem (by omega)⟩
  obtain ⟨lr, hlr⟩ : ∃ lr, p.local_rows_vec[col]? = some lr :=
    ⟨_, List.getElem?_eq_getElem (by omega)⟩
  obtain ⟨lc, hlc⟩ : ∃ lc, p.local_counts[col]? = some lc :=
    ⟨_, List.getElem?_eq_getElem (by omega)⟩
  obtain ⟨w, hw⟩ := forRange_total T.cumulative_elements_.length
    (⟨lv, lr, lc, p.elems⟩ : WorkerState) (Multiply.rowStep T B col)
    (fun row st hr => Multiply.rowStep_total hT hB hr hc st)
  refine ⟨⟨p.local_values_vec.set col w.local_values, p.local_rows_vec.set col w.local_rows,
    p.local_counts.set col w.local_count, w.elems⟩, ?_, ?_⟩
  · simp only [Multiply.worker, hlv, hlr, hlc, hw, Option.bind_eq_bind, Option.some_bind,
      Option.pure_def]
  · exact ⟨by simpa using h1, by simpa using h2, by simpa using h3⟩

theorem Multiply.merge_total {n : Nat} (p : ParState) (hp : p.Sized n) :
    ∃ m, forRange n ⟨[], [], List.replicate n 0⟩ (Multiply.merge p) = some m ∧
      m.result_cumulative.length = n := by
  obtain ⟨h1, h2, h3⟩ := hp
  apply forRange_inv (fun _ (m : MergeState) => m.result_cumulative.length = n) _ _ _ (by simp)
  intro col st hcol hst
  obtain ⟨lv, hlv⟩ : ∃ lv, p.local_values_vec[col]? = some lv :=
    ⟨_, List.getElem?_eq_getElem (by omega)⟩
  obtain ⟨lr, hlr⟩ : ∃ lr, p.local_rows_vec[col]? = some lr :=
    ⟨_, List.getElem?_eq_getElem (by omega)⟩
  obtain ⟨lc, hlc⟩ : ∃ lc, p.local_counts[col]? = some lc :=
    ⟨_, List.getElem?_eq_getElem (by omega)⟩
  refine ⟨⟨st.result_values ++ lv, st.result_rows ++ lr, st.result_cumulative.set col lc⟩, ?_, ?_⟩
  · simp only [Multiply.merge, hlv, hlr, hlc, writeAt, hst, hcol, if_true, Option.bind_eq_bind,
      Option.some_bind, Option.pure_def]
  · simpa using hst

theorem Multiply.prefixSum_total (rc : List Nat) :
    ∃ out, Multiply.prefixSum rc = some out ∧ out.length = rc.length := by
  apply forRange_inv (fun _ (l : List Nat) => l.length = rc.length) _ _ _ rfl
  intro k l hk hl
  obtain ⟨a, ha⟩ : ∃ a, l[k + 1]? = some a := ⟨_, List.getElem?_eq_getElem (by omega)⟩
  obtain ⟨b, hb⟩ : ∃ b, l[k]? = some b := ⟨_, List.getElem?_eq_getElem (by omega)⟩
  refine ⟨l.set (k + 1) (a + b), ?_, by simpa using hl⟩
  have hlt : k + 1 < l.length := by omega
  simp only [ha, hb, writeAt, hlt, if_true, Option.bind_eq_bind, Option.some_bind]

/-- `operator*` on well-formed operands never faults, whatever the order in which the
column indices (all below `other.cols_count_`) are handed to the workers. -/
theorem MultiplyIn_total {A B : SparseMatrix} (wfA : WellFormed A) (wfB : WellFormed B)
    (col_order : List Nat) (horder : ∀ c ∈ col_order, c < B.cols_count_) (elems : Nat) :
    ∃ M e, MultiplyIn col_order A B elems = some (M, e) := by
  obtain ⟨T, hT, _, _, hTa⟩ := ComputeTranspose_total wfA
  obtain ⟨p, hp, hsized⟩ := foldlM_inv (ParState.Sized B.cols_count_)
    col_order (Multiply.worker T B)
    ⟨List.replicate B.cols_count_ [], List.replicate B.cols_count_ [],
      List.replicate B.cols_count_ 0, elems⟩
    ⟨by simp, by simp, by simp⟩
    (fun c hc st hst => Multiply.worker_total hTa wfB.addressable
      (by rw [wfB.cum_length]; exact horder c hc) (horder c hc) st hst)
  obtain ⟨m, hm, _⟩ := Multiply.merge_total p hsized
  obtain ⟨rc, hrc, _⟩ := Multiply.prefixSum_total m.result_cumulative
  refine ⟨⟨B.cols_count_, B.cols_count_, m.result_values, m.result_rows, rc⟩, p.elems, ?_⟩
  simp only [MultiplyIn, hT, hp, hm, hrc, Option.bind_eq_bind, Option.some_bind,
    Option.pure_def]

theorem Multiply_total {A B : SparseMatrix} (wfA : WellFormed A) (wfB : WellFormed B)
    (elems : Nat) : ∃ M e, Multiply A B elems = some (M, e) :=
  MultiplyIn_total wfA wfB _ (fun _ hc => List.mem_range.mp hc) elems

/-- Whatever `operator*` returns has both dimensions equal to `other.cols_count_`. -/
theorem MultiplyIn_dims {col_order : List Nat} {A B M : SparseMatrix} {elems e : Nat}
    (h : MultiplyIn col_order A B elems = some (M, e)) :
    M.rows_count_ = B.cols_count_ ∧ M.cols_count_ = B.cols_count_ := by
  simp only [MultiplyIn, Option.bind_eq_bind, Option.bind_eq_some, Option.pure_def,
    Option.some.injEq, Prod.mk.injEq] at h
  obtain ⟨T, _, p, _, m, _, rc, _, hM, _⟩ := h
  rw [← hM]
  exact ⟨rfl, rfl⟩

/-! ## Claims about validation and the product -/

/-- C4, as stated, fails at the input counts (2, 3, 3, 4): the first operand's column
count equals the second operand's row count, yet `ValidationImpl` returns false. -/
theorem ValidationImpl_rejects_2x3_3x4 :
    ValidationImpl { task_data := ⟨[], [2, 3, 3, 4], []⟩ } = some false ∧
      ¬(ValidationImpl { task_data := ⟨[], [2, 3, 3, 4], []⟩ } = some true ↔ (3 : Nat) = 3) := by
  decide

/-- C4, amended: for all input counts `(rowsA, colsA, rowsB, colsB)`, `ValidationImpl`
returns a value, and it returns true if and only if `rowsA == colsB` and
`colsA == rowsB`. -/
theorem ValidationImpl_true_iff (t : CCSMatrixSTL) (rowsA colsA rowsB colsB : Nat)
    (hcount : t.task_data.inputs_count = [rowsA, colsA, rowsB, colsB]) :
    (∃ b, ValidationImpl t = some b) ∧
      (ValidationImpl t = some true ↔ rowsA = colsB ∧ colsA = rowsB) := by
  by_cases h1 : rowsA = colsB <;> by_cases h2 : colsA = rowsB <;>
    simp [ValidationImpl, hcount, h1, h2]

/-- C4 amended, at the input counts (3, 4, 4, 3) of the rectangular test. -/
theorem ValidationImpl_true_iff_witness :
    (∃ b, ValidationImpl { task_data := ⟨[], [3, 4, 4, 3], []⟩ } = some b) ∧
      (ValidationImpl { task_data := ⟨[], [3, 4, 4, 3], []⟩ } = some true ↔
        (3 : Nat) = 3 ∧ (4 : Nat) = 4) :=
  ValidationImpl_true_iff { task_data := ⟨[], [3, 4, 4, 3], []⟩ } 3 4 4 3 rfl

/-- C5 (rejection of an inner-dimension mismatch): for all input counts with
`colsA != rowsB`, `ValidationImpl` returns false. -/
theorem ValidationImpl_rejects_inner_mismatch (t : CCSMatrixSTL)
    (rowsA colsA rowsB colsB : Nat)
    (hcount : t.task_data.inputs_count = [rowsA, colsA, rowsB, colsB])
    (hne : colsA ≠ rowsB) : ValidationImpl t = some false := by
  by_cases h1 : rowsA = colsB <;> simp [ValidationImpl, hcount, h1, hne]

/-- C5, at the input counts (4, 3, 4, 3) of the test `test_acceptable_sizes`. -/
theorem ValidationImpl_rejects_inner_mismatch_witness :
    ValidationImpl { task_data := ⟨[[0, 1, 0, 6, 0, 0, 4, 3, 1, 0, 0, 2],
      [1 / 2, 0, 3 / 2, 0, 0, 8, 3, 0, 0, 7, 0, 2]], [4, 3, 4, 3], []⟩ } = some false :=
  ValidationImpl_rejects_inner_mismatch _ 4 3 4 3 rfl (by decide)

/-- C7 (dimensions of the product): whatever `operator*` returns has `rows_count` and
`cols_count` both equal to the column count of the second operand, whatever the row count
of the first; and on well-formed operands it does return a matrix. -/
theorem Multiply_result_dimensions (A B : SparseMatrix) (elems : Nat) :
    (∀ M e, Multiply A B elems = some (M, e) →
      M.rows_count_ = B.cols_count_ ∧ M.cols_count_ = B.cols_count_) ∧
    (WellFormed A → WellFormed B → ∃ M e, Multiply A B elems = some (M, e)) :=
  ⟨fun _ _ h => MultiplyIn_dims h, fun wfA wfB => Multiply_total wfA wfB elems⟩

/-- C7, at concrete operands: a 1 x 2 matrix times a 2 x 3 matrix is returned as 3 x 3. -/
theorem Multiply_result_dimensions_witness :
    ∃ M e, Multiply ⟨1, 2, [1, 1], [0, 0], [1, 2]⟩ ⟨2, 3, [2, 5], [0, 1], [1, 1, 2]⟩ 0 =
        some (M, e) ∧ M.rows_count_ = 3 ∧ M.cols_count_ = 3 := by
  obtain ⟨M, e, h⟩ := (Multiply_result_dimensions ⟨1, 2, [1, 1], [0, 0], [1, 2]⟩
    ⟨2, 3, [2, 5], [0, 1], [1, 1, 2]⟩ 0).2 (by decide) (by decide)
  exact ⟨M, e, h, (Multiply_result_dimensions _ _ 0).1 M e h⟩

/-- C8 (shape under validation): when `ValidationImpl` accepts the input counts, then
`rowsA == colsB`; the operands `MatrixToSparse` builds from buffers of those counts are
multiplied without fault into a matrix of the mathematically correct shape
`rowsA x colsB`; and a product whose shape differs from `A.rows x B.cols` can only come
from operands with `A.rows != B.cols`. -/
theorem validated_product_shape (t : CCSMatrixSTL) (rowsA colsA rowsB colsB : Nat)
    (bufA bufB : List ℚ) (elems : Nat)
    (hcount : t.task_data.inputs_count = [rowsA, colsA, rowsB, colsB])
    (hval : ValidationImpl t = some true)
    (hA : bufA.length = rowsA * colsA) (hB : bufB.length = rowsB * colsB) :
    rowsA = colsB ∧
    (∃ A B M e, MatrixToSparse rowsA colsA bufA = some A ∧
      MatrixToSparse rowsB colsB bufB = some B ∧ Multiply A B elems = some (M, e) ∧
      M.rows_count_ = rowsA ∧ M.cols_count_ = colsB) ∧
    (∀ A' B' M' e', Multiply A' B' elems = some (M', e') →
      (M'.rows_count_ ≠ A'.rows_count_ ∨ M'.cols_count_ ≠ B'.cols_count_) →
      A'.rows_count_ ≠ B'.cols_count_) := by
  have hdim : rowsA = colsB := by
    by_cases h1 : rowsA = colsB
    · exact h1
    · simp [ValidationImpl, hcount, h1] at hval
  refine ⟨hdim, ?_, ?_⟩
  · obtain ⟨M, e, h⟩ := Multiply_total (keptColumns_wellFormed rowsA colsA bufA)
      (keptColumns_wellFormed rowsB colsB bufB) elems
    obtain ⟨h1, h2⟩ := MultiplyIn_dims h
    exact ⟨_, _, M, e, MatrixToSparse_eq rowsA colsA bufA hA, MatrixToSparse_eq rowsB colsB bufB hB,
      h, by rw [h1, hdim]; rfl, by rw [h2]; rfl⟩
  · intro A' B' M' e' h hne heq
    obtain ⟨h1, h2⟩ := MultiplyIn_dims h
    rcases hne with hne | hne
    · exact hne (by rw [h1, heq])
    · exact hne h2

/-- C8, at the input counts (3, 4, 4, 3) and buffers of the rectangular test. -/
theorem validated_product_shape_witness :
    (3 : Nat) = 3 ∧
    (∃ A B M e, MatrixToSparse 3 4 [0, 1, 0, 6, 0, 0, 4, 3, 1, 0, 0, 2] = some A ∧
      MatrixToSparse 4 3 [1 / 2, 0, 3 / 2, 0, 0, 8, 3, 0, 0, 7, 0, 2] = some B ∧
      Multiply A B 0 = some (M, e) ∧ M.rows_count_ = 3 ∧ M.cols_count_ = 3) ∧
    (∀ A' B' M' e', Multiply A' B' 0 = some (M', e') →
      (M'.rows_count_ ≠ A'.rows_count_ ∨ M'.cols_count_ ≠ B'.cols_count_) →
      A'.rows_count_ ≠ B'.cols_count_) :=
  validated_product_shape { task_data := ⟨[], [3, 4, 4, 3], []⟩ } 3 4 4 3
    [0, 1, 0, 6, 0, 0, 4, 3, 1, 0, 0, 2] [1 / 2, 0, 3 / 2, 0, 0, 8, 3, 0, 0, 7, 0, 2] 0 rfl
    (by decide) rfl rfl

/-! ## Inputs on which the code departs from the specification -/

/-- C1, failing input: the 1 x 1 operands `[-1]` and `[1]`.  The reference product is
`[-1]`, of magnitude above the threshold, but the sparse product stores nothing (the
pruning test `sum > kThreshold` takes no absolute value) and densifies to `[0]`. -/
theorem negative_product_entry_is_dropped :
    ((MatrixToSparse 1 1 [-1]).bind fun A => (MatrixToSparse 1 1 [1]).bind fun B =>
      (A.mul B).bind FromSparseMatrix) = some [0] ∧
    MultiplyMatrices [-1] 1 1 [1] 1 1 = .ok [-1] := by
  constructor
  · with_unfolding_all decide
  · with_unfolding_all rfl

/-- C2, failing input: input counts (1, 3, 3, 1), `A = [1, 0, 1]`, `B = [0, 1, 0]`, all
entries 0 or 1.  Validation accepts, the pipeline writes `[1]`, the reference product is
`[0]`. -/
theorem pipeline_differs_from_reference :
    ValidationImpl { task_data := ⟨[[1, 0, 1], [0, 1, 0]], [1, 3, 3, 1], [[0]]⟩ } = some true ∧
    runPipeline { task_data := ⟨[[1, 0, 1], [0, 1, 0]], [1, 3, 3, 1], [[0]]⟩ } = some [1] ∧
    MultiplyMatrices [1, 0, 1] 1 3 [0, 1, 0] 3 1 = .ok [0] := by
  refine ⟨by decide, ?_, ?_⟩
  · with_unfolding_all decide
  · with_unfolding_all rfl

/-- C6, failing input: the well-formed 1 x 3 matrix `[1, 0, 1]` in CCS form, whose middle
column is empty.  Its dense form is `[1, 0, 1]`, but `ComputeTranspose` files the second
entry under column 1 instead of column 2, so the transposed matrix densifies to
`[1, 1, 0]`. -/
theorem transpose_misplaces_entry_after_empty_column :
    MatrixToSparse 1 3 [1, 0, 1] = some ⟨1, 3, [1, 1], [0, 0], [1, 1, 2]⟩ ∧
    WellFormed ⟨1, 3, [1, 1], [0, 0], [1, 1, 2]⟩ ∧
    FromSparseMatrix ⟨1, 3, [1, 1], [0, 0], [1, 1, 2]⟩ = some [1, 0, 1] ∧
    ComputeTranspose ⟨1, 3, [1, 1], [0, 0], [1, 1, 2]⟩ =
      some ⟨3, 1, [1, 1], [0, 1], [2, 2, 2]⟩ ∧
    FromSparseMatrix ⟨3, 1, [1, 1], [0, 1], [2, 2, 2]⟩ = some [1, 1, 0] := by
  refine ⟨?_, by decide, ?_, ?_, ?_⟩ <;> with_unfolding_all decide

/-! ## What `operator*` computes -/

theorem productColumn_succ (T B : SparseMatrix) (col n : Nat) :
    productColumn T B col (n + 1) =
      productColumn T B col n ++ (keptCell T B col n).toList := by
  unfold productColumn
  rw [List.range_succ, List.filterMap_append]
  cases h : keptCell T B col n <;> simp [List.filterMap_cons, h]

/-- The row loop of one column worker appends the kept entries of that column. -/
theorem Multiply.worker_rows_loop {T B : SparseMatrix} {col n : Nat} {st st' : WorkerState}
    (h : forRange n st (Multiply.rowStep T B col) = some st') :
    st'.local_values = st.local_values ++ (productColumn T B col n).map Prod.snd ∧
    st'.local_rows = st.local_rows ++ (productColumn T B col n).map Prod.fst ∧
    st'.local_count = st.local_count + (productColumn T B col n).length ∧
    st'.elems = st.elems + (productColumn T B col n).length := by
  refine forRange_inv_of_eq_some
    (fun i (s : WorkerState) =>
      s.local_values = st.local_values ++ (productColumn T B col i).map Prod.snd ∧
      s.local_rows = st.local_rows ++ (productColumn T B col i).map Prod.fst ∧
      s.local_count = st.local_count + (productColumn T B col i).length ∧
      s.elems = st.elems + (productColumn T B col i).length)
    (by simp [productColumn]) ?_ h
  intro i s s' _ hinv hs
  obtain ⟨h1, h2, h3, h4⟩ := hinv
  simp only [Multiply.rowStep, Option.bind_eq_bind, Option.bind_eq_some, Option.pure_def] at hs
  obtain ⟨sum, hsum, hs⟩ := hs
  rw [productColumn_succ]
  by_cases hk : sum > kThreshold
  · rw [if_pos hk] at hs
    cases hs
    simp [keptCell, hsum, hk, h1, h2, h3, h4, Nat.add_assoc]
  · rw [if_neg hk] at hs
    cases hs
    simp [keptCell, hsum, hk, h1, h2, h3, h4]

theorem productColumns_length (T B : SparseMatrix) (n : Nat) :
    (productColumns T B n).length = n := by
  simp [productColumns]

theorem productColumns_succ (T B : SparseMatrix) (n : Nat) :
    productColumns T B (n + 1) =
      productColumns T B n ++ [productColumn T B n T.cumulative_elements_.length] := by
  simp [productColumns, List.range_succ]

theorem productColumns_getElem? (T B : SparseMatrix) (n c : Nat) (hc : c < n) :
    (productColumns T B n)[c]? = some (productColumn T B c T.cumulative_elements_.length) := by
  simp [productColumns, List.getElem?_map, List.getElem?_range hc]

/-- One column worker appends the kept entries of its column to its own slots and adds
their number to the counter. -/
theorem Multiply.worker_eq {T B : SparseMatrix} {p p' : ParState} {col : Nat}
    (h : Multiply.worker T B p col = some p') :
    ∃ lv lr lc, p.local_values_vec[col]? = some lv ∧ p.local_rows_vec[col]? = some lr ∧
      p.local_counts[col]? = some lc ∧
      p'.local_values_vec = p.local_values_vec.set col
        (lv ++ (productColumn T B col T.cumulative_elements_.length).map Prod.snd) ∧
      p'.local_rows_vec = p.local_rows_vec.set col
        (lr ++ (productColumn T B col T.cumulative_elements_.length).map Prod.fst) ∧
      p'.local_counts = p.local_counts.set col
        (lc + (productColumn T B col T.cumulative_elements_.length).length) ∧
      p'.elems = p.elems + (productColumn T B col T.cumulative_elements_.length).length := by
  simp only [Multiply.worker, Option.bind_eq_bind, Option.bind_eq_some, Option.pure_def,
    Option.some.injEq] at h
  obtain ⟨lv, hlv, lr, hlr, lc, hlc, w, hw, hp⟩ := h
  obtain ⟨h1, h2, h3, h4⟩ := Multiply.worker_rows_loop hw
  subst hp
  exact ⟨lv, lr, lc, hlv, hlr, hlc, by simp [h1], by simp [h2], by simp [h3], by simp [h4]⟩

theorem Multiply.workers_loop {T B : SparseMatrix} {n elems : Nat} {p : ParState}
    (h : forRange n ⟨List.replicate n [], List.replicate n [], List.replicate n 0, elems⟩
      (Multiply.worker T B) = some p) : Multiply.ColsInv T B n elems n p := by
  refine forRange_inv_of_eq_some (Multiply.ColsInv T B n elems) ?_ ?_ h
  · refine ⟨⟨by simp, by simp, by simp⟩, ?_, ?_, ?_, by simp [productColumns]⟩ <;>
      intro c hc <;> simp [List.getElem?_replicate, hc]
  · intro k s s' hk hinv hs
    obtain ⟨⟨l1, l2, l3⟩, hv, hr, hc, he⟩ := hinv
    obtain ⟨lv, lr, lc, hlv, hlr, hlc, e1, e2, e3, e4⟩ := Multiply.worker_eq hs
    rw [hv k hk, if_neg (Nat.lt_irrefl k)] at hlv
    rw [hr k hk, if_neg (Nat.lt_irrefl k)] at hlr
    rw [hc k hk, if_neg (Nat.lt_irrefl k)] at hlc
    cases hlv; cases hlr; cases hlc
    refine ⟨⟨by simp [e1, l1], by simp [e2, l2], by simp [e3, l3]⟩, ?_, ?_, ?_, ?_⟩
    · intro c hcn
      rw [e1, List.getElem?_set]
      by_cases hck : k = c
      · subst hck; simp [l1, hk]
      · rw [if_neg hck, hv c hcn]
        have : (c < k + 1) = (c < k) := by
          apply propext; constructor <;> intro <;> omega
        simp only [this]
    · intro c hcn
      rw [e2, List.getElem?_set]
      by_cases hck : k = c
      · subst hck; simp [l2, hk]
      · rw [if_neg hck, hr c hcn]
        have : (c < k + 1) = (c < k) := by
          apply propext; constructor <;> intro <;> omega
        simp only [this]
    · intro c hcn
      rw [e3, List.getElem?_set]
      by_cases hck : k = c
      · subst hck; simp [l3, hk]
      · rw [if_neg hck, hc c hcn]
        have : (c < k + 1) = (c < k) := by
          apply propext; constructor <;> intro <;> omega
        simp only [this]
    · rw [e4, he, productColumns_succ]
      simp [Nat.add_assoc]

/-- The merge loop concatenates the per-column buffers in column order and copies the
per-column counts. -/
theorem Multiply.merge_loop {T B : SparseMatrix} {n elems : Nat} {p : ParState}
    (hp : Multiply.ColsInv T B n elems n p) {m : MergeState}
    (h : forRange n ⟨[], [], List.replicate n 0⟩ (Multiply.merge p) = some m) :
    m.result_values = ((productColumns T B n).map (List.map Prod.snd)).flatten ∧
    m.result_rows = ((productColumns T B n).map (List.map Prod.fst)).flatten ∧
    m.result_cumulative = (productColumns T B n).map List.length := by
  obtain ⟨_, hv, hr, hc, _⟩ := hp
  have key := forRange_inv_of_eq_some
    (fun k (s : MergeState) =>
      k ≤ n ∧
      s.result_values = ((productColumns T B k).map (List.map Prod.snd)).flatten ∧
      s.result_rows = ((productColumns T B k).map (List.map Prod.fst)).flatten ∧
      s.result_cumulative.length = n ∧
      ∀ c, c < n → s.result_cumulative[c]? = some
        (if c < k then (productColumn T B c T.cumulative_elements_.length).length else 0))
    (by
      refine ⟨Nat.zero_le n, by simp [productColumns], by simp [productColumns], by simp, ?_⟩
      intro c hc
      simp [List.getElem?_replicate, hc])
    (by
      intro k s s' hk hinv hs
      obtain ⟨_, e1, e2, e3, e4⟩ := hinv
      simp only [Multiply.merge, Option.bind_eq_bind, Option.bind_eq_some, Option.pure_def,
        Option.some.injEq, writeAt] at hs
      obtain ⟨lv, hlv, lr, hlr, lc, hlc, rc, hrc, hs⟩ := hs
      rw [hv k hk, if_pos (Nat.lt_irrefl n |> fun _ => hk)] at hlv
      rw [hr k hk, if_pos hk] at hlr
      rw [hc k hk, if_pos hk] at hlc
      cases hlv; cases hlr; cases hlc
      rw [if_pos (by rw [e3]; exact hk)] at hrc
      cases hrc
      subst hs
      refine ⟨hk, ?_, ?_, by simpa using e3, ?_⟩
      · simp [productColumns_succ, e1]
      · simp [productColumns_succ, e2]
      · intro c hcn
        simp only [List.getElem?_set]
        by_cases hck : k = c
        · subst hck; simp [e3, hk]
        · rw [if_neg hck, e4 c hcn]
          have : (c < k + 1) = (c < k) := by
            apply propext; constructor <;> intro <;> omega
          simp only [this])
    h
  obtain ⟨_, e1, e2, e3, e4⟩ := key
  refine ⟨e1, e2, ?_⟩
  apply List.ext_getElem?
  intro c
  by_cases hc : c < n
  · rw [e4 c hc, if_pos hc, List.getElem?_map, productColumns_getElem? T B n c hc]
    rfl
  · rw [List.getElem?_eq_none (by omega), List.getElem?_eq_none (by
      rw [List.length_map, productColumns_length]; omega)]

/-- The in-place loop `result_cumulative[i] += result_cumulative[i - 1]` turns the list
of per-column counts into its running totals. -/
theorem Multiply.prefixSum_eq (lens : List Nat) : Multiply.prefixSum lens = some (prefixSums lens) := by
  obtain ⟨out, hout, hlen, hget⟩ := forRange_inv
    (fun k (l : List Nat) => l.length = lens.length ∧
      ∀ i, i < lens.length → l[i]? = if i ≤ k then (prefixSums lens)[i]? else lens[i]?)
    (lens.length - 1) lens
    (fun rc k => do
      let a ← rc[k + 1]?
      let b ← rc[k]?
      writeAt rc (k + 1) (a + b))
    (by
      refine ⟨rfl, ?_⟩
      intro i hi
      split
      · have : i = 0 := by omega
        subst this
        rw [prefixSums_getElem? lens 0 hi, List.getElem?_eq_getElem hi]
        simp [List.take_one, List.head?_eq_getElem?, List.getElem?_eq_getElem hi]
      · rfl)
    (by
      intro k l hk hinv
      obtain ⟨hl, hg⟩ := hinv
      have h1 : k + 1 < lens.length := by omega
      have ha := hg (k + 1) h1
      rw [if_neg (by omega), List.getElem?_eq_getElem h1] at ha
      have hb := hg k (by omega)
      rw [if_pos (Nat.le_refl k), prefixSums_getElem? lens k (by omega)] at hb
      refine ⟨l.set (k + 1) (lens[k + 1] + (lens.take (k + 1)).sum), ?_, by simpa using hl, ?_⟩
      · simp only [ha, hb, writeAt, hl, h1, if_true, Option.bind_eq_bind, Option.some_bind]
      · intro i hi
        rw [List.getElem?_set]
        by_cases hik : k + 1 = i
        · subst hik
          rw [if_pos rfl, if_pos (by rw [hl]; exact h1), if_pos (Nat.le_refl _),
            prefixSums_getElem? lens (k + 1) h1, List.sum_take_succ lens (k + 1) h1,
            Nat.add_comm]
        · rw [if_neg hik, hg i hi]
          by_cases hle : i ≤ k
          · rw [if_pos hle, if_pos (by omega)]
          · rw [if_neg hle, if_neg (by omega)])
  unfold Multiply.prefixSum
  rw [hout]
  congr 1
  apply List.ext_getElem?
  intro i
  by_cases hi : i < lens.length
  · rw [hget i hi, if_pos (by omega)]
  · rw [List.getElem?_eq_none (by omega), List.getElem?_eq_none (by
      rw [prefixSums_length]; omega)]

/-- What `operator*` returns: the matrix whose column `c` stores, in increasing row order,
the accumulated sums of column `c` that are strictly greater than `kThreshold`; the
counter grows by the number of stored entries. -/
theorem Multiply_eq {A B M : SparseMatrix} {elems e : Nat}
    (h : Multiply A B elems = some (M, e)) :
    ∃ T, ComputeTranspose A = some T ∧
      M = ofColumns B.cols_count_ B.cols_count_ (productColumns T B B.cols_count_) ∧
      e = elems + ((productColumns T B B.cols_count_).map List.length).sum := by
  simp only [Multiply, MultiplyIn, Option.bind_eq_bind, Option.bind_eq_some, Option.pure_def,
    Option.some.injEq, Prod.mk.injEq] at h
  obtain ⟨T, hT, p, hp, m, hm, rc, hrc, hM, he⟩ := h
  have hinv := Multiply.workers_loop (T := T) (B := B) hp
  obtain ⟨e1, e2, e3⟩ := Multiply.merge_loop hinv hm
  rw [e3, Multiply.prefixSum_eq] at hrc
  cases hrc
  refine ⟨T, hT, ?_, ?_⟩
  · rw [← hM, e1, e2]
    rfl
  · rw [← he, hinv.2.2.2.2]

theorem keptCell_eq_some {T B : SparseMatrix} {col row : Nat} {e : Nat × ℚ} :
    keptCell T B col row = some e ↔
      e.1 = row ∧ Multiply.cell T B row col = some e.2 ∧ e.2 > kThreshold := by
  obtain ⟨r, s⟩ := e
  simp only [keptCell, Option.bind_eq_some]
  constructor
  · rintro ⟨sum, hsum, hk⟩
    by_cases hgt : sum > kThreshold
    · rw [if_pos hgt] at hk
      cases hk
      exact ⟨rfl, hsum, hgt⟩
    · rw [if_neg hgt] at hk
      cases hk
  · rintro ⟨rfl, hsum, hgt⟩
    exact ⟨s, hsum, by rw [if_pos hgt]⟩

theorem mem_productColumn {T B : SparseMatrix} {col n : Nat} {e : Nat × ℚ} :
    e ∈ productColumn T B col n ↔
      e.1 < n ∧ Multiply.cell T B e.1 col = some e.2 ∧ e.2 > kThreshold := by
  simp only [productColumn, List.mem_filterMap, List.mem_range, keptCell_eq_some]
  constructor
  · rintro ⟨row, hrow, h1, h2, h3⟩
    subst h1
    exact ⟨hrow, h2, h3⟩
  · rintro ⟨h1, h2, h3⟩
    exact ⟨e.1, h1, rfl, h2, h3⟩

theorem productColumn_fst_pairwise (T B : SparseMatrix) (col n : Nat) :
    ((productColumn T B col n).map Prod.fst).Pairwise (· < ·) := by
  rw [List.pairwise_map]
  unfold productColumn
  refine List.Pairwise.filterMap (keptCell T B col) ?_ (List.pairwise_lt_range n)
  intro a a' haa e he e' he'
  rw [Option.mem_def, keptCell_eq_some] at he he'
  rw [he.1, he'.1]
  exact haa

theorem mem_productColumns {T B : SparseMatrix} {n : Nat} {col : List (Nat × ℚ)}
    (h : col ∈ productColumns T B n) :
    ∃ c, c < n ∧ col = productColumn T B c T.cumulative_elements_.length := by
  simp only [productColumns, List.mem_map, List.mem_range] at h
  obtain ⟨c, hc, rfl⟩ := h
  exact ⟨c, hc, rfl⟩

theorem productColumns_getElem (T B : SparseMatrix) (n c : Nat)
    (hc : c < (productColumns T B n).length) :
    (productColumns T B n)[c] = productColumn T B c T.cumulative_elements_.length := by
  simp [productColumns]

/-- With the row bound taken large enough, the matrix of product columns is well-formed. -/
theorem productColumns_wellFormed (T B : SparseMatrix) (n : Nat) :
    WellFormed (ofColumns T.cumulative_elements_.length n (productColumns T B n)) := by
  apply ofColumns_wellFormed
  · exact productColumns_length T B n
  · intro col hcol e he
    obtain ⟨c, _, rfl⟩ := mem_productColumns hcol
    exact (mem_productColumn.mp he).1
  · intro col hcol
    obtain ⟨c, _, rfl⟩ := mem_productColumns hcol
    exact productColumn_fst_pairwise T B c _

/-- Every step of a loop that finished without fault was taken from some state. -/
theorem forRange_step_some {σ : Type} {n : Nat} {init st : σ} {body : σ → Nat → Option σ}
    (h : forRange n init body = some st) :
    ∀ i, i < n → ∃ s s', body s i = some s' := by
  induction n generalizing st with
  | zero => intro i hi; omega
  | succ n ih =>
    rw [forRange_succ] at h
    obtain ⟨s, hs, hs'⟩ := Option.bind_eq_some.mp h
    intro i hi
    rcases Nat.eq_or_lt_of_le (Nat.le_of_lt_succ hi) with rfl | hlt
    · exact ⟨s, st, hs'⟩
    · exact ih hs i hlt

/-- When `operator*` returns, every accumulated sum of the output range was computed
without fault. -/
theorem Multiply_cells_some {A B M T : SparseMatrix} {elems e : Nat}
    (h : Multiply A B elems = some (M, e)) (hT : ComputeTranspose A = some T) {r c : Nat}
    (hr : r < T.cumulative_elements_.length) (hc : c < B.cols_count_) :
    ∃ sum, Multiply.cell T B r c = some sum := by
  simp only [Multiply, MultiplyIn, hT, Option.bind_eq_bind, Option.some_bind,
    Option.bind_eq_some] at h
  obtain ⟨p, hp, _⟩ := h
  obtain ⟨s, s', hs⟩ := forRange_step_some (n := B.cols_count_) hp c hc
  simp only [Multiply.worker, Option.bind_eq_bind, Option.bind_eq_some] at hs
  obtain ⟨_, _, _, _, _, _, w, hw, _⟩ := hs
  obtain ⟨u, u', hu⟩ := forRange_step_some hw r hr
  simp only [Multiply.rowStep, Option.bind_eq_bind, Option.bind_eq_some] at hu
  obtain ⟨sum, hsum, _⟩ := hu
  exact ⟨sum, hsum⟩

/-- The stored entries of a product, by index: index `i` of column `c` holds row `r` and
value `v` exactly for the accumulated sums `v` of `(r, c)` above the threshold. -/
theorem Multiply_entry_of_inCol {T B : SparseMatrix} {n c i : Nat}
    (h : InCol (ofColumns n n (productColumns T B n)) c i) :
    ∃ r v, (ofColumns n n (productColumns T B n)).row_indices_[i]? = some r ∧
      (ofColumns n n (productColumns T B n)).values_[i]? = some v ∧
      r < T.cumulative_elements_.length ∧ Multiply.cell T B r c = some v ∧ v > kThreshold := by
  obtain ⟨hc, e, he, h1, h2⟩ := ofColumns_entry_of_inCol n n _ h
  rw [productColumns_getElem, mem_productColumn] at he
  exact ⟨e.1, e.2, h1, h2, he.1, he.2.1, he.2.2⟩

theorem Multiply_inCol_of_cell {T B : SparseMatrix} {n r c : Nat} {v : ℚ}
    (hr : r < T.cumulative_elements_.length) (hc : c < n)
    (hcell : Multiply.cell T B r c = some v) (hv : v > kThreshold) :
    ∃ i, InCol (ofColumns n n (productColumns T B n)) c i ∧
      (ofColumns n n (productColumns T B n)).row_indices_[i]? = some r ∧
      (ofColumns n n (productColumns T B n)).values_[i]? = some v := by
  have hcL : c < (productColumns T B n).length := by rw [productColumns_length]; exact hc
  have hmem : (r, v) ∈ (productColumns T B n)[c] := by
    rw [productColumns_getElem, mem_productColumn]
    exact ⟨hr, hcell, hv⟩
  exact ofColumns_inCol_of_mem n n _ hcL hmem

/-! ## Claims about the entries of a product -/

/-- C16 (pruning rule of multiplication): whenever `operator*` returns, with `T` the
transposed first operand, for every output row `r` and output column `c` the accumulated
sum of `(r, c)` was computed, an entry with row `r` is stored in column `c` if and only if
that sum is strictly greater than `kThreshold` as a signed value, and the stored value is
that sum; nothing is stored outside the output range; consequently every stored value is
strictly greater than `kThreshold` and none is negative. -/
theorem Multiply_pruning_rule (A B M : SparseMatrix) (elems e : Nat)
    (h : Multiply A B elems = some (M, e)) :
    ∃ T, ComputeTranspose A = some T ∧
      (∀ r c, r < T.cumulative_elements_.length → c < B.cols_count_ →
        ∃ sum, Multiply.cell T B r c = some sum ∧
          ((∃ i, InCol M c i ∧ M.row_indices_[i]? = some r) ↔ sum > kThreshold) ∧
          (∀ i, InCol M c i → M.row_indices_[i]? = some r → M.values_[i]? = some sum)) ∧
      (∀ c i, InCol M c i → ∃ r, M.row_indices_[i]? = some r ∧
        r < T.cumulative_elements_.length ∧ c < B.cols_count_) ∧
      (∀ v ∈ M.values_, v > kThreshold) ∧
      (∀ v ∈ M.values_, ¬ v < 0) := by
  obtain ⟨T, hT, hM, _⟩ := Multiply_eq h
  have hstored : ∀ v ∈ M.values_, v > kThreshold := by
    intro v hv
    rw [hM] at hv
    simp only [ofColumns, List.mem_flatten, List.mem_map] at hv
    obtain ⟨l, ⟨col, hcol, rfl⟩, hv⟩ := hv
    obtain ⟨x, hx, rfl⟩ := List.mem_map.mp hv
    obtain ⟨c, _, rfl⟩ := mem_productColumns hcol
    exact (mem_productColumn.mp hx).2.2
  refine ⟨T, hT, ?_, ?_, hstored, ?_⟩
  · intro r c hr hc
    obtain ⟨sum, hsum⟩ := Multiply_cells_some h hT hr hc
    refine ⟨sum, hsum, ⟨?_, ?_⟩, ?_⟩
    · rintro ⟨i, hi, hri⟩
      rw [hM] at hi hri
      obtain ⟨r', v, h1, _, _, h4, h5⟩ := Multiply_entry_of_inCol hi
      rw [hri] at h1
      cases h1
      rw [hsum] at h4
      cases h4
      exact h5
    · intro hgt
      obtain ⟨i, hi, h1, _⟩ := Multiply_inCol_of_cell hr hc hsum hgt
      exact ⟨i, by rw [hM]; exact hi, by rw [hM]; exact h1⟩
    · intro i hi hri
      rw [hM] at hi hri ⊢
      obtain ⟨r', v, h1, h2, _, h4, _⟩ := Multiply_entry_of_inCol hi
      rw [hri] at h1
      cases h1
      rw [hsum] at h4
      cases h4
      exact h2
  · intro c i hi
    rw [hM] at hi ⊢
    obtain ⟨r, v, h1, _, h3, _, _⟩ := Multiply_entry_of_inCol hi
    have hc := hi.1
    rw [ofColumns_cumulative_length, productColumns_length] at hc
    exact ⟨r, h1, h3, hc⟩
  · intro v hv hneg
    have := hstored v hv
    have hpos : (0 : ℚ) < kThreshold := by unfold kThreshold; norm_num
    linarith

/-- C20 (row order inside an output column): whenever `operator*` returns, the row
indices stored in the range of any one column of the product are strictly increasing. -/
theorem Multiply_rows_increasing (A B M : SparseMatrix) (elems e : Nat)
    (h : Multiply A B elems = some (M, e)) :
    ∀ c i j, InCol M c i → InCol M c j → i < j →
      ∃ ri rj, M.row_indices_[i]? = some ri ∧ M.row_indices_[j]? = some rj ∧ ri < rj := by
  obtain ⟨T, _, hM, _⟩ := Multiply_eq h
  intro c i j hi hj hij
  rw [hM] at hi hj ⊢
  exact (productColumns_wellFormed T B B.cols_count_).rows_strict hi hj hij

/-- C17, as stated, fails for the 1 x 1 operands `[-1/1000]` and `[1/10000]`: the
accumulated sum of position (0, 0) is `-1/10000000`, negative and of magnitude at most
`kThreshold`, and the product stores no entry at all. -/
theorem negative_small_sum_is_dropped :
    ComputeTranspose ⟨1, 1, [-1 / 1000], [0], [1]⟩ = some ⟨1, 1, [-1 / 1000], [0], [1]⟩ ∧
    Multiply.cell ⟨1, 1, [-1 / 1000], [0], [1]⟩ ⟨1, 1, [1 / 10000], [0], [1]⟩ 0 0 =
      some (-1 / 10000000) ∧
    ((-1 / 10000000 : ℚ) < 0 ∧ |(-1 / 10000000 : ℚ)| ≤ kThreshold) ∧
    Multiply ⟨1, 1, [-1 / 1000], [0], [1]⟩ ⟨1, 1, [1 / 10000], [0], [1]⟩ 0 =
      some (⟨1, 1, [], [], [0]⟩, 0) := by
  refine ⟨?_, ?_, ⟨?_, ?_⟩, ?_⟩ <;> decide!

/-- C17, amended: whenever `operator*` returns, with `T` the transposed first operand, an
output position `(r, c)` whose accumulated sum is negative with magnitude at most
`kThreshold` gets no stored entry (the sum is dropped), and neither does a position whose
sum is positive and at most `kThreshold`. -/
theorem Multiply_drops_small_sums (A B M : SparseMatrix) (elems e : Nat)
    (h : Multiply A B elems = some (M, e)) :
    ∃ T, ComputeTranspose A = some T ∧
      ∀ r c sum, Multiply.cell T B r c = some sum →
        ((sum < 0 ∧ |sum| ≤ kThreshold) ∨ (0 < sum ∧ sum ≤ kThreshold)) →
        ¬∃ i, InCol M c i ∧ M.row_indices_[i]? = some r := by
  obtain ⟨T, hT, hM, _⟩ := Multiply_eq h
  refine ⟨T, hT, ?_⟩
  rintro r c sum hsum hsmall ⟨i, hi, hri⟩
  rw [hM] at hi hri
  obtain ⟨r', v, h1, _, _, h4, h5⟩ := Multiply_entry_of_inCol hi
  rw [hri] at h1
  cases h1
  rw [hsum] at h4
  cases h4
  have hpos : (0 : ℚ) < kThreshold := by unfold kThreshold; norm_num
  rcases hsmall with ⟨hneg, _⟩ | ⟨_, hle⟩
  · linarith
  · exact absurd h5 (not_lt.mpr hle)

/-- C16, at concrete 2 x 2 operands (`A = [[1,-1],[0,2]]`, `B = [[1,0],[1,1]]`), whose
product has the sums 0, -1, 2, 2 and stores only the two sums 2. -/
theorem Multiply_pruning_rule_witness :
    ∃ T, ComputeTranspose ⟨2, 2, [1, -1, 2], [0, 0, 1], [1, 3]⟩ = some T ∧
      (∀ r c, r < T.cumulative_elements_.length → c < 2 →
        ∃ sum, Multiply.cell T ⟨2, 2, [1, 1, 1], [0, 1, 1], [2, 3]⟩ r c = some sum ∧
          ((∃ i, InCol ⟨2, 2, [2, 2], [1, 1], [1, 2]⟩ c i ∧
            [1, 1][i]? = some r) ↔ sum > kThreshold) ∧
          (∀ i, InCol ⟨2, 2, [2, 2], [1, 1], [1, 2]⟩ c i → [1, 1][i]? = some r →
            [(2 : ℚ), 2][i]? = some sum)) ∧
      (∀ c i, InCol ⟨2, 2, [2, 2], [1, 1], [1, 2]⟩ c i → ∃ r, [1, 1][i]? = some r ∧
        r < T.cumulative_elements_.length ∧ c < 2) ∧
      (∀ v ∈ [(2 : ℚ), 2], v > kThreshold) ∧
      (∀ v ∈ [(2 : ℚ), 2], ¬ v < 0) :=
  Multiply_pruning_rule ⟨2, 2, [1, -1, 2], [0, 0, 1], [1, 3]⟩
    ⟨2, 2, [1, 1, 1], [0, 1, 1], [2, 3]⟩ ⟨2, 2, [2, 2], [1, 1], [1, 2]⟩ 0 2 (by decide!)

/-- C20, at concrete operands: a 2 x 1 matrix times a 1 x 1 matrix, whose single output
column stores the rows 0 and 1 at the indices 0 and 1. -/
theorem Multiply_rows_increasing_witness :
    ∃ ri rj, [0, 1][0]? = some ri ∧ [0, 1][1]? = some rj ∧ ri < rj :=
  Multiply_rows_increasing ⟨2, 1, [1, 1], [0, 1], [2]⟩ ⟨1, 1, [1], [0], [1]⟩
    ⟨1, 1, [1, 1], [0, 1], [2]⟩ 0 2 (by decide!) 0 0 1
    (by simp [InCol, colStart, colEnd]) (by simp [InCol, colStart, colEnd]) (by decide)

/-- C17 amended, at the 1 x 1 operands `[-1/1000]` and `[1/10000]`. -/
theorem Multiply_drops_small_sums_witness :
    ∃ T, ComputeTranspose ⟨1, 1, [-1 / 1000], [0], [1]⟩ = some T ∧
      ∀ r c sum, Multiply.cell T ⟨1, 1, [1 / 10000], [0], [1]⟩ r c = some sum →
        ((sum < 0 ∧ |sum| ≤ kThreshold) ∨ (0 < sum ∧ sum ≤ kThreshold)) →
        ¬∃ i, InCol ⟨1, 1, [], [], [0]⟩ c i ∧ ([] : List Nat)[i]? = some r :=
  Multiply_drops_small_sums ⟨1, 1, [-1 / 1000], [0], [1]⟩ ⟨1, 1, [1 / 10000], [0], [1]⟩
    ⟨1, 1, [], [], [0]⟩ 0 0 (by decide!)

/-! ## The buckets of the transposition -/

theorem sum_set_succ (lens : List Nat) (k : Nat) (hk : k < lens.length) :
    (lens.set k (lens[k] + 1)).sum = lens.sum + 1 := by
  induction lens generalizing k with
  | nil => simp at hk
  | cons a l ih =>
    cases k with
    | zero => simp; omega
    | succ k =>
      simp only [List.set_cons_succ, List.sum_cons, List.getElem_cons_succ]
      rw [ih k (by simpa using hk)]
      omega

theorem ComputeTranspose.group_bucketInv {M : SparseMatrix} (wf : WellFormed M) (n : Nat)
    (st st' : TransposeState) (hs : ComputeTranspose.group M st n = some st')
    (hinv : ComputeTranspose.BucketInv M n st) : ComputeTranspose.BucketInv M (n + 1) st' := by
  obtain ⟨hempty, hsum⟩ := hinv
  simp only [ComputeTranspose.group, Option.bind_eq_bind, Option.bind_eq_some, Option.pure_def,
    Option.some.injEq, pushAt] at hs
  obtain ⟨c, _, r, hr, v, _, gv, ⟨g, hg, hgv⟩, gi, _, hst⟩ := hs
  subst hst
  subst hgv
  have hrow : r < M.rows_count_ := wf.row_lt _ (List.mem_iff_getElem?.mpr ⟨n, hr⟩)
  obtain ⟨hrl, hgeq⟩ := List.getElem?_eq_some.mp hg
  refine ⟨?_, ?_⟩
  · intro k hk hkl
    simp only [List.length_set] at hkl
    simp only
    rw [List.getElem?_set_ne (by omega)]
    exact hempty k hk hkl
  · simp only [List.map_set, List.length_append, List.length_singleton]
    have h1 : r < (st.grouped_values.map List.length).length := by simpa using hrl
    have h2 : (st.grouped_values.map List.length)[r] = g.length := by
      simp [hgeq]
    rw [← h2, sum_set_succ _ r h1, hsum]

/-- Transposition of a well-formed matrix, by buckets: the result concatenates
`max rows cols` buckets, of which those at or beyond `rows` are empty, and its cumulative
counts are the running totals of the bucket sizes. -/
theorem ComputeTranspose_eq {M : SparseMatrix} (wf : WellFormed M) :
    ∃ (GV : List (List ℚ)) (GI : List (List Nat)),
      ComputeTranspose M = some ⟨M.cols_count_, M.rows_count_, GV.flatten, GI.flatten,
        prefixSums (GV.map List.length)⟩ ∧
      GV.length = max M.rows_count_ M.cols_count_ ∧
      GV.map List.length = GI.map List.length ∧
      (∀ k, M.rows_count_ ≤ k → k < GV.length → GV[k]? = some []) ∧
      (GV.map List.length).sum = M.values_.length := by
  obtain ⟨st, hst, hinv, hbucket⟩ := forRange_inv
    (fun n st => ComputeTranspose.GroupInv M n st ∧ ComputeTranspose.BucketInv M n st)
    M.values_.length
    ⟨List.replicate (max M.rows_count_ M.cols_count_) [],
      List.replicate (max M.rows_count_ M.cols_count_) [], 0, 0⟩
    (ComputeTranspose.group M)
    ⟨⟨rfl, by simp, by simp, fun h => wf.cum_pos_of_values h⟩,
      ⟨fun k _ hk => by
        simp only [List.length_replicate] at hk
        simp [List.getElem?_replicate, hk], by simp⟩⟩
    (fun i st hi hinv => by
      obtain ⟨st', hs, hg⟩ := ComputeTranspose.group_inv wf i st hi hinv.1
      exact ⟨st', hs, hg, ComputeTranspose.group_bucketInv wf i st st' hs hinv.2⟩)
  obtain ⟨_, hlen, hshape, _⟩ := hinv
  have hfl := ComputeTranspose.flatten_loop st.grouped_values st.grouped_indices hshape
    st.grouped_values.length (Nat.le_refl _)
  have hlenI : st.grouped_indices.length = st.grouped_values.length := by
    have := congrArg List.length hshape
    simpa using this.symm
  rw [List.take_length, ← hlenI, List.take_length, hlenI] at hfl
  refine ⟨st.grouped_values, st.grouped_indices, ?_, hlen, hshape, hbucket.1, hbucket.2⟩
  simp [ComputeTranspose, hst, hfl]

theorem CountElements_prefixSums (lens : List Nat) (idx : Nat) (h : idx < lens.length) :
    CountElements idx (prefixSums lens) = some (lens[idx] : Int) := by
  by_cases h0 : idx = 0
  · subst h0
    simp only [CountElements, if_true, prefixSums_getElem? lens 0 h, Option.bind_eq_bind,
      Option.some_bind, Option.pure_def, List.sum_take_succ lens 0 h]
    simp
  · have h1 : idx - 1 < lens.length := by omega
    have h2 : idx - 1 + 1 = idx := by omega
    simp only [CountElements, if_neg h0, prefixSums_getElem? lens idx h,
      prefixSums_getElem? lens (idx - 1) h1, h2, Option.bind_eq_bind, Option.some_bind,
      Option.pure_def, List.sum_take_succ lens idx h]
    congr 1
    push_cast
    ring

/-- The accumulated sum of an output row whose column of the transposed operand is empty
is zero. -/
theorem Multiply.cell_of_empty_column {T B : SparseMatrix} {row col : Nat} {cnt : Int} {s : ℚ}
    (hcnt : CountElements row T.cumulative_elements_ = some cnt) (h0 : cnt.toNat = 0)
    (h : Multiply.cell T B row col = some s) : s = 0 := by
  simp only [Multiply.cell, hcnt, Option.bind_eq_bind, Option.some_bind, Option.bind_eq_some,
    h0, forRange_zero, Option.some.injEq] at h
  obtain ⟨_, _, _, _, _, _, hs⟩ := h
  exact hs.symm

/-- C19, as stated, fails for the well-formed 1 x 3 matrix `[1, 0, 1]`: its transpose has
1 column (`M.rows`) but 3 cumulative counts. -/
theorem transpose_cumulative_longer_than_columns :
    WellFormed ⟨1, 3, [1, 1], [0, 0], [1, 1, 2]⟩ ∧
    ∃ T, ComputeTranspose ⟨1, 3, [1, 1], [0, 0], [1, 1, 2]⟩ = some T ∧
      T.cols_count_ = 1 ∧ T.cumulative_elements_.length = 3 :=
  ⟨by decide, ⟨3, 1, [1, 1], [0, 1], [2, 2, 2]⟩, by with_unfolding_all decide, rfl, rfl⟩

/-- C19, amended: for every well-formed matrix `M`, `ComputeTranspose` returns a matrix
whose cumulative counts have exactly `max M.rows M.cols` entries (which is the column
count `M.rows` of the transposed matrix exactly when `M.cols <= M.rows`), are
non-decreasing, and end at the number of stored values, which is that of `M`. -/
theorem ComputeTranspose_cumulative (M : SparseMatrix) (wf : WellFormed M) :
    ∃ T, ComputeTranspose M = some T ∧
      T.cumulative_elements_.length = max M.rows_count_ M.cols_count_ ∧
      (T.cumulative_elements_.length = T.cols_count_ ↔ M.cols_count_ ≤ M.rows_count_) ∧
      (∀ (i j a b : Nat), i ≤ j → T.cumulative_elements_[i]? = some a →
        T.cumulative_elements_[j]? = some b → a ≤ b) ∧
      (0 < max M.rows_count_ M.cols_count_ →
        T.cumulative_elements_.getLast? = some T.values_.length) ∧
      T.values_.length = M.values_.length := by
  obtain ⟨GV, GI, hT, hlen, _, _, hsum⟩ := ComputeTranspose_eq wf
  have hcl : (prefixSums (GV.map List.length)).length = max M.rows_count_ M.cols_count_ := by
    rw [prefixSums_length, List.length_map, hlen]
  refine ⟨_, hT, hcl, ?_, ?_, ?_, ?_⟩
  · simp only [hcl]
    constructor
    · intro h
      have := le_max_right M.rows_count_ M.cols_count_
      omega
    · intro h
      exact max_eq_left h
  · intro i j a b hij ha hb
    exact pairwise_le_getElem?_mono (prefixSums_pairwise _) hij ha hb
  · intro hpos
    have hlast := prefixSums_getLast? (GV.map List.length)
    cases hl : (prefixSums (GV.map List.length)).getLast? with
    | none =>
      rw [List.getLast?_eq_none_iff] at hl
      rw [hl] at hcl
      simp at hcl
      omega
    | some x =>
      rw [hl] at hlast
      simp only [Option.getD_some] at hlast
      simp only [List.length_flatten, hlast]
  · simp only [List.length_flatten, hsum]

/-- C19 amended, at the well-formed 1 x 3 matrix `[1, 0, 1]`. -/
theorem ComputeTranspose_cumulative_witness :
    ∃ T, ComputeTranspose ⟨1, 3, [1, 1], [0, 0], [1, 1, 2]⟩ = some T ∧
      T.cumulative_elements_.length = max 1 3 ∧
      (T.cumulative_elements_.length = T.cols_count_ ↔ 3 ≤ 1) ∧
      (∀ (i j a b : Nat), i ≤ j → T.cumulative_elements_[i]? = some a →
        T.cumulative_elements_[j]? = some b → a ≤ b) ∧
      (0 < max 1 3 → T.cumulative_elements_.getLast? = some T.values_.length) ∧
      T.values_.length = [(1 : ℚ), 1].length :=
  ComputeTranspose_cumulative ⟨1, 3, [1, 1], [0, 0], [1, 1, 2]⟩ (by decide)

/-- C18, as stated, fails for the well-formed operands `A` (2 x 1, entries 1, 1) and `B`
(1 x 1, entry 1), which have `A.cols == B.rows`: the product has `rows_count == 1` and
stores the row indices 0 and 1. -/
theorem product_row_index_out_of_range :
    WellFormed ⟨2, 1, [1, 1], [0, 1], [2]⟩ ∧ WellFormed ⟨1, 1, [1], [0], [1]⟩ ∧
    Multiply ⟨2, 1, [1, 1], [0, 1], [2]⟩ ⟨1, 1, [1], [0], [1]⟩ 0 =
      some (⟨1, 1, [1, 1], [0, 1], [2]⟩, 2) ∧
    ¬∀ r ∈ [0, 1], r < 1 :=
  ⟨by decide, by decide, by with_unfolding_all decide, by decide⟩

/-- C18, amended: for all well-formed operands `A` and `B` with `A.cols == B.rows` and
`A.rows == B.cols` (what `ValidationImpl` guarantees), `operator*` returns a product
every stored row index of which lies below the product's `rows_count`. -/
theorem Multiply_row_indices_in_range (A B : SparseMatrix) (elems : Nat)
    (wfA : WellFormed A) (wfB : WellFormed B) (_hinner : A.cols_count_ = B.rows_count_)
    (houter : A.rows_count_ = B.cols_count_) :
    ∃ M e, Multiply A B elems = some (M, e) ∧ ∀ r ∈ M.row_indices_, r < M.rows_count_ := by
  obtain ⟨M, e, h⟩ := Multiply_total wfA wfB elems
  refine ⟨M, e, h, ?_⟩
  obtain ⟨T, hT, hM, _⟩ := Multiply_eq h
  obtain ⟨GV, GI, hT', hlen, _, hempty, _⟩ := ComputeTranspose_eq wfA
  rw [hT] at hT'
  have hTeq := Option.some.inj hT'
  intro r hr
  rw [hM] at hr ⊢
  simp only [ofColumns, List.mem_flatten, List.mem_map] at hr ⊢
  obtain ⟨l, ⟨col, hcol, rfl⟩, hr⟩ := hr
  obtain ⟨x, hx, rfl⟩ := List.mem_map.mp hr
  obtain ⟨c, _, rfl⟩ := mem_productColumns hcol
  obtain ⟨hxr, hcell, hgt⟩ := mem_productColumn.mp hx
  rw [← houter]
  by_contra hge
  have hcum : T.cumulative_elements_ = prefixSums (GV.map List.length) := by rw [hTeq]
  have hxl : x.1 < (GV.map List.length).length := by
    rw [hcum, prefixSums_length] at hxr; exact hxr
  have hcnt := CountElements_prefixSums (GV.map List.length) x.1 hxl
  rw [← hcum] at hcnt
  have hzero : (GV.map List.length)[x.1] = 0 := by
    have hk : x.1 < GV.length := by simpa using hxl
    have := hempty x.1 (by omega) hk
    rw [List.getElem?_eq_getElem hk] at this
    simp [Option.some.inj this]
  have := Multiply.cell_of_empty_column hcnt (by rw [hzero]; rfl) hcell
  rw [this] at hgt
  unfold kThreshold at hgt
  norm_num at hgt

/-- C18 amended, at the operands of the rectangular test (`A` 3 x 4, `B` 4 x 3) in CCS
form. -/
theorem Multiply_row_indices_in_range_witness :
    ∃ M e, Multiply ⟨3, 4, [1, 1, 4, 6, 3, 2], [2, 0, 1, 0, 1, 2], [1, 2, 3, 6]⟩
        ⟨4, 3, [1 / 2, 3, 7, 3 / 2, 8, 2], [0, 2, 3, 0, 1, 3], [3, 3, 6]⟩ 0 = some (M, e) ∧
      ∀ r ∈ M.row_indices_, r < M.rows_count_ :=
  Multiply_row_indices_in_range ⟨3, 4, [1, 1, 4, 6, 3, 2], [2, 0, 1, 0, 1, 2], [1, 2, 3, 6]⟩
    ⟨4, 3, [1 / 2, 3, 7, 3 / 2, 8, 2], [0, 2, 3, 0, 1, 3], [3, 3, 6]⟩ 0 (by decide) (by decide)
    rfl rfl

/-! ## The reference dense multiplication -/

theorem roundedDot_succ (A : List ℚ) (B : List ℚ) (cB : Nat) (j : Nat) (idx : Nat → Nat)
    (n : Nat) :
    (List.range (n + 1)).foldl
        (fun sum k => roundDouble (sum + roundDouble (A[idx k]?.getD 0 * B[k * cB + j]?.getD 0)))
        0 =
      roundDouble ((List.range n).foldl
        (fun sum k => roundDouble (sum + roundDouble (A[idx k]?.getD 0 * B[k * cB + j]?.getD 0)))
        0 + roundDouble (A[idx n]?.getD 0 * B[n * cB + j]?.getD 0)) := by
  rw [List.range_succ, List.foldl_append]
  rfl

theorem MultiplyMatrices.dot_eq (A : List ℚ) (cA : Nat) (B : List ℚ) (cB : Nat) (i j : Nat)
    (hA : ∀ k, k < cA → i * cA + k < A.length) (hB : ∀ k, k < cA → k * cB + j < B.length) :
    MultiplyMatrices.dot A cA B cB i j = some (roundedDot A cA B cB i j) := by
  unfold MultiplyMatrices.dot roundedDot
  have key := forRange_inv
    (fun n (s : ℚ) => s = (List.range n).foldl
      (fun sum k =>
        roundDouble (sum + roundDouble (A[i * cA + k]?.getD 0 * B[k * cB + j]?.getD 0))) 0)
    cA (0 : ℚ)
    (fun sum k => do
      let a ← A[i * cA + k]?
      let b ← B[k * cB + j]?
      pure (roundDouble (sum + roundDouble (a * b))))
    (by simp)
    (by
      intro k s hk hs
      obtain ⟨a, ha⟩ : ∃ a, A[i * cA + k]? = some a := ⟨_, List.getElem?_eq_getElem (hA k hk)⟩
      obtain ⟨b, hb⟩ : ∃ b, B[k * cB + j]? = some b := ⟨_, List.getElem?_eq_getElem (hB k hk)⟩
      refine ⟨roundDouble (s + roundDouble (a * b)), ?_, ?_⟩
      · simp only [ha, hb, Option.bind_eq_bind, Option.some_bind, Option.pure_def]
      · beta_reduce
        rw [roundedDot_succ A B cB j (fun k => i * cA + k) k, ← hs, ha, hb]
        rfl)
  obtain ⟨s, hs, hsum⟩ := key
  rw [hs, hsum]

/-- The loop over `j` of `MultiplyMatrices` for row `i` writes the entries of row `i` and
leaves every other position as it was. -/
theorem MultiplyMatrices.row_loop (A : List ℚ) (rA cA : Nat) (B : List ℚ) (cB : Nat) (i : Nat)
    (hi : i < rA) (hA : ∀ k, k < cA → i * cA + k < A.length)
    (hB : ∀ k j, k < cA → j < cB → k * cB + j < B.length)
    (res : List ℚ) (hres : res.length = rA * cB) (m : Nat) (hm : m ≤ cB) :
    ∃ out, forRange m res (fun result j => do
        let sum ← MultiplyMatrices.dot A cA B cB i j
        writeAt result (i * cB + j) sum) = some out ∧
      out.length = rA * cB ∧
      (∀ j, j < m → out[i * cB + j]? = some (roundedDot A cA B cB i j)) ∧
      (∀ idx, (∀ j, j < m → idx ≠ i * cB + j) → out[idx]? = res[idx]?) := by
  obtain ⟨out, hout, hinv⟩ := forRange_inv
    (fun m (out : List ℚ) => m ≤ cB → out.length = rA * cB ∧
      (∀ j, j < m → out[i * cB + j]? = some (roundedDot A cA B cB i j)) ∧
      (∀ idx, (∀ j, j < m → idx ≠ i * cB + j) → out[idx]? = res[idx]?))
    m res
    (fun result j => do
      let sum ← MultiplyMatrices.dot A cA B cB i j
      writeAt result (i * cB + j) sum)
    (fun _ => ⟨hres, fun j hj => absurd hj (Nat.not_lt_zero j), fun _ _ => rfl⟩)
    (by
      intro j s hj hinv
      have hjc : j < cB := by omega
      obtain ⟨hlen, hset, hkeep⟩ := hinv (Nat.le_of_lt hjc)
      have hidx : i * cB + j < s.length := by rw [hlen]; exact dense_index_lt hi hjc
      refine ⟨s.set (i * cB + j) (roundedDot A cA B cB i j), ?_,
        fun _ => ⟨by simpa using hlen, ?_, ?_⟩⟩
      · simp only [MultiplyMatrices.dot_eq A cA B cB i j hA (fun k hk => hB k j hk hjc),
          writeAt, hidx, if_true, Option.bind_eq_bind, Option.some_bind]
      · intro j' hj'
        rcases Nat.eq_or_lt_of_le (Nat.le_of_lt_succ hj') with rfl | hlt
        · exact List.getElem?_set_self hidx
        · rw [List.getElem?_set_ne (by omega)]
          exact hset j' hlt
      · intro idx hne
        rw [List.getElem?_set_ne (Ne.symm (hne j (Nat.lt_succ_self j)))]
        exact hkeep idx fun j' hj' => hne j' (Nat.lt_succ_of_lt hj'))
  exact ⟨out, hout, hinv hm⟩

theorem MultiplyMatrices.fill_eq (A : List ℚ) (rA cA : Nat) (B : List ℚ) (cB : Nat)
    (hA : A.length = rA * cA) (hB : B.length = cA * cB) :
    ∃ result, MultiplyMatrices.fill A rA cA B cB = some result ∧ result.length = rA * cB ∧
      ∀ i j, i < rA → j < cB → result[i * cB + j]? = some (roundedDot A cA B cB i j) := by
  unfold MultiplyMatrices.fill
  obtain ⟨out, hout, hinv⟩ := forRange_inv
    (fun n (out : List ℚ) => n ≤ rA → out.length = rA * cB ∧
      ∀ i j, i < n → j < cB → out[i * cB + j]? = some (roundedDot A cA B cB i j))
    rA (List.replicate (rA * cB) (0 : ℚ))
    (fun result i => forRange cB result fun result j => do
      let sum ← MultiplyMatrices.dot A cA B cB i j
      writeAt result (i * cB + j) sum)
    (fun _ => ⟨by simp, fun i j hi => absurd hi (Nat.not_lt_zero i)⟩)
    (by
      intro n s hn hinv
      obtain ⟨hlen, hdone⟩ := hinv (Nat.le_of_lt hn)
      obtain ⟨out, hout, holen, hset, hkeep⟩ := MultiplyMatrices.row_loop A rA cA B cB n hn
        (fun k hk => by rw [hA]; exact dense_index_lt hn hk)
        (fun k j hk hj => by rw [hB]; exact dense_index_lt hk hj) s hlen cB (Nat.le_refl _)
      refine ⟨out, hout, fun _ => ⟨holen, ?_⟩⟩
      intro i j hi hj
      rcases Nat.eq_or_lt_of_le (Nat.le_of_lt_succ hi) with rfl | hlt
      · exact hset j hj
      · rw [hkeep (i * cB + j) (fun j' hj' heq => by
          have := (dense_index_inj hj hj' heq).1
          omega)]
        exact hdone i j hlt hj)
  exact ⟨out, hout, hinv (Nat.le_refl _)⟩

/-- The double-precision accumulation is the exact sum when no operation rounds: every
product and every partial sum is a double. -/
theorem roundedDot_exact (A : List ℚ) (cA : Nat) (B : List ℚ) (cB : Nat) (i j : Nat)
    (h : ∀ k, k < cA →
      IsDouble (A[i * cA + k]?.getD 0 * B[k * cB + j]?.getD 0) ∧
      IsDouble (∑ l ∈ Finset.range (k + 1), A[i * cA + l]?.getD 0 * B[l * cB + j]?.getD 0)) :
    roundedDot A cA B cB i j = denseEntry A cA B cB i j := by
  unfold roundedDot denseEntry
  have key : ∀ n, n ≤ cA → (List.range n).foldl
      (fun sum k =>
        roundDouble (sum + roundDouble (A[i * cA + k]?.getD 0 * B[k * cB + j]?.getD 0))) 0 =
      ∑ k ∈ Finset.range n, A[i * cA + k]?.getD 0 * B[k * cB + j]?.getD 0 := by
    intro n
    induction n with
    | zero => intro _; simp
    | succ n ih =>
      intro hn
      obtain ⟨h1, h2⟩ := h n (by omega)
      unfold IsDouble at h1 h2
      rw [roundedDot_succ A B cB j (fun k => i * cA + k) n, ih (by omega), h1,
        ← Finset.sum_range_succ, h2]
  exact key cA (Nat.le_refl _)

/-- C13 (known small example): with input counts (3, 3, 3, 3) and the buffers of the test
`test_square_matrices`, validation accepts, the product of the two converted operands
densifies to `[8, 3, 10, 31, 0, 0, 12, 0, 0]`, and so does the pipeline. -/
theorem known_small_example :
    ValidationImpl { task_data := ⟨[[1, 0, 2, 0, 7, 6, 0, 0, 3], [0, 3, 10, 1, 0, 0, 4, 0, 0]],
      [3, 3, 3, 3], [[0, 0, 0, 0, 0, 0, 0, 0, 0]]⟩ } = some true ∧
    ((MatrixToSparse 3 3 [1, 0, 2, 0, 7, 6, 0, 0, 3]).bind fun A =>
      (MatrixToSparse 3 3 [0, 3, 10, 1, 0, 0, 4, 0, 0]).bind fun B =>
        (A.mul B).bind FromSparseMatrix) = some [8, 3, 10, 31, 0, 0, 12, 0, 0] ∧
    runPipeline { task_data := ⟨[[1, 0, 2, 0, 7, 6, 0, 0, 3], [0, 3, 10, 1, 0, 0, 4, 0, 0]],
      [3, 3, 3, 3], [[0, 0, 0, 0, 0, 0, 0, 0, 0]]⟩ } = some [8, 3, 10, 31, 0, 0, 12, 0, 0] := by
  refine ⟨by decide, ?_, ?_⟩ <;> decide!

/-- C14 (rectangular example): with input counts (3, 4, 4, 3) and the buffers of the test
`test_rectangular_matrices`, validation accepts, the product of the two converted
operands densifies to `[42, 0, 20, 33, 0, 6, 14.5, 0, 5.5]`, and so does the pipeline. -/
theorem rectangular_example :
    ValidationImpl { task_data := ⟨[[0, 1, 0, 6, 0, 0, 4, 3, 1, 0, 0, 2],
      [1 / 2, 0, 3 / 2, 0, 0, 8, 3, 0, 0, 7, 0, 2]], [3, 4, 4, 3],
      [[0, 0, 0, 0, 0, 0, 0, 0, 0]]⟩ } = some true ∧
    ((MatrixToSparse 3 4 [0, 1, 0, 6, 0, 0, 4, 3, 1, 0, 0, 2]).bind fun A =>
      (MatrixToSparse 4 3 [1 / 2, 0, 3 / 2, 0, 0, 8, 3, 0, 0, 7, 0, 2]).bind fun B =>
        (A.mul B).bind FromSparseMatrix) = some [42, 0, 20, 33, 0, 6, 29 / 2, 0, 11 / 2] ∧
    runPipeline { task_data := ⟨[[0, 1, 0, 6, 0, 0, 4, 3, 1, 0, 0, 2],
      [1 / 2, 0, 3 / 2, 0, 0, 8, 3, 0, 0, 7, 0, 2]], [3, 4, 4, 3],
      [[0, 0, 0, 0, 0, 0, 0, 0, 0]]⟩ } = some [42, 0, 20, 33, 0, 6, 29 / 2, 0, 11 / 2] := by
  refine ⟨by decide, ?_, ?_⟩ <;> decide!

/-! ## Totality of the conversions -/

/-- C15 (the conversions are total).  For every buffer of length `rows * cols`,
`MatrixToSparse` returns a matrix, every index `row * cols + col` it reads being below
`rows * cols`.  For every well-formed matrix `M`, `FromSparseMatrix` returns a buffer of
`rows * cols` entries; and at every stored entry `n`, from the state `st` the loop has
reached, the step is taken without fault, its column-advance loop stops at a column
`st'.col` below `M.cols` (the last index of `cumulative` it reads), and its write index
`row * cols + col` is below `rows * cols`. -/
theorem conversions_total :
    (∀ rows cols (buffer : List ℚ), buffer.length = rows * cols →
      (∃ M, MatrixToSparse rows cols buffer = some M) ∧
      ∀ row col, row < rows → col < cols → row * cols + col < buffer.length) ∧
    (∀ M, WellFormed M →
      (∃ d, FromSparseMatrix M = some d ∧ d.length = M.rows_count_ * M.cols_count_) ∧
      ∀ n st, n < M.values_.length →
        forRange n ⟨List.replicate (M.rows_count_ * M.cols_count_) (0 : ℚ), 0, 0⟩
          (FromSparseMatrix.step M) = some st →
        ∃ st' row, FromSparseMatrix.step M st n = some st' ∧
          st'.col < M.cols_count_ ∧ M.row_indices_[n]? = some row ∧
          row * M.cols_count_ + st'.col < M.rows_count_ * M.cols_count_) := by
  constructor
  · intro rows cols buffer hlen
    exact ⟨⟨_, MatrixToSparse_eq rows cols buffer hlen⟩,
      fun row col hr hc => by rw [hlen]; exact dense_index_lt hr hc⟩
  · intro M wf
    constructor
    · obtain ⟨d, hd, hlen, _⟩ := FromSparseMatrix_spec wf
      exact ⟨d, hd, hlen⟩
    · intro n st hn hst
      obtain ⟨st0, hst0, hinv⟩ := forRange_inv (FromSparseMatrix.Inv M) n
        ⟨List.replicate (M.rows_count_ * M.cols_count_) (0 : ℚ), 0, 0⟩
        (FromSparseMatrix.step M)
        ⟨rfl, by simp, fun _ => rfl, fun h => absurd h (Nat.lt_irrefl 0),
          fun c i hi => absurd hi (Nat.not_lt_zero i),
          fun r c hr hc _ => by simp [List.getElem?_replicate, dense_index_lt hr hc]⟩
        (fun i s hi hs => FromSparseMatrix.step_inv wf i s (by omega) hs)
      rw [hst] at hst0
      cases hst0
      obtain ⟨st', hst', hinv'⟩ := FromSparseMatrix.step_inv wf n st hn hinv
      have hcol := hinv'.2.2.2.1 (Nat.succ_pos n)
      have hcol' : st'.col < M.cols_count_ := by rw [← wf.cum_length]; exact hcol.1
      have hnr : n < M.row_indices_.length := by rw [wf.rows_length]; exact hn
      have hrow : M.row_indices_[n] < M.rows_count_ := wf.row_lt _ (List.getElem_mem _)
      exact ⟨st', M.row_indices_[n], hst', hcol', List.getElem?_eq_getElem hnr,
        dense_index_lt hrow hcol'⟩

/-- C15, at concrete inputs: the 2 x 2 identity buffer, and the well-formed 1 x 3 matrix
`[1, 0, 1]` with an empty middle column. -/
theorem conversions_total_witness :
    (∃ M, MatrixToSparse 2 2 [1, 0, 0, 1] = some M) ∧
    (∃ d, FromSparseMatrix ⟨1, 3, [1, 1], [0, 0], [1, 1, 2]⟩ = some d ∧ d.length = 1 * 3) :=
  ⟨(conversions_total.1 2 2 [1, 0, 0, 1] rfl).1,
    (conversions_total.2 ⟨1, 3, [1, 1], [0, 0], [1, 1, 2]⟩ (by decide)).1⟩

/-! ## Empty operands -/

theorem MatrixToSparse_values_nil {rows cols : Nat} {buffer : List ℚ} {X : SparseMatrix}
    (h0 : rows = 0 ∨ cols = 0) (h : MatrixToSparse rows cols buffer = some X) :
    X.values_ = [] := by
  simp only [MatrixToSparse, Option.bind_eq_bind, Option.bind_eq_some, Option.pure_def,
    Option.some.injEq] at h
  obtain ⟨st, hst, hX⟩ := h
  subst hX
  rcases h0 with h0 | h0
  · subst h0
    refine forRange_inv_of_eq_some (fun _ (s : ToSparseState) => s.sparse_values = []) rfl ?_ hst
    intro i s s' _ hs hs'
    simp only [MatrixToSparse.colStep, forRange_zero, Option.bind_eq_bind, Option.some_bind,
      Option.pure_def, Option.some.injEq] at hs'
    rw [← hs']
    exact hs
  · subst h0
    rw [forRange_zero] at hst
    cases hst
    rfl

theorem IsEmptyOperand.values_nil {X : SparseMatrix} (h : IsEmptyOperand X) : X.values_ = [] := by
  rcases h with rfl | ⟨rows, cols, buffer, h0, h⟩
  · rfl
  · exact MatrixToSparse_values_nil h0 h

/-- The transpose of a matrix without stored values has no stored values. -/
theorem ComputeTranspose_values_nil {M T : SparseMatrix} (hM : M.values_ = [])
    (h : ComputeTranspose M = some T) : T.values_ = [] := by
  have hfl := ComputeTranspose.flatten_loop
    (List.replicate (max M.rows_count_ M.cols_count_) ([] : List ℚ))
    (List.replicate (max M.rows_count_ M.cols_count_) ([] : List Nat)) (by simp)
    (max M.rows_count_ M.cols_count_) (by simp)
  simp only [ComputeTranspose, hM, List.length_nil, forRange_zero, Option.bind_eq_bind,
    Option.some_bind, List.length_replicate, hfl, Option.pure_def, Option.some.injEq] at h
  rw [← h]
  simp

/-- When one of the two operands handed to the accumulation has no stored value, every
accumulated sum is zero. -/
theorem Multiply.cell_of_values_nil {T B : SparseMatrix} (h0 : T.values_ = [] ∨ B.values_ = [])
    {row col : Nat} {s : ℚ} (h : Multiply.cell T B row col = some s) : s = 0 := by
  simp only [Multiply.cell, Option.bind_eq_bind, Option.bind_eq_some] at h
  obtain ⟨c1, _, c2, _, s1, _, s2, _, hloop⟩ := h
  refine forRange_inv_of_eq_some (fun _ (x : ℚ) => x = 0) rfl ?_ hloop
  intro i x x' _ hx hinner
  refine forRange_inv_of_eq_some (fun _ (y : ℚ) => y = 0) hx ?_ hinner
  intro j y y' _ hy hbody
  simp only [Option.bind_eq_bind, Option.bind_eq_some, Option.pure_def] at hbody
  obtain ⟨a, _, b, _, hbody⟩ := hbody
  by_cases hab : a = b
  · rw [if_pos hab] at hbody
    simp only [Option.bind_eq_some] at hbody
    obtain ⟨u, hu, v, hv, _⟩ := hbody
    rcases h0 with h0 | h0
    · rw [h0] at hu; simp at hu
    · rw [h0] at hv; simp at hv
  · rw [if_neg hab] at hbody
    cases hbody
    exact hy

theorem productColumn_of_values_nil {T B : SparseMatrix} (h0 : T.values_ = [] ∨ B.values_ = [])
    (col n : Nat) : productColumn T B col n = [] := by
  apply List.eq_nil_iff_forall_not_mem.mpr
  intro x hx
  obtain ⟨_, hcell, hgt⟩ := mem_productColumn.mp hx
  rw [Multiply.cell_of_values_nil h0 hcell] at hgt
  unfold kThreshold at hgt
  norm_num at hgt

/-- C11 (empty-input identity).  Whenever either operand is the default-constructed
matrix or was built by `MatrixToSparse` with zero rows or zero columns, whatever
`operator*` returns stores no entries (`values` and `row_indices` are empty), and it does
return when both operands are well-formed.  For the input counts (0, 0, 0, 0) validation
accepts, `PreProcessingImpl` leaves the default operands in place, `RunImpl` stores the
0 x 0 product without entries, and `FromSparseMatrix` of it is the empty buffer. -/
theorem empty_input_identity :
    (∀ A B elems, IsEmptyOperand A ∨ IsEmptyOperand B →
      (∀ M e, Multiply A B elems = some (M, e) → M.values_ = [] ∧ M.row_indices_ = []) ∧
      (WellFormed A → WellFormed B → ∃ M e, Multiply A B elems = some (M, e))) ∧
    (∀ inputs outputs elems,
      ValidationImpl { task_data := ⟨inputs, [0, 0, 0, 0], outputs⟩, elems := elems } =
        some true ∧
      PreProcessingImpl { task_data := ⟨inputs, [0, 0, 0, 0], outputs⟩, elems := elems } =
        some (true, { task_data := ⟨inputs, [0, 0, 0, 0], outputs⟩, elems := elems }) ∧
      RunImpl { task_data := ⟨inputs, [0, 0, 0, 0], outputs⟩, elems := elems } =
        some (true, { task_data := ⟨inputs, [0, 0, 0, 0], outputs⟩,
                      result_matrix_ := ⟨0, 0, [], [], []⟩, elems := elems }) ∧
      FromSparseMatrix ⟨0, 0, [], [], []⟩ = some []) := by
  constructor
  · intro A B elems hempty
    refine ⟨?_, fun wfA wfB => Multiply_total wfA wfB elems⟩
    intro M e h
    obtain ⟨T, hT, hM, _⟩ := Multiply_eq h
    have h0 : T.values_ = [] ∨ B.values_ = [] := by
      rcases hempty with hA | hB
      · exact Or.inl (ComputeTranspose_values_nil hA.values_nil hT)
      · exact Or.inr hB.values_nil
    have hcols : productColumns T B B.cols_count_ = List.replicate B.cols_count_ [] := by
      apply List.ext_getElem?
      intro c
      by_cases hc : c < B.cols_count_
      · rw [productColumns_getElem? T B _ c hc, productColumn_of_values_nil h0,
          List.getElem?_replicate, if_pos hc]
      · rw [List.getElem?_eq_none (by rw [productColumns_length]; omega),
          List.getElem?_eq_none (by rw [List.length_replicate]; omega)]
    rw [hM, hcols]
    simp [ofColumns]
  · intro inputs outputs elems
    exact ⟨rfl, rfl, rfl, rfl⟩

/-- C11, at concrete operands: a matrix built with zero rows times a non-empty 2 x 2
matrix. -/
theorem empty_input_identity_witness :
    MatrixToSparse 0 2 [] = some ⟨0, 2, [], [], [0, 0]⟩ ∧
    Multiply ⟨0, 2, [], [], [0, 0]⟩ ⟨2, 2, [1, 1, 1], [0, 1, 1], [2, 3]⟩ 0 =
      some (⟨2, 2, [], [], [0, 0]⟩, 0) ∧
    (([] : List ℚ) = [] ∧ ([] : List Nat) = []) :=
  ⟨by decide!, by decide!,
    (empty_input_identity.1 ⟨0, 2, [], [], [0, 0]⟩ ⟨2, 2, [1, 1, 1], [0, 1, 1], [2, 3]⟩ 0
      (Or.inl (Or.inr ⟨0, 2, [], Or.inl rfl, by decide!⟩))).1 ⟨2, 2, [], [], [0, 0]⟩ 0
      (by decide!)⟩

/-! ## Cumulative counts of a product -/

/-- C21 (cumulative counts of a product): whenever `operator*` returns, with `T` the
transposed first operand, the cumulative counts of the product have exactly `B.cols`
entries; entry `c` is the total number of entries kept in the output columns `0 .. c`;
the sequence is non-decreasing; when `B.cols > 0` its last entry is the number of stored
values; and `values` and `row_indices` have the same length. -/
theorem Multiply_cumulative_counts (A B M : SparseMatrix) (elems e : Nat)
    (h : Multiply A B elems = some (M, e)) :
    ∃ T, ComputeTranspose A = some T ∧
      M.cumulative_elements_.length = B.cols_count_ ∧
      (∀ c, c < B.cols_count_ → M.cumulative_elements_[c]? = some
        ((List.range (c + 1)).map fun k =>
          (productColumn T B k T.cumulative_elements_.length).length).sum) ∧
      (∀ (i j a b : Nat), i ≤ j → M.cumulative_elements_[i]? = some a →
        M.cumulative_elements_[j]? = some b → a ≤ b) ∧
      (0 < B.cols_count_ → M.cumulative_elements_.getLast? = some M.values_.length) ∧
      M.values_.length = M.row_indices_.length := by
  obtain ⟨T, hT, hM, _⟩ := Multiply_eq h
  have wf := productColumns_wellFormed T B B.cols_count_
  have hcum : M.cumulative_elements_ =
      prefixSums ((productColumns T B B.cols_count_).map List.length) := by rw [hM]; rfl
  have hcl : M.cumulative_elements_.length = B.cols_count_ := by
    rw [hcum, prefixSums_length, List.length_map, productColumns_length]
  refine ⟨T, hT, hcl, ?_, ?_, ?_, ?_⟩
  · intro c hc
    rw [hcum, prefixSums_getElem? _ c (by
      rw [List.length_map, productColumns_length]; exact hc)]
    congr 2
    simp only [productColumns, List.map_map, ← List.map_take, List.take_range]
    rw [Nat.min_eq_left (by omega)]
    rfl
  · intro i j a b hij ha hb
    rw [hcum] at ha hb
    exact pairwise_le_getElem?_mono (prefixSums_pairwise _) hij ha hb
  · intro hpos
    have hlast := wf.cum_last
    have hv : M.values_.length =
        (ofColumns T.cumulative_elements_.length B.cols_count_
          (productColumns T B B.cols_count_)).values_.length := by rw [hM]; rfl
    rw [hv, ← hlast]
    have hc2 : (ofColumns T.cumulative_elements_.length B.cols_count_
        (productColumns T B B.cols_count_)).cumulative_elements_ = M.cumulative_elements_ := by
      rw [hM]; rfl
    rw [hc2]
    cases hl : M.cumulative_elements_.getLast? with
    | none =>
      rw [List.getLast?_eq_none_iff] at hl
      rw [hl] at hcl
      simp at hcl
      omega
    | some x => rfl
  · rw [hM]
    exact (wf.rows_length).symm

/-- C21, at concrete 2 x 2 operands (`A = [[1,-1],[0,2]]`, `B = [[1,0],[1,1]]`), whose
product keeps one entry in each of its two columns. -/
theorem Multiply_cumulative_counts_witness :
    ∃ T, ComputeTranspose ⟨2, 2, [1, -1, 2], [0, 0, 1], [1, 3]⟩ = some T ∧
      [1, 2].length = 2 ∧
      (∀ c, c < 2 → [1, 2][c]? = some
        ((List.range (c + 1)).map fun k =>
          (productColumn T ⟨2, 2, [1, 1, 1], [0, 1, 1], [2, 3]⟩ k
            T.cumulative_elements_.length).length).sum) ∧
      (∀ (i j a b : Nat), i ≤ j → [1, 2][i]? = some a → [1, 2][j]? = some b → a ≤ b) ∧
      (0 < 2 → [1, 2].getLast? = some [(2 : ℚ), 2].length) ∧
      [(2 : ℚ), 2].length = [1, 1].length :=
  Multiply_cumulative_counts ⟨2, 2, [1, -1, 2], [0, 0, 1], [1, 3]⟩
    ⟨2, 2, [1, 1, 1], [0, 1, 1], [2, 3]⟩ ⟨2, 2, [2, 2], [1, 1], [1, 2]⟩ 0 2 (by decide!)

/-! ## Zero-sized conversion -/

theorem MatrixToSparse.zero_rows_loop (cols : Nat) (buffer : List ℚ) (n : Nat) :
    forRange n ⟨[], [], [], 0⟩ (MatrixToSparse.colStep 0 cols buffer) =
      some ⟨[], [], List.replicate n 0, 0⟩ := by
  induction n with
  | zero => rfl
  | succ n ih =>
    rw [forRange_succ, ih]
    simp only [Option.some_bind, MatrixToSparse.colStep, forRange_zero, Option.bind_eq_bind,
      Option.pure_def, List.replicate_succ']

/-- C23, as stated, fails for `rows = 0`, `cols = 3`: the cumulative counts are
`[0, 0, 0]`, not empty. -/
theorem zero_rows_cumulative_not_empty :
    MatrixToSparse 0 3 [] = some ⟨0, 3, [], [], [0, 0, 0]⟩ ∧ [0, 0, 0] ≠ ([] : List Nat) :=
  ⟨by decide!, by decide⟩

/-- C23, amended: for every buffer, with `rows == 0` or `cols == 0`, `MatrixToSparse`
returns a matrix whose `values` and `row_indices` are empty and whose cumulative counts
are `cols` zeros (hence empty exactly when `cols == 0`). -/
theorem MatrixToSparse_zero_sized (rows cols : Nat) (buffer : List ℚ)
    (h0 : rows = 0 ∨ cols = 0) :
    MatrixToSparse rows cols buffer = some ⟨rows, cols, [], [], List.replicate cols 0⟩ := by
  rcases h0 with h0 | h0
  · subst h0
    simp only [MatrixToSparse, MatrixToSparse.zero_rows_loop, Option.bind_eq_bind,
      Option.some_bind, Option.pure_def]
  · subst h0
    rfl

/-- C23 amended, at `rows = 0`, `cols = 3` and at `rows = 3`, `cols = 0`. -/
theorem MatrixToSparse_zero_sized_witness :
    MatrixToSparse 0 3 [] = some ⟨0, 3, [], [], List.replicate 3 0⟩ ∧
    MatrixToSparse 3 0 [] = some ⟨3, 0, [], [], List.replicate 0 0⟩ :=
  ⟨MatrixToSparse_zero_sized 0 3 [] (Or.inl rfl), MatrixToSparse_zero_sized 3 0 [] (Or.inr rfl)⟩

/-! ## Column recovery in densification -/

/-- Every stored index of a well-formed matrix lies in some column. -/
theorem WellFormed.exists_inCol {M : SparseMatrix} (wf : WellFormed M) {i : Nat}
    (hi : i < M.values_.length) : ∃ c, InCol M c i := by
  obtain ⟨st, _, hinv⟩ := forRange_inv (FromSparseMatrix.Inv M) (i + 1)
    ⟨List.replicate (M.rows_count_ * M.cols_count_) (0 : ℚ), 0, 0⟩
    (FromSparseMatrix.step M)
    ⟨rfl, by simp, fun _ => rfl, fun h => absurd h (Nat.lt_irrefl 0),
      fun c k hk => absurd hk (Nat.not_lt_zero k),
      fun r c hr hc _ => by simp [List.getElem?_replicate, dense_index_lt hr hc]⟩
    (fun k s hk hs => FromSparseMatrix.step_inv wf k s (by omega) hs)
  exact ⟨st.col, hinv.2.2.2.1 (Nat.succ_pos i)⟩

/-- C22 (column recovery in densification): for every well-formed matrix `M`,
`FromSparseMatrix` returns a buffer `d` of `rows * cols` entries such that every stored
index `i` lies in exactly one column `c` (the one with
`cumulative[c-1] <= i < cumulative[c]`, whatever the number of empty columns before it)
and `d[row_indices[i] * cols + c] = values[i]`, and such that `d` is zero at every
position that is not the position of a stored entry. -/
theorem FromSparseMatrix_recovers_columns (M : SparseMatrix) (wf : WellFormed M) :
    ∃ d, FromSparseMatrix M = some d ∧ d.length = M.rows_count_ * M.cols_count_ ∧
      (∀ i, i < M.values_.length → ∃ c r v, InCol M c i ∧ (∀ c', InCol M c' i → c' = c) ∧
        M.row_indices_[i]? = some r ∧ M.values_[i]? = some v ∧
        d[r * M.cols_count_ + c]? = some v) ∧
      (∀ idx, idx < M.rows_count_ * M.cols_count_ →
        (∀ i c r, InCol M c i → M.row_indices_[i]? = some r → r * M.cols_count_ + c ≠ idx) →
        d[idx]? = some 0) := by
  obtain ⟨d, hd, hlen, hA, hB⟩ := FromSparseMatrix_spec wf
  refine ⟨d, hd, hlen, ?_, ?_⟩
  · intro i hi
    obtain ⟨c, hc⟩ := wf.exists_inCol hi
    obtain ⟨r, v, hr, hv, hdv⟩ := hA c i hc
    exact ⟨c, r, v, hc, fun c' hc' => wf.inCol_unique hc' hc, hr, hv, hdv⟩
  · intro idx hidx hfree
    have hcols : 0 < M.cols_count_ := by
      rcases Nat.eq_zero_or_pos M.cols_count_ with h | h
      · rw [h] at hidx; simp at hidx
      · exact h
    have hc : idx % M.cols_count_ < M.cols_count_ := Nat.mod_lt _ hcols
    have hr : idx / M.cols_count_ < M.rows_count_ := by
      rw [Nat.div_lt_iff_lt_mul hcols]; exact hidx
    have hsplit : idx / M.cols_count_ * M.cols_count_ + idx % M.cols_count_ = idx :=
      Nat.div_add_mod' idx M.cols_count_
    have := hB (idx / M.cols_count_) (idx % M.cols_count_) hr hc (by
      intro i hin heq
      exact hfree i _ _ hin heq hsplit)
    rwa [hsplit] at this

/-- C22, at the well-formed 2 x 4 matrix with columns 0 and 3 holding one entry each and
two empty columns in between. -/
theorem FromSparseMatrix_recovers_columns_witness :
    ∃ d, FromSparseMatrix ⟨2, 4, [5, 7], [0, 1], [1, 1, 1, 2]⟩ = some d ∧ d.length = 2 * 4 ∧
      (∀ i, i < [(5 : ℚ), 7].length → ∃ c r v,
        InCol ⟨2, 4, [5, 7], [0, 1], [1, 1, 1, 2]⟩ c i ∧
        (∀ c', InCol ⟨2, 4, [5, 7], [0, 1], [1, 1, 1, 2]⟩ c' i → c' = c) ∧
        [0, 1][i]? = some r ∧ [(5 : ℚ), 7][i]? = some v ∧ d[r * 4 + c]? = some v) ∧
      (∀ idx, idx < 2 * 4 →
        (∀ i c r, InCol ⟨2, 4, [5, 7], [0, 1], [1, 1, 1, 2]⟩ c i → [0, 1][i]? = some r →
          r * 4 + c ≠ idx) →
        d[idx]? = some 0) :=
  FromSparseMatrix_recovers_columns ⟨2, 4, [5, 7], [0, 1], [1, 1, 1, 2]⟩ (by decide)

/-! ## The global counter -/

theorem Multiply_elems {A B M : SparseMatrix} {elems e : Nat}
    (h : Multiply A B elems = some (M, e)) : e = elems + M.values_.length := by
  obtain ⟨T, _, hM, he⟩ := Multiply_eq h
  rw [he, hM, ofColumns_values_length]

theorem multiplyAll_elems (pairs : List (SparseMatrix × SparseMatrix)) :
    ∀ (elems : Nat) (Ms : List SparseMatrix) (e : Nat),
      multiplyAll pairs elems = some (Ms, e) →
      Ms.length = pairs.length ∧ e = elems + (Ms.map fun M => M.values_.length).sum := by
  induction pairs with
  | nil =>
    intro elems Ms e h
    simp only [multiplyAll, Option.some.injEq, Prod.mk.injEq] at h
    obtain ⟨rfl, rfl⟩ := h
    simp
  | cons p rest ih =>
    intro elems Ms e h
    obtain ⟨A, B⟩ := p
    simp only [multiplyAll, Option.bind_eq_bind, Option.bind_eq_some, Option.pure_def,
      Option.some.injEq, Prod.mk.injEq, Prod.exists] at h
    obtain ⟨M, e1, h1, Ms', e2, h2, hMs, he⟩ := h
    obtain ⟨hl, hsum⟩ := ih e1 Ms' e2 h2
    subst hMs he
    rw [hsum, Multiply_elems h1]
    simp [hl, Nat.add_assoc]

/-- C28 (the global counter): with the columns processed sequentially, a call of
`operator*` that returns leaves `elems` increased by exactly the number of entries stored
in the returned product; the other stages of the task leave `elems` unchanged (`RunImpl`
changes it only through its one call of `operator*`); so after any sequence of
multiplications `elems` is its initial value (0 at program start) plus the sum of the
stored-entry counts of all the products. -/
theorem elems_counts_stored_entries :
    (∀ A B elems M e, Multiply A B elems = some (M, e) → e = elems + M.values_.length) ∧
    (∀ pairs elems Ms e, multiplyAll pairs elems = some (Ms, e) →
      Ms.length = pairs.length ∧ e = elems + (Ms.map fun M => M.values_.length).sum) ∧
    (∀ pairs Ms e, multiplyAll pairs 0 = some (Ms, e) →
      e = (Ms.map fun M => M.values_.length).sum) ∧
    (∀ t b t', PreProcessingImpl t = some (b, t') → t'.elems = t.elems) ∧
    (∀ t b t', RunImpl t = some (b, t') →
      t'.elems = t.elems + t'.result_matrix_.values_.length) ∧
    (∀ t b t', PostProcessingImpl t = some (b, t') → t'.elems = t.elems) := by
  refine ⟨fun A B elems M e h => Multiply_elems h, fun pairs => multiplyAll_elems pairs, ?_,
    ?_, ?_, ?_⟩
  · intro pairs Ms e h
    have := (multiplyAll_elems pairs 0 Ms e h).2
    simpa using this
  · intro t b t' h
    simp only [PreProcessingImpl, Option.bind_eq_bind, Option.bind_eq_some, Option.pure_def]
      at h
    obtain ⟨_, _, _, _, _, _, _, _, h⟩ := h
    split at h
    · simp only [Option.some.injEq, Prod.mk.injEq] at h
      rw [← h.2]
    · simp only [Option.bind_eq_some, Option.some.injEq, Prod.mk.injEq] at h
      obtain ⟨_, _, _, _, _, _, _, _, _, _, _, _, h⟩ := h
      rw [← h.2]
  · intro t b t' h
    simp only [RunImpl, Option.bind_eq_bind, Option.bind_eq_some, Option.pure_def,
      Option.some.injEq, Prod.mk.injEq, Prod.exists] at h
    obtain ⟨M, e, hm, _, ht⟩ := h
    rw [← ht]
    exact Multiply_elems hm
  · intro t b t' h
    simp only [PostProcessingImpl, Option.bind_eq_bind, Option.bind_eq_some, Option.pure_def]
      at h
    obtain ⟨_, _, _, _, h⟩ := h
    split at h
    · simp only [Option.some.injEq, Prod.mk.injEq] at h
      rw [← h.2]
    · cases h

/-- C28, at a sequence of two multiplications from a counter at 0: the products store 2
and 1 entries and the counter ends at 3. -/
theorem elems_counts_stored_entries_witness :
    multiplyAll [(⟨2, 2, [1, -1, 2], [0, 0, 1], [1, 3]⟩, ⟨2, 2, [1, 1, 1], [0, 1, 1], [2, 3]⟩),
      (⟨1, 1, [2], [0], [1]⟩, ⟨1, 1, [3], [0], [1]⟩)] 0 =
      some ([⟨2, 2, [2, 2], [1, 1], [1, 2]⟩, ⟨1, 1, [6], [0], [1]⟩], 3) ∧
    (3 : Nat) = ([(⟨2, 2, [2, 2], [1, 1], [1, 2]⟩ : SparseMatrix), ⟨1, 1, [6], [0], [1]⟩].map
      fun M => M.values_.length).sum :=
  ⟨by decide!, elems_counts_stored_entries.2.2.1
    [(⟨2, 2, [1, -1, 2], [0, 0, 1], [1, 3]⟩, ⟨2, 2, [1, 1, 1], [0, 1, 1], [2, 3]⟩),
      (⟨1, 1, [2], [0], [1]⟩, ⟨1, 1, [3], [0], [1]⟩)]
    [⟨2, 2, [2, 2], [1, 1], [1, 2]⟩, ⟨1, 1, [6], [0], [1]⟩] 3 (by decide!)⟩

/-! ## Independence of the column order -/

/-- Loop invariant rule for a fold over a list, the invariant seeing the elements already
processed. -/
theorem foldlM_inv_prefix {σ α : Type} (l : List α) :
    ∀ (Inv : List α → σ → Prop) (f : σ → α → Option σ) (init : σ), Inv [] init →
      (∀ pre x suf st, l = pre ++ x :: suf → Inv pre st →
        ∃ st', f st x = some st' ∧ Inv (pre ++ [x]) st') →
      ∃ st, l.foldlM f init = some st ∧ Inv l st := by
  induction l with
  | nil => intro Inv f init h0 _; exact ⟨init, rfl, h0⟩
  | cons x l ih =>
    intro Inv f init h0 hstep
    obtain ⟨st', hst', hinv'⟩ := hstep [] x l init rfl h0
    obtain ⟨st, hst, hinv⟩ := ih (fun pre s => Inv (x :: pre) s) f st' hinv'
      (fun pre y suf s hl hs => hstep (x :: pre) y suf s (by rw [hl]; rfl) hs)
    exact ⟨st, by rw [List.foldlM_cons, hst']; exact hst, hinv⟩

/-- Every step of a fold that finished without fault was taken from some state. -/
theorem foldlM_step_some {σ α : Type} (l : List α) (f : σ → α → Option σ) :
    ∀ (init st : σ), l.foldlM f init = some st → ∀ x ∈ l, ∃ s s', f s x = some s' := by
  induction l with
  | nil => intro init st _ x hx; cases hx
  | cons y l ih =>
    intro init st h x hx
    rw [List.foldlM_cons] at h
    obtain ⟨s, hs, hs'⟩ := Option.bind_eq_some.mp h
    rcases List.mem_cons.mp hx with rfl | hmem
    · exact ⟨init, s, hs⟩
    · exact ih s st hs' x hmem

theorem Multiply.worker_cellsSome {T B : SparseMatrix} {p p' : ParState} {col : Nat}
    (h : Multiply.worker T B p col = some p') : CellsSome T B col := by
  simp only [Multiply.worker, Option.bind_eq_bind, Option.bind_eq_some] at h
  obtain ⟨_, _, _, _, _, _, w, hw, _⟩ := h
  intro r hr
  obtain ⟨u, u', hu⟩ := forRange_step_some hw r hr
  simp only [Multiply.rowStep, Option.bind_eq_bind, Option.bind_eq_some] at hu
  obtain ⟨sum, hsum, _⟩ := hu
  exact ⟨sum, hsum⟩

theorem Multiply.worker_some {T B : SparseMatrix} {n col : Nat} (hcells : CellsSome T B col)
    (hn : col < n) (p : ParState) (hp : p.Sized n) :
    ∃ p', Multiply.worker T B p col = some p' := by
  obtain ⟨h1, h2, h3⟩ := hp
  obtain ⟨lv, hlv⟩ : ∃ lv, p.local_values_vec[col]? = some lv :=
    ⟨_, List.getElem?_eq_getElem (by omega)⟩
  obtain ⟨lr, hlr⟩ : ∃ lr, p.local_rows_vec[col]? = some lr :=
    ⟨_, List.getElem?_eq_getElem (by omega)⟩
  obtain ⟨lc, hlc⟩ : ∃ lc, p.local_counts[col]? = some lc :=
    ⟨_, List.getElem?_eq_getElem (by omega)⟩
  obtain ⟨w, hw⟩ := forRange_total T.cumulative_elements_.length
    (⟨lv, lr, lc, p.elems⟩ : WorkerState) (Multiply.rowStep T B col)
    (fun row st hr => by
      obtain ⟨s, hs⟩ := hcells row hr
      simp only [Multiply.rowStep, hs, Option.bind_eq_bind, Option.some_bind, Option.pure_def]
      split <;> exact ⟨_, rfl⟩)
  refine ⟨⟨p.local_values_vec.set col w.local_values, p.local_rows_vec.set col w.local_rows,
    p.local_counts.set col w.local_count, w.elems⟩, ?_⟩
  simp only [Multiply.worker, hlv, hlr, hlc, hw, Option.bind_eq_bind, Option.some_bind,
    Option.pure_def]

theorem Multiply.order_loop (T B : SparseMatrix) (n elems : Nat) (order : List Nat)
    (hnodup : order.Nodup) (hlt : ∀ c ∈ order, c < n) (hcells : ∀ c ∈ order, CellsSome T B c) :
    ∃ p, order.foldlM (Multiply.worker T B)
        ⟨List.replicate n [], List.replicate n [], List.replicate n 0, elems⟩ = some p ∧
      Multiply.OrderInv T B n elems order p := by
  apply foldlM_inv_prefix order (Multiply.OrderInv T B n elems)
  · refine ⟨⟨by simp, by simp, by simp⟩, ?_, ?_, ?_, by simp⟩ <;>
      intro c hc <;> simp [List.getElem?_replicate, hc]
  · intro pre x suf s hl hinv
    have hx : x ∈ order := by rw [hl]; simp
    have hxn := hlt x hx
    have hxpre : x ∉ pre := by
      rw [hl] at hnodup
      have := (List.nodup_append.mp hnodup).2.2
      intro hmem
      exact this hmem (List.mem_cons_self x suf)
    obtain ⟨hsized, hv, hr, hc, he⟩ := hinv
    obtain ⟨s', hs'⟩ := Multiply.worker_some (hcells x hx) hxn s hsized
    obtain ⟨l1, l2, l3⟩ := hsized
    obtain ⟨lv, lr, lc, hlv, hlr, hlc, e1, e2, e3, e4⟩ := Multiply.worker_eq hs'
    rw [hv x hxn, if_neg hxpre] at hlv
    rw [hr x hxn, if_neg hxpre] at hlr
    rw [hc x hxn, if_neg hxpre] at hlc
    cases hlv; cases hlr; cases hlc
    refine ⟨s', hs', ⟨by simp [e1, l1], by simp [e2, l2], by simp [e3, l3]⟩, ?_, ?_, ?_, ?_⟩
    · intro c hcn
      rw [e1, List.getElem?_set]
      by_cases hck : x = c
      · subst hck; simp [l1, hxn]
      · rw [if_neg hck, hv c hcn]
        simp [List.mem_append, Ne.symm hck]
    · intro c hcn
      rw [e2, List.getElem?_set]
      by_cases hck : x = c
      · subst hck; simp [l2, hxn]
      · rw [if_neg hck, hr c hcn]
        simp [List.mem_append, Ne.symm hck]
    · intro c hcn
      rw [e3, List.getElem?_set]
      by_cases hck : x = c
      · subst hck; simp [l3, hxn]
      · rw [if_neg hck, hc c hcn]
        simp [List.mem_append, Ne.symm hck]
    · rw [e4, he]
      simp [Nat.add_assoc]

/-- Handed every column index once, in any order, the workers leave the same buffers. -/
theorem Multiply.order_fold_eq (T B : SparseMatrix) (n elems : Nat) (order : List Nat)
    (hperm : order.Perm (List.range n)) :
    order.foldlM (Multiply.worker T B)
        ⟨List.replicate n [], List.replicate n [], List.replicate n 0, elems⟩ =
      (List.range n).foldlM (Multiply.worker T B)
        ⟨List.replicate n [], List.replicate n [], List.replicate n 0, elems⟩ := by
  have key : ∀ o : List Nat, o.Perm (List.range n) →
      (∀ c, c < n → CellsSome T B c) →
      o.foldlM (Multiply.worker T B)
        ⟨List.replicate n [], List.replicate n [], List.replicate n 0, elems⟩ =
      some (Multiply.filled T B n elems) := by
    intro o ho hcells
    have hmem : ∀ c, c ∈ o ↔ c < n := fun c => by rw [ho.mem_iff, List.mem_range]
    obtain ⟨p, hp, ⟨l1, l2, l3⟩, hv, hr, hc, he⟩ := Multiply.order_loop T B n elems o
      (ho.nodup_iff.mpr (List.nodup_range n)) (fun c hc => (hmem c).mp hc)
      (fun c hc => hcells c ((hmem c).mp hc))
    rw [hp]
    congr 1
    obtain ⟨pv, pr, pc, pe⟩ := p
    simp only [Multiply.filled, ParState.mk.injEq]
    simp only at l1 l2 l3 hv hr hc he
    refine ⟨?_, ?_, ?_, ?_⟩
    · apply List.ext_getElem?
      intro c
      by_cases hcn : c < n
      · rw [hv c hcn, if_pos ((hmem c).mpr hcn), List.getElem?_map,
          productColumns_getElem? T B n c hcn]
        rfl
      · rw [List.getElem?_eq_none (by omega), List.getElem?_eq_none (by
          rw [List.length_map, productColumns_length]; omega)]
    · apply List.ext_getElem?
      intro c
      by_cases hcn : c < n
      · rw [hr c hcn, if_pos ((hmem c).mpr hcn), List.getElem?_map,
          productColumns_getElem? T B n c hcn]
        rfl
      · rw [List.getElem?_eq_none (by omega), List.getElem?_eq_none (by
          rw [List.length_map, productColumns_length]; omega)]
    · apply List.ext_getElem?
      intro c
      by_cases hcn : c < n
      · rw [hc c hcn, if_pos ((hmem c).mpr hcn), List.getElem?_map,
          productColumns_getElem? T B n c hcn]
        rfl
      · rw [List.getElem?_eq_none (by omega), List.getElem?_eq_none (by
          rw [List.length_map, productColumns_length]; omega)]
    · rw [he]
      congr 1
      simp only [productColumns, List.map_map]
      exact (ho.map _).sum_eq
  by_cases hcells : ∀ c, c < n → CellsSome T B c
  · rw [key order hperm hcells, key (List.range n) (List.Perm.refl _) hcells]
  · have none_of : ∀ o : List Nat, o.Perm (List.range n) →
        o.foldlM (Multiply.worker T B)
          ⟨List.replicate n [], List.replicate n [], List.replicate n 0, elems⟩ = none := by
      intro o ho
      cases hres : o.foldlM (Multiply.worker T B)
        ⟨List.replicate n [], List.replicate n [], List.replicate n 0, elems⟩ with
      | none => rfl
      | some p =>
        exfalso
        apply hcells
        intro c hc
        obtain ⟨s, s', hs⟩ := foldlM_step_some o _ _ p hres c
          (by rw [ho.mem_iff, List.mem_range]; exact hc)
        exact Multiply.worker_cellsSome hs
    rw [none_of order hperm, none_of (List.range n) (List.Perm.refl _)]

/-- C26 (independence of the column order): for every permutation `col_order` of the
column indices `0, .., B.cols - 1` handed to the per-column workers, `operator*` has the
same outcome as with the columns processed in the order `0, 1, .., B.cols - 1`: the same
product (values, row indices, cumulative counts, dimensions) and counter, or a fault in
both cases. -/
theorem MultiplyIn_order_independent (A B : SparseMatrix) (elems : Nat) (col_order : List Nat)
    (hperm : col_order.Perm (List.range B.cols_count_)) :
    MultiplyIn col_order A B elems = Multiply A B elems := by
  unfold Multiply MultiplyIn
  cases hT : ComputeTranspose A with
  | none => rfl
  | some T =>
    simp only [Option.bind_eq_bind, Option.some_bind]
    rw [Multiply.order_fold_eq T B B.cols_count_ elems col_order hperm]

/-- C26, at concrete 2 x 2 operands with the columns handed over in the order 1, 0. -/
theorem MultiplyIn_order_independent_witness :
    MultiplyIn [1, 0] ⟨2, 2, [1, -1, 2], [0, 0, 1], [1, 3]⟩
        ⟨2, 2, [1, 1, 1], [0, 1, 1], [2, 3]⟩ 0 =
      Multiply ⟨2, 2, [1, -1, 2], [0, 0, 1], [1, 3]⟩ ⟨2, 2, [1, 1, 1], [0, 1, 1], [2, 3]⟩ 0 :=
  MultiplyIn_order_independent ⟨2, 2, [1, -1, 2], [0, 0, 1], [1, 3]⟩
    ⟨2, 2, [1, 1, 1], [0, 1, 1], [2, 3]⟩ 0 [1, 0] (List.Perm.swap 0 1 [])

/-! ## What a column worker touches -/

/-- C27, failing input: the 1 x 1 operand `[2]` (whose transpose is itself) and the 1 x 2
operand `[3, 4]`.  A column worker leaves the slots of the other columns as they were,
but it also increments the counter `elems`, which all the workers share: the worker of
column 1 writes `elems == 1` when run first and `elems == 2` when run after the worker of
column 0. -/
theorem workers_share_the_counter :
    (∀ T B p p' col, Multiply.worker T B p col = some p' → ∀ c, c ≠ col →
      p'.local_values_vec[c]? = p.local_values_vec[c]? ∧
      p'.local_rows_vec[c]? = p.local_rows_vec[c]? ∧
      p'.local_counts[c]? = p.local_counts[c]?) ∧
    ComputeTranspose ⟨1, 1, [2], [0], [1]⟩ = some ⟨1, 1, [2], [0], [1]⟩ ∧
    Multiply.worker ⟨1, 1, [2], [0], [1]⟩ ⟨1, 2, [3, 4], [0, 0], [1, 2]⟩
      ⟨[[], []], [[], []], [0, 0], 0⟩ 0 = some ⟨[[6], []], [[0], []], [1, 0], 1⟩ ∧
    Multiply.worker ⟨1, 1, [2], [0], [1]⟩ ⟨1, 2, [3, 4], [0, 0], [1, 2]⟩
      ⟨[[], []], [[], []], [0, 0], 0⟩ 1 = some ⟨[[], [8]], [[], [0]], [0, 1], 1⟩ ∧
    Multiply.worker ⟨1, 1, [2], [0], [1]⟩ ⟨1, 2, [3, 4], [0, 0], [1, 2]⟩
      ⟨[[6], []], [[0], []], [1, 0], 1⟩ 1 = some ⟨[[6], [8]], [[0], [0]], [1, 1], 2⟩ := by
  refine ⟨?_, by decide!, by decide!, by decide!, by decide!⟩
  intro T B p p' col h c hc
  obtain ⟨lv, lr, lc, _, _, _, e1, e2, e3, _⟩ := Multiply.worker_eq h
  rw [e1, e2, e3]
  exact ⟨List.getElem?_set_ne (Ne.symm hc), List.getElem?_set_ne (Ne.symm hc),
    List.getElem?_set_ne (Ne.symm hc)⟩

/-! ## Transposition of a matrix without empty columns -/

theorem colOf_spec {M : SparseMatrix} (wf : WellFormed M) {i : Nat} (hi : i < M.values_.length) :
    InCol M (colOf M i) i := by
  obtain ⟨c, hc, hs, he⟩ := wf.exists_inCol hi
  have hex : ∃ x ∈ M.cumulative_elements_, (fun x => decide (i < x)) x = true := by
    refine ⟨M.cumulative_elements_[c], List.getElem_mem _, ?_⟩
    rw [colEnd_eq_getElem M hc] at he
    simpa using he
  have hlt : colOf M i < M.cumulative_elements_.length := List.findIdx_lt_length_of_exists hex
  have hp := List.findIdx_getElem (w := hlt)
  refine ⟨hlt, ?_, ?_⟩
  · by_cases h0 : colOf M i = 0
    · simp [colStart, h0]
    · have hj : colOf M i - 1 < colOf M i := by omega
      have hnot := List.not_of_lt_findIdx hj
      have hl1 : colOf M i - 1 < M.cumulative_elements_.length := by omega
      simp only [colStart, if_neg h0, List.getElem?_eq_getElem hl1, Option.getD_some]
      simpa using hnot
  · rw [colEnd_eq_getElem M hlt]
    simpa [colOf] using hp

theorem colOf_eq {M : SparseMatrix} (wf : WellFormed M) {c i : Nat} (h : InCol M c i) :
    colOf M i = c :=
  wf.inCol_unique (colOf_spec wf (wf.inCol_lt_length h)) h

theorem rowBucket_succ (M : SparseMatrix) (k n : Nat) :
    rowBucket M k (n + 1) = rowBucket M k n ++
      (if M.row_indices_[n]?.getD 0 = k then [(colOf M n, M.values_[n]?.getD 0)] else []) := by
  unfold rowBucket
  rw [List.range_succ, List.filter_append, List.map_append]
  by_cases h : M.row_indices_[n]?.getD 0 = k <;> simp [h]

theorem ComputeTranspose.group_fullInv {M : SparseMatrix} (wf : WellFormed M)
    (hfull : NonemptyCols M) (n : Nat) (st : TransposeState) (hn : n < M.values_.length)
    (hinv : ComputeTranspose.FullInv M n st) :
    ∃ st', ComputeTranspose.group M st n = some st' ∧ ComputeTranspose.FullInv M (n + 1) st' := by
  obtain ⟨hcount, hzero, hpos, hgv, hgi⟩ := hinv
  have hcum : 0 < M.cumulative_elements_.length := wf.cum_pos_of_values (by omega)
  have hcc : st.current_col < M.cumulative_elements_.length := by
    rcases Nat.eq_zero_or_pos n with h0 | h0
    · rw [hzero h0]; exact hcum
    · exact (hpos h0).1
  have hnr : n < M.row_indices_.length := by rw [wf.rows_length]; exact hn
  obtain ⟨c, hc⟩ : ∃ c, M.cumulative_elements_[st.current_col]? = some c :=
    ⟨_, List.getElem?_eq_getElem hcc⟩
  obtain ⟨r, hr⟩ : ∃ r, M.row_indices_[n]? = some r := ⟨_, List.getElem?_eq_getElem hnr⟩
  obtain ⟨v, hv⟩ : ∃ v, M.values_[n]? = some v := ⟨_, List.getElem?_eq_getElem hn⟩
  have hrow : r < M.rows_count_ := wf.row_lt _ (List.mem_iff_getElem?.mpr ⟨n, hr⟩)
  have hrm : r < max M.rows_count_ M.cols_count_ := lt_of_lt_of_le hrow (le_max_left _ _)
  have hrv : r < st.grouped_values.length := by rw [hgv]; simpa using hrm
  have hri : r < st.grouped_indices.length := by rw [hgi]; simpa using hrm
  have hce : colEnd M st.current_col = c := by simp [colEnd, hc]
  -- the column the single `if` arrives at is the column of the entry read
  have hnext : InCol M (if st.count = c then st.current_col + 1 else st.current_col) n := by
    rw [hcount]
    split
    · rename_i heq
      have hlt : st.current_col + 1 < M.cumulative_elements_.length := by
        by_contra hcon
        have hlast := wf.colEnd_last
        rw [show M.cumulative_elements_.length - 1 = st.current_col by omega, hce] at hlast
        omega
      have hne := hfull _ hlt
      rw [colStart_succ, hce] at hne
      refine ⟨hlt, ?_, by omega⟩
      rw [colStart_succ, hce]; omega
    · rename_i hneq
      rcases Nat.eq_zero_or_pos n with h0 | h0
      · have hne := hfull _ hcc
        rw [hzero h0] at hne ⊢
        refine ⟨hcum, ?_, ?_⟩
        · simp [colStart]
        · rw [h0]; omega
      · obtain ⟨_, hs, he⟩ := hpos h0
        rw [hce] at he
        exact ⟨hcc, by omega, by rw [hce]; omega⟩
  have hcol := colOf_eq wf hnext
  refine ⟨⟨st.grouped_values.set r (st.grouped_values[r] ++ [v]),
    st.grouped_indices.set r (st.grouped_indices[r] ++
      [if st.count = c then st.current_col + 1 else st.current_col]),
    if st.count = c then st.current_col + 1 else st.current_col, st.count + 1⟩, ?_, ?_⟩
  · simp only [ComputeTranspose.group, hc, hr, hv, pushAt_eq _ _ _ hrv, pushAt_eq _ _ _ hri,
      Option.bind_eq_bind, Option.some_bind, Option.pure_def]
  · refine ⟨by simp [hcount], by simp, fun _ => by simpa using hnext, ?_, ?_⟩
    · apply List.ext_getElem?
      intro k
      simp only [List.getElem?_set, hrv, hgv, List.getElem?_map, List.length_map,
        List.length_range, List.getElem_map, List.getElem_range]
      by_cases hk : k < max M.rows_count_ M.cols_count_
      · simp only [List.getElem?_range hk, Option.map_some', rowBucket_succ, hr, hv,
          Option.getD_some, List.map_append]
        by_cases hrk : r = k
        · subst hrk; simp [hrm]
        · simp [hrk]
      · have : (List.range (max M.rows_count_ M.cols_count_))[k]? = none := by
          simp; omega
        simp only [this, Option.map_none']
        split <;> simp_all
    · apply List.ext_getElem?
      intro k
      simp only [List.getElem?_set, hri, hgi, List.getElem?_map, List.length_map,
        List.length_range, List.getElem_map, List.getElem_range]
      by_cases hk : k < max M.rows_count_ M.cols_count_
      · simp only [List.getElem?_range hk, Option.map_some', rowBucket_succ, hr, hv,
          Option.getD_some, List.map_append, hcol]
        by_cases hrk : r = k
        · subst hrk; simp [hrm]
        · simp [hrk]
      · have : (List.range (max M.rows_count_ M.cols_count_))[k]? = none := by
          simp; omega
        simp only [this, Option.map_none']
        split <;> simp_all

/-- Transposition of a well-formed matrix without empty columns: column `k` of the result
holds the entries of row `k`, each under its own column. -/
theorem ComputeTranspose_of_nonempty {M : SparseMatrix} (wf : WellFormed M)
    (hfull : NonemptyCols M) :
    ComputeTranspose M = some (ofColumns M.cols_count_ M.rows_count_ (transposeColumns M)) := by
  obtain ⟨st, hst, hinv⟩ := forRange_inv (ComputeTranspose.FullInv M) M.values_.length
    ⟨List.replicate (max M.rows_count_ M.cols_count_) [],
      List.replicate (max M.rows_count_ M.cols_count_) [], 0, 0⟩
    (ComputeTranspose.group M)
    ⟨rfl, fun _ => rfl, fun h => absurd h (by omega),
      by apply List.ext_getElem? ; intro k; simp [rowBucket, List.getElem?_replicate],
      by apply List.ext_getElem? ; intro k; simp [rowBucket, List.getElem?_replicate]⟩
    (fun i st hi hinv => ComputeTranspose.group_fullInv wf hfull i st hi hinv)
  obtain ⟨_, _, _, hgv, hgi⟩ := hinv
  have hshape : st.grouped_values.map List.length = st.grouped_indices.map List.length := by
    rw [hgv, hgi]; simp
  have hfl := ComputeTranspose.flatten_loop st.grouped_values st.grouped_indices hshape
    st.grouped_values.length (Nat.le_refl _)
  have hlenI : st.grouped_indices.length = st.grouped_values.length := by
    have := congrArg List.length hshape
    simpa using this.symm
  rw [List.take_length, ← hlenI, List.take_length, hlenI] at hfl
  have h1 : ComputeTranspose M = some ⟨M.cols_count_, M.rows_count_, st.grouped_values.flatten,
      st.grouped_indices.flatten, prefixSums (st.grouped_values.map List.length)⟩ := by
    simp [ComputeTranspose, hst, hfl]
  rw [h1, hgv, hgi]
  simp only [ofColumns, transposeColumns, List.map_map]
  congr 3
  apply List.map_congr_left
  intro k _
  simp

theorem mem_rowBucket {M : SparseMatrix} {k n : Nat} {e : Nat × ℚ} :
    e ∈ rowBucket M k n ↔
      ∃ i, i < n ∧ M.row_indices_[i]?.getD 0 = k ∧ e = (colOf M i, M.values_[i]?.getD 0) := by
  simp only [rowBucket, List.mem_map, List.mem_filter, List.mem_range, decide_eq_true_eq]
  constructor
  · rintro ⟨i, ⟨hi, hk⟩, rfl⟩
    exact ⟨i, hi, hk, rfl⟩
  · rintro ⟨i, hi, hk, rfl⟩
    exact ⟨i, ⟨hi, hk⟩, rfl⟩

theorem colOf_mono {M : SparseMatrix} (wf : WellFormed M) {i j : Nat} (hij : i < j)
    (hj : j < M.values_.length) : colOf M i ≤ colOf M j := by
  by_contra hcon
  have hi := colOf_spec wf (show i < M.values_.length by omega)
  have hjc := colOf_spec wf hj
  have := wf.colEnd_le_colStart (show colOf M j < colOf M i by omega) hi.1
  have h1 := hi.2.1
  have h2 := hjc.2.2
  omega

theorem rowBucket_fst_pairwise {M : SparseMatrix} (wf : WellFormed M) (k n : Nat)
    (hn : n ≤ M.values_.length) : ((rowBucket M k n).map Prod.fst).Pairwise (· < ·) := by
  unfold rowBucket
  rw [List.map_map, List.pairwise_map]
  have hr : (List.range n).Pairwise (· < ·) := List.pairwise_lt_range n
  have hf := hr.filter (fun i => decide (M.row_indices_[i]?.getD 0 = k))
  refine List.Pairwise.imp_of_mem ?_ hf
  intro i j hi hj hij
  simp only [List.mem_filter, List.mem_range, decide_eq_true_eq] at hi hj
  simp only [Function.comp]
  have hjl : j < M.values_.length := by omega
  have hle := colOf_mono wf hij hjl
  rcases Nat.lt_or_eq_of_le hle with h | h
  · exact h
  · exfalso
    have hic := colOf_spec wf (show i < M.values_.length by omega)
    have hjc := colOf_spec wf hjl
    rw [h] at hic
    obtain ⟨ri, rj, h1, h2, hlt⟩ := wf.rows_strict hic hjc hij
    have e1 := hi.2
    have e2 := hj.2
    rw [h1] at e1
    rw [h2] at e2
    simp at e1 e2
    omega

theorem rowBucket_fst_lt {M : SparseMatrix} (wf : WellFormed M) {k n : Nat}
    (hn : n ≤ M.values_.length) {e : Nat × ℚ} (he : e ∈ rowBucket M k n) :
    e.1 < M.cols_count_ := by
  obtain ⟨i, hi, _, rfl⟩ := mem_rowBucket.mp he
  have := (colOf_spec wf (show i < M.values_.length by omega)).1
  rw [wf.cum_length] at this
  exact this

theorem rowBucket_of_rows_le {M : SparseMatrix} (wf : WellFormed M) {k n : Nat}
    (hn : n ≤ M.values_.length) (hk : M.rows_count_ ≤ k) : rowBucket M k n = [] := by
  apply List.eq_nil_iff_forall_not_mem.mpr
  intro e he
  obtain ⟨i, hi, hrow, _⟩ := mem_rowBucket.mp he
  have hil : i < M.row_indices_.length := by rw [wf.rows_length]; omega
  have := wf.row_lt _ (List.getElem_mem hil)
  rw [List.getElem?_eq_getElem hil] at hrow
  simp at hrow
  omega

theorem transposeColumns_length (M : SparseMatrix) :
    (transposeColumns M).length = max M.rows_count_ M.cols_count_ := by
  simp [transposeColumns]

theorem transposeColumns_getElem (M : SparseMatrix) (k : Nat)
    (hk : k < (transposeColumns M).length) :
    (transposeColumns M)[k] = rowBucket M k M.values_.length := by
  simp [transposeColumns]

theorem mem_transposeColumns {M : SparseMatrix} {col : List (Nat × ℚ)}
    (h : col ∈ transposeColumns M) : ∃ k, col = rowBucket M k M.values_.length := by
  simp only [transposeColumns, List.mem_map, List.mem_range] at h
  obtain ⟨k, _, rfl⟩ := h
  exact ⟨k, rfl⟩

theorem forRange_mono_some {σ : Type} {f g : σ → Nat → Option σ}
    (hfg : ∀ s i s', f s i = some s' → g s i = some s') (n : Nat) (init : σ) :
    ∀ st, forRange n init f = some st → forRange n init g = some st := by
  induction n with
  | zero => intro st h; simpa [forRange_zero] using h
  | succ n ih =>
    intro st h
    rw [forRange_succ] at h ⊢
    obtain ⟨s, hs, hstep⟩ := Option.bind_eq_some.mp h
    rw [ih s hs]
    exact hfg _ _ _ hstep

theorem FromSparseMatrix.skip_append (count : Nat) (extra : List Nat) :
    ∀ (l : List Nat) (col c : Nat), FromSparseMatrix.skip count l col = some c →
      FromSparseMatrix.skip count (l ++ extra) col = some c := by
  intro l
  induction l with
  | nil => intro col c h; simp [FromSparseMatrix.skip] at h
  | cons x rest ih =>
    intro col c h
    simp only [FromSparseMatrix.skip, List.cons_append] at h ⊢
    split
    · rename_i heq
      rw [if_pos heq] at h
      exact ih _ _ h
    · rename_i hne
      rw [if_neg hne] at h
      exact h

/-- Densification reads the cumulative counts only up to the column of the last stored
entry: counts appended after them change nothing. -/
theorem FromSparseMatrix_cumulative_append (M : SparseMatrix) (extra : List Nat) (d : List ℚ)
    (h : FromSparseMatrix M = some d) :
    FromSparseMatrix { M with cumulative_elements_ := M.cumulative_elements_ ++ extra } =
      some d := by
  simp only [FromSparseMatrix, Option.bind_eq_bind, Option.bind_eq_some, Option.pure_def,
    Option.some.injEq] at h ⊢
  obtain ⟨st, hst, hd⟩ := h
  refine ⟨st, ?_, hd⟩
  refine forRange_mono_some ?_ _ _ st hst
  intro s i s' hs
  simp only [FromSparseMatrix.step, Option.bind_eq_bind, Option.bind_eq_some, Option.pure_def,
    Option.some.injEq] at hs ⊢
  obtain ⟨col, hcol, row, hrow, v, hv, dm, hdm, hs'⟩ := hs
  refine ⟨col, ?_, row, hrow, v, hv, dm, hdm, hs'⟩
  have hle : s.col ≤ M.cumulative_elements_.length := by
    by_contra hcon
    rw [List.drop_eq_nil_of_le (by omega)] at hcol
    simp [FromSparseMatrix.skip] at hcol
  rw [List.drop_append_of_le_length hle]
  exact FromSparseMatrix.skip_append _ _ _ _ _ hcol

theorem prefixSums_append_exists (l1 l2 : List Nat) :
    ∃ extra, prefixSums (l1 ++ l2) = prefixSums l1 ++ extra := by
  induction l2 using List.reverseRecOn with
  | nil => exact ⟨[], by simp⟩
  | append_singleton l x ih =>
    obtain ⟨extra, he⟩ := ih
    refine ⟨extra ++ [(l1 ++ l).sum + x], ?_⟩
    rw [← List.append_assoc, prefixSums_append_singleton, he, List.append_assoc]

/-- Trailing empty columns of `ofColumns` only lengthen the cumulative counts. -/
theorem ofColumns_append_empty (rows cols : Nat) (L L2 : List (List (Nat × ℚ)))
    (h2 : ∀ x ∈ L2, x = []) :
    ∃ extra, ofColumns rows cols (L ++ L2) =
      { ofColumns rows cols L with
        cumulative_elements_ := (ofColumns rows cols L).cumulative_elements_ ++ extra } := by
  obtain ⟨extra, he⟩ := prefixSums_append_exists (L.map List.length) (L2.map List.length)
  refine ⟨extra, ?_⟩
  have hv : (L2.map (List.map Prod.snd)).flatten = [] := by
    rw [List.flatten_eq_nil_iff]
    intro l hl
    obtain ⟨x, hx, rfl⟩ := List.mem_map.mp hl
    rw [h2 x hx]; rfl
  have hr : (L2.map (List.map Prod.fst)).flatten = [] := by
    rw [List.flatten_eq_nil_iff]
    intro l hl
    obtain ⟨x, hx, rfl⟩ := List.mem_map.mp hl
    rw [h2 x hx]; rfl
  simp only [ofColumns, List.map_append, List.flatten_append, hv, hr, List.append_nil, he]

theorem transposeColumns_take (M : SparseMatrix) :
    (transposeColumns M).take M.rows_count_ =
      (List.range M.rows_count_).map fun k => rowBucket M k M.values_.length := by
  simp only [transposeColumns, ← List.map_take, List.take_range]
  rw [Nat.min_eq_left (le_max_left _ _)]

theorem transposeColumns_drop {M : SparseMatrix} (wf : WellFormed M) :
    ∀ x ∈ (transposeColumns M).drop M.rows_count_, x = [] := by
  intro x hx
  obtain ⟨i, hi, rfl⟩ := List.mem_iff_getElem.mp hx
  rw [List.getElem_drop, transposeColumns_getElem]
  exact rowBucket_of_rows_le wf (Nat.le_refl _) (Nat.le_add_right _ _)

/-- The transpose with its trailing empty buckets dropped is a well-formed matrix. -/
theorem transposeColumns_take_wellFormed {M : SparseMatrix} (wf : WellFormed M) :
    WellFormed (ofColumns M.cols_count_ M.rows_count_
      ((transposeColumns M).take M.rows_count_)) := by
  apply ofColumns_wellFormed
  · rw [transposeColumns_take]; simp
  · intro col hcol e he
    obtain ⟨k, rfl⟩ := mem_transposeColumns (List.mem_of_mem_take hcol)
    exact rowBucket_fst_lt wf (Nat.le_refl _) he
  · intro col hcol
    obtain ⟨k, rfl⟩ := mem_transposeColumns (List.mem_of_mem_take hcol)
    exact rowBucket_fst_pairwise wf k _ (Nat.le_refl _)

theorem getElem?_getD_of_some {α : Type} {l : List α} {i : Nat} {x d : α}
    (h : l[i]? = some x) : l[i]?.getD d = x := by
  rw [h]; rfl

/-- Densifying the matrix whose column `k` holds the entries of row `k` of a well-formed
matrix gives the transposed dense matrix. -/
theorem ComputeTranspose_dense {M : SparseMatrix} (wf : WellFormed M) :
    ∃ dM dT, FromSparseMatrix M = some dM ∧
      FromSparseMatrix (ofColumns M.cols_count_ M.rows_count_ (transposeColumns M)) = some dT ∧
      ∀ r c, r < M.rows_count_ → c < M.cols_count_ →
        ∃ x, dT[c * M.rows_count_ + r]? = some x ∧ dM[r * M.cols_count_ + c]? = some x := by
  obtain ⟨dM, hdM, _, hMin, hMout⟩ := FromSparseMatrix_spec wf
  have wfT := transposeColumns_take_wellFormed wf
  obtain ⟨dT, hdT, _, hTin, hTout⟩ := FromSparseMatrix_spec wfT
  obtain ⟨extra, hext⟩ := ofColumns_append_empty M.cols_count_ M.rows_count_
    ((transposeColumns M).take M.rows_count_) ((transposeColumns M).drop M.rows_count_)
    (transposeColumns_drop wf)
  rw [List.take_append_drop] at hext
  refine ⟨dM, dT, hdM, ?_, ?_⟩
  · rw [hext]
    exact FromSparseMatrix_cumulative_append _ extra dT hdT
  intro r c hr hc
  have hrl : r < ((transposeColumns M).take M.rows_count_).length := by
    rw [transposeColumns_take]; simpa using hr
  have hbucket : ((transposeColumns M).take M.rows_count_)[r] =
      rowBucket M r M.values_.length := by
    simp [transposeColumns_take]
  by_cases hex : ∃ i, InCol M c i ∧ M.row_indices_[i]? = some r
  · obtain ⟨i, hic, hir⟩ := hex
    obtain ⟨r', v, hr', hv, hd⟩ := hMin c i hic
    rw [hir] at hr'
    obtain rfl := Option.some.inj hr'
    have hmem : (c, v) ∈ ((transposeColumns M).take M.rows_count_)[r] := by
      rw [hbucket]
      refine mem_rowBucket.mpr ⟨i, wf.inCol_lt_length hic, getElem?_getD_of_some hir, ?_⟩
      rw [colOf_eq wf hic, getElem?_getD_of_some hv]
    obtain ⟨j, hj, hjr, hjv⟩ := ofColumns_inCol_of_mem M.cols_count_ M.rows_count_ _ hrl hmem
    obtain ⟨r'', v'', h1, h2, h3⟩ := hTin r j hj
    rw [hjr] at h1
    rw [hjv] at h2
    obtain rfl := Option.some.inj h1
    obtain rfl := Option.some.inj h2
    exact ⟨v, h3, hd⟩
  · refine ⟨0, ?_, ?_⟩
    · refine hTout c r hc hr ?_
      intro j hj hjc
      obtain ⟨_, e, he, h1, _⟩ := ofColumns_entry_of_inCol _ _ _ hj
      rw [hbucket] at he
      obtain ⟨i, hi, hrow, hei⟩ := mem_rowBucket.mp he
      rw [hjc] at h1
      have hec : e.1 = c := (Option.some.inj h1).symm
      have hil : i < M.row_indices_.length := by rw [wf.rows_length]; exact hi
      apply hex
      refine ⟨i, ?_, ?_⟩
      · have := colOf_spec wf hi
        rw [hei] at hec
        simp only at hec
        rw [hec] at this
        exact this
      · rw [List.getElem?_eq_getElem hil] at hrow ⊢
        simpa using hrow
    · refine hMout r c hr hc ?_
      intro i hic hir
      exact hex ⟨i, hic, hir⟩

theorem keptColumns_nonemptyCols (rows cols : Nat) (A : List ℚ)
    (hfull : ∀ c, c < cols → ∃ r, r < rows ∧ |A[r * cols + c]?.getD 0| > kThreshold) :
    NonemptyCols (ofColumns rows cols (keptColumns rows cols A cols)) := by
  intro c hc
  rw [ofColumns_cumulative_length] at hc
  rw [ofColumns_colEnd_eq _ _ _ _ hc, keptColumns_getElem]
  rw [keptColumns_length] at hc
  obtain ⟨r, hr, habs⟩ := hfull c hc
  have hmem : (r, A[r * cols + c]?.getD 0) ∈ keptEntries cols A c rows :=
    mem_keptEntries.mpr ⟨hr, habs, rfl⟩
  have := List.length_pos_of_mem hmem
  omega

/-- C24: for a dense `rows x cols` buffer in which every column has an entry of magnitude
above the threshold, `MatrixToSparse` followed by `ComputeTranspose` returns a matrix with
swapped dimensions that stores the same number of entries, whose row indices increase
strictly within each column, and whose densification at `[c*rows + r]` equals the
densification of the untransposed matrix at `[r*cols + c]`, for all `r < rows`,
`c < cols`. -/
theorem ComputeTranspose_full_columns (rows cols : Nat) (A : List ℚ)
    (hlen : A.length = rows * cols)
    (hfull : ∀ c, c < cols → ∃ r, r < rows ∧ |A[r * cols + c]?.getD 0| > kThreshold) :
    ∃ M T dM dT, MatrixToSparse rows cols A = some M ∧ ComputeTranspose M = some T ∧
      T.rows_count_ = cols ∧ T.cols_count_ = rows ∧
      T.values_.length = M.values_.length ∧
      (∀ c i j, InCol T c i → InCol T c j → i < j →
        ∃ ri rj, T.row_indices_[i]? = some ri ∧ T.row_indices_[j]? = some rj ∧ ri < rj) ∧
      FromSparseMatrix M = some dM ∧ FromSparseMatrix T = some dT ∧
      ∀ r c, r < rows → c < cols →
        ∃ x, dT[c * rows + r]? = some x ∧ dM[r * cols + c]? = some x := by
  have hM := MatrixToSparse_eq rows cols A hlen
  have wf := keptColumns_wellFormed rows cols A
  have hne := keptColumns_nonemptyCols rows cols A hfull
  have hT := ComputeTranspose_of_nonempty wf hne
  obtain ⟨dM, dT, hdM, hdT, hdense⟩ := ComputeTranspose_dense wf
  obtain ⟨GV, GI, hGV, _, _, _, hsum⟩ := ComputeTranspose_eq wf
  have wfT : WellFormed (ofColumns cols (max rows cols)
      (transposeColumns (ofColumns rows cols (keptColumns rows cols A cols)))) := by
    apply ofColumns_wellFormed
    · exact transposeColumns_length _
    · intro col hcol e he
      obtain ⟨k, rfl⟩ := mem_transposeColumns hcol
      exact rowBucket_fst_lt wf (Nat.le_refl _) he
    · intro col hcol
      obtain ⟨k, rfl⟩ := mem_transposeColumns hcol
      exact rowBucket_fst_pairwise wf k _ (Nat.le_refl _)
  refine ⟨_, _, dM, dT, hM, hT, rfl, rfl, ?_, ?_, hdM, hdT, hdense⟩
  · rw [hT] at hGV
    have := congrArg SparseMatrix.values_ (Option.some.inj hGV)
    rw [this, List.length_flatten, hsum]
  · intro c i j hi hj hij
    exact wfT.rows_strict hi hj hij

theorem ComputeTranspose_full_columns_witness :
    ∃ M T dM dT, MatrixToSparse 2 3 [1, 0, 2, 0, 3, 0] = some M ∧ ComputeTranspose M = some T ∧
      T.rows_count_ = 3 ∧ T.cols_count_ = 2 ∧
      T.values_.length = M.values_.length ∧
      (∀ c i j, InCol T c i → InCol T c j → i < j →
        ∃ ri rj, T.row_indices_[i]? = some ri ∧ T.row_indices_[j]? = some rj ∧ ri < rj) ∧
      FromSparseMatrix M = some dM ∧ FromSparseMatrix T = some dT ∧
      ∀ r c, r < 2 → c < 3 →
        ∃ x, dT[c * 2 + r]? = some x ∧ dM[r * 3 + c]? = some x :=
  ComputeTranspose_full_columns 2 3 [1, 0, 2, 0, 3, 0] (by decide) (by
    intro c hc
    interval_cases c
    · exact ⟨0, by decide, by decide!⟩
    · exact ⟨1, by decide, by decide!⟩
    · exact ⟨0, by decide, by decide!⟩)

/-! ## The product of two matrices given by their columns -/

theorem ofColumns_row_at (rows cols : Nat) (L : List (List (Nat × ℚ))) {c i : Nat}
    (hc : c < L.length) (hi : i < L[c].length) :
    (ofColumns rows cols L).row_indices_[colStart (ofColumns rows cols L) c + i]? =
      some L[c][i].1 := by
  have h := colRows_getElem? (ofColumns rows cols L) c i
  rw [ofColumns_colEnd_eq _ _ _ _ hc, if_pos (by omega), ofColumns_colRows rows cols L c hc] at h
  rw [← h, List.getElem?_map, List.getElem?_eq_getElem hi]
  rfl

theorem ofColumns_value_at (rows cols : Nat) (L : List (List (Nat × ℚ))) {c i : Nat}
    (hc : c < L.length) (hi : i < L[c].length) :
    (ofColumns rows cols L).values_[colStart (ofColumns rows cols L) c + i]? =
      some L[c][i].2 := by
  have h := colValues_getElem? (ofColumns rows cols L) c i
  rw [ofColumns_colEnd_eq _ _ _ _ hc, if_pos (by omega), ofColumns_colValues rows cols L c hc] at h
  rw [← h, List.getElem?_map, List.getElem?_eq_getElem hi]
  rfl

theorem Multiply.startOf_eq_colStart (M : SparseMatrix) {c : Nat}
    (hc : c < M.cumulative_elements_.length) :
    Multiply.startOf c M.cumulative_elements_ = some (colStart M c) := by
  unfold Multiply.startOf colStart
  by_cases h0 : c = 0
  · simp [h0]
  · have h1 : c - 1 < M.cumulative_elements_.length := by omega
    simp [h0, List.getElem?_eq_getElem h1]

/-- The accumulated sum of `operator*` on two matrices given by their columns. -/
theorem Multiply.cell_ofColumns (rT cT rB cB : Nat) (LT LB : List (List (Nat × ℚ)))
    {r c : Nat} (hr : r < LT.length) (hc : c < LB.length) :
    Multiply.cell (ofColumns rT cT LT) (ofColumns rB cB LB) r c =
      some (pairSum LT[r] LB[c]) := by
  have hr' : r < (ofColumns rT cT LT).cumulative_elements_.length := by
    rw [ofColumns_cumulative_length]; exact hr
  have hc' : c < (ofColumns rB cB LB).cumulative_elements_.length := by
    rw [ofColumns_cumulative_length]; exact hc
  have h1 : CountElements r (ofColumns rT cT LT).cumulative_elements_ =
      some (LT[r].length : Int) := by
    have := CountElements_prefixSums (LT.map List.length) r (by simpa using hr)
    simpa [ofColumns] using this
  have h2 : CountElements c (ofColumns rB cB LB).cumulative_elements_ =
      some (LB[c].length : Int) := by
    have := CountElements_prefixSums (LB.map List.length) c (by simpa using hc)
    simpa [ofColumns] using this
  simp only [Multiply.cell, h1, h2, Multiply.startOf_eq_colStart _ hr',
    Multiply.startOf_eq_colStart _ hc', Option.bind_eq_bind, Option.some_bind, Int.toNat_ofNat]
  have inner : ∀ (i : Nat) (hi : i < LT[r].length) (s : ℚ) (m : Nat), m ≤ LB[c].length →
      forRange m s (fun sum j =>
        (ofColumns rT cT LT).row_indices_[colStart (ofColumns rT cT LT) r + i]?.bind fun a =>
        (ofColumns rB cB LB).row_indices_[colStart (ofColumns rB cB LB) c + j]?.bind fun b =>
        if a = b then
          (ofColumns rT cT LT).values_[colStart (ofColumns rT cT LT) r + i]?.bind fun x =>
          (ofColumns rB cB LB).values_[colStart (ofColumns rB cB LB) c + j]?.bind fun y =>
          pure (sum + x * y)
        else pure sum) =
      some (s + (((LB[c]).take m).map fun y =>
        if LT[r][i].1 = y.1 then LT[r][i].2 * y.2 else 0).sum) := by
    intro i hi s m
    induction m with
    | zero => intro _; simp [forRange_zero]
    | succ m ih =>
      intro hm
      have hm' : m < LB[c].length := by omega
      rw [forRange_succ, ih (by omega)]
      simp only [Option.some_bind, ofColumns_row_at rT cT LT hr hi,
        ofColumns_row_at rB cB LB hc hm', ofColumns_value_at rT cT LT hr hi,
        ofColumns_value_at rB cB LB hc hm', Option.pure_def]
      rw [List.take_succ, List.getElem?_eq_getElem hm']
      simp only [Option.toList, List.map_append, List.map_cons, List.map_nil, List.sum_append,
        List.sum_cons, List.sum_nil, add_zero]
      split
      · rw [add_assoc]
      · simp
  have outer : ∀ m, m ≤ LT[r].length →
      forRange m (0 : ℚ) (fun sum i => forRange LB[c].length sum fun sum j =>
        (ofColumns rT cT LT).row_indices_[colStart (ofColumns rT cT LT) r + i]?.bind fun a =>
        (ofColumns rB cB LB).row_indices_[colStart (ofColumns rB cB LB) c + j]?.bind fun b =>
        if a = b then
          (ofColumns rT cT LT).values_[colStart (ofColumns rT cT LT) r + i]?.bind fun x =>
          (ofColumns rB cB LB).values_[colStart (ofColumns rB cB LB) c + j]?.bind fun y =>
          pure (sum + x * y)
        else pure sum) =
      some (pairSum (LT[r].take m) LB[c]) := by
    intro m
    induction m with
    | zero => intro _; simp [forRange_zero, pairSum]
    | succ m ih =>
      intro hm
      have hm' : m < LT[r].length := by omega
      rw [forRange_succ, ih (by omega)]
      simp only [Option.some_bind]
      rw [inner m hm' _ _ (Nat.le_refl _), List.take_length, List.take_succ,
        List.getElem?_eq_getElem hm']
      simp only [pairSum, List.map_append, List.sum_append, Option.toList, List.map_cons,
        List.map_nil, List.sum_cons, List.sum_nil, add_zero]
  have := outer LT[r].length (Nat.le_refl _)
  rw [List.take_length] at this
  exact this

theorem mem_keptRow {cols : Nat} {values : List ℚ} {row n : Nat} {e : Nat × ℚ} :
    e ∈ keptRow cols values row n ↔
      e.1 < n ∧ |values[row * cols + e.1]?.getD 0| > kThreshold ∧
        e.2 = values[row * cols + e.1]?.getD 0 := by
  simp only [keptRow, List.mem_map, List.mem_filter, List.mem_range, decide_eq_true_eq]
  constructor
  · rintro ⟨k, ⟨hk, habs⟩, rfl⟩
    exact ⟨hk, habs, rfl⟩
  · rintro ⟨hk, habs, he⟩
    exact ⟨e.1, ⟨hk, habs⟩, by rw [← he]⟩

theorem keptRow_fst_pairwise (cols : Nat) (values : List ℚ) (row n : Nat) :
    ((keptRow cols values row n).map Prod.fst).Pairwise (· < ·) := by
  unfold keptRow
  rw [List.map_map]
  have : (Prod.fst ∘ fun k => (k, values[row * cols + k]?.getD 0)) = id := rfl
  rw [this, List.map_id]
  exact (List.pairwise_lt_range n).filter _

/-- Two lists of `(key, value)` pairs with strictly increasing keys and the same members
are equal. -/
theorem eq_of_fst_pairwise_of_mem_iff {X Y : List (Nat × ℚ)}
    (hX : (X.map Prod.fst).Pairwise (· < ·)) (hY : (Y.map Prod.fst).Pairwise (· < ·))
    (h : ∀ e, e ∈ X ↔ e ∈ Y) : X = Y := by
  have hX' : X.Pairwise (fun a b => a.1 < b.1) := List.pairwise_map.mp hX
  have hY' : Y.Pairwise (fun a b => a.1 < b.1) := List.pairwise_map.mp hY
  have ndX : X.Nodup := hX'.imp (fun hab heq => by rw [heq] at hab; exact lt_irrefl _ hab)
  have ndY : Y.Nodup := hY'.imp (fun hab heq => by rw [heq] at hab; exact lt_irrefl _ hab)
  have hperm : X.Perm Y := (List.perm_ext_iff_of_nodup ndX ndY).mpr h
  have : IsAntisymm (Nat × ℚ) (fun a b => a.1 < b.1) :=
    ⟨fun a b h1 h2 => absurd h1 (not_lt_of_gt h2)⟩
  exact List.eq_of_perm_of_sorted hperm hX' hY'

/-- The bucket of row `r` of the sparse form of a dense buffer holds the kept entries of
row `r` of the buffer. -/
theorem rowBucket_keptColumns (rows cols : Nat) (A : List ℚ) {r : Nat} (hr : r < rows) :
    rowBucket (ofColumns rows cols (keptColumns rows cols A cols)) r
      (ofColumns rows cols (keptColumns rows cols A cols)).values_.length =
      keptRow cols A r cols := by
  have wf := keptColumns_wellFormed rows cols A
  apply eq_of_fst_pairwise_of_mem_iff (rowBucket_fst_pairwise wf r _ (Nat.le_refl _))
    (keptRow_fst_pairwise cols A r cols)
  intro e
  rw [mem_rowBucket, mem_keptRow]
  constructor
  · rintro ⟨i, hi, hrow, he⟩
    have hic := colOf_spec wf hi
    obtain ⟨hc, e', he', h1, h2⟩ := ofColumns_entry_of_inCol _ _ _ hic
    rw [keptColumns_getElem] at he'
    obtain ⟨_, habs, hval⟩ := mem_keptEntries.mp he'
    rw [keptColumns_length] at hc
    rw [getElem?_getD_of_some h1] at hrow
    rw [getElem?_getD_of_some h2] at he
    rw [hrow] at habs hval
    rw [he]
    exact ⟨hc, habs, hval⟩
  · rintro ⟨hk, habs, hval⟩
    have hkl : e.1 < (keptColumns rows cols A cols).length := by
      rw [keptColumns_length]; exact hk
    have hmem : (r, e.2) ∈ (keptColumns rows cols A cols)[e.1] := by
      rw [keptColumns_getElem]
      exact mem_keptEntries.mpr ⟨hr, habs, hval⟩
    obtain ⟨i, hic, h1, h2⟩ := ofColumns_inCol_of_mem rows cols _ hkl hmem
    refine ⟨i, wf.inCol_lt_length hic, getElem?_getD_of_some h1, ?_⟩
    rw [colOf_eq wf hic, getElem?_getD_of_some h2]

theorem sum_filter_range (m : Nat) (p : Nat → Prop) [DecidablePred p] (f : Nat → ℚ) :
    (((List.range m).filter fun k => decide (p k)).map f).sum =
      ∑ k ∈ Finset.range m, if p k then f k else 0 := by
  induction m with
  | zero => simp
  | succ m ih =>
    rw [List.range_succ, List.filter_append, List.map_append, List.sum_append, ih,
      Finset.sum_range_succ]
    by_cases h : p m <;> simp [h]

/-- The accumulated sum over the kept entries of a row of `A` and of a column of `B` is
the thresholded dot product. -/
theorem pairSum_keptRow_keptEntries (A : List ℚ) (cA : Nat) (B : List ℚ) (cB : Nat)
    (r c : Nat) :
    pairSum (keptRow cA A r cA) (keptEntries cB B c cA) = thresholdedDot A cA B cB r c := by
  unfold pairSum keptRow keptEntries thresholdedDot
  rw [List.map_map]
  simp only [Function.comp, List.map_map]
  rw [sum_filter_range cA (fun k => |A[r * cA + k]?.getD 0| > kThreshold)]
  apply Finset.sum_congr rfl
  intro k hk
  simp only [Function.comp]
  rw [sum_filter_range cA (fun k' => |B[k' * cB + c]?.getD 0| > kThreshold)]
  have : ∀ k', (if |B[k' * cB + c]?.getD 0| > kThreshold then
      (if k = k' then A[r * cA + k]?.getD 0 * B[k' * cB + c]?.getD 0 else 0) else 0) =
      if k = k' then (if |B[k' * cB + c]?.getD 0| > kThreshold then
        A[r * cA + k]?.getD 0 * B[k' * cB + c]?.getD 0 else 0) else 0 := by
    intro k'; split_ifs <;> rfl
  simp only [Function.comp_apply, this, Finset.sum_ite_eq, hk, if_true]
  unfold thresholded
  split_ifs <;> simp

/-- The accumulated sum of `operator*` on the sparse forms of two dense buffers, when no
column of the first is empty: the thresholded dot product for an output row below
`rowsA`, and 0 for the rows beyond. -/
theorem Multiply.cell_keptColumns (rowsA colsA colsB : Nat) (A B : List ℚ)
    (hfull : ∀ c, c < colsA → ∃ r, r < rowsA ∧ |A[r * colsA + c]?.getD 0| > kThreshold)
    {T : SparseMatrix}
    (hT : ComputeTranspose (ofColumns rowsA colsA (keptColumns rowsA colsA A colsA)) = some T)
    {r c : Nat} (hr : r < T.cumulative_elements_.length) (hc : c < colsB) :
    Multiply.cell T (ofColumns colsA colsB (keptColumns colsA colsB B colsB)) r c =
      some (if r < rowsA then thresholdedDot A colsA B colsB r c else 0) := by
  have wf := keptColumns_wellFormed rowsA colsA A
  have hne := keptColumns_nonemptyCols rowsA colsA A hfull
  rw [ComputeTranspose_of_nonempty wf hne] at hT
  obtain rfl := Option.some.inj hT
  rw [ofColumns_cumulative_length] at hr
  have hcl : c < (keptColumns colsA colsB B colsB).length := by
    rw [keptColumns_length]; exact hc
  rw [Multiply.cell_ofColumns _ _ _ _ _ _ hr hcl, transposeColumns_getElem,
    keptColumns_getElem]
  congr 1
  split
  · rename_i hlt
    have := rowBucket_keptColumns rowsA colsA A hlt
    simp only [ofColumns] at this ⊢
    rw [this, pairSum_keptRow_keptEntries]
  · rename_i hge
    have := rowBucket_of_rows_le wf (Nat.le_refl _) (show
      (ofColumns rowsA colsA (keptColumns rowsA colsA A colsA)).rows_count_ ≤ r from
        Nat.le_of_not_lt hge)
    simp only [ofColumns] at this ⊢
    rw [this]
    simp [pairSum]

/-- C25: for input counts accepted by `ValidationImpl` and dense buffers `A`, `B` of the
stated sizes such that every column of `A` has an entry of magnitude above the threshold,
the conversions, `operator*` and the densification all return, and the dense result `D`
holds at `[r*colsB + c]` the thresholded dot product `S` of row `r` of `A` and column `c` of
`B` when `S > kThreshold`, and 0 otherwise. -/
theorem product_of_full_columns (t : CCSMatrixSTL) (rowsA colsA rowsB colsB : Nat)
    (A B : List ℚ) (elems : Nat)
    (hcount : t.task_data.inputs_count = [rowsA, colsA, rowsB, colsB])
    (hval : ValidationImpl t = some true)
    (hA : A.length = rowsA * colsA) (hB : B.length = rowsB * colsB)
    (hfull : ∀ c, c < colsA → ∃ r, r < rowsA ∧ |A[r * colsA + c]?.getD 0| > kThreshold) :
    ∃ MA MB M e D, MatrixToSparse rowsA colsA A = some MA ∧
      MatrixToSparse rowsB colsB B = some MB ∧ Multiply MA MB elems = some (M, e) ∧
      FromSparseMatrix M = some D ∧
      ∀ r c, r < rowsA → c < colsB →
        D[r * colsB + c]? = some
          (if thresholdedDot A colsA B colsB r c > kThreshold
            then thresholdedDot A colsA B colsB r c else 0) := by
  have hdim : rowsA = colsB := by
    by_cases h1 : rowsA = colsB
    · exact h1
    · simp [ValidationImpl, hcount, h1] at hval
  have hinner : colsA = rowsB := by
    by_cases h2 : colsA = rowsB
    · exact h2
    · simp [ValidationImpl, hcount, hdim, h2] at hval
  subst hinner
  subst hdim
  have wfA := keptColumns_wellFormed rowsA colsA A
  have wfB := keptColumns_wellFormed colsA rowsA B
  obtain ⟨M, e, h⟩ := Multiply_total wfA wfB elems
  obtain ⟨T, hT, hM, _⟩ := Multiply_eq h
  have hcell := fun (r c : Nat) (hr : r < T.cumulative_elements_.length) (hc : c < rowsA) =>
    Multiply.cell_keptColumns rowsA colsA rowsA A B hfull hT hr hc
  have hTlen : rowsA ≤ T.cumulative_elements_.length := by
    have hne := keptColumns_nonemptyCols rowsA colsA A hfull
    have := ComputeTranspose_of_nonempty wfA hne
    rw [hT] at this
    rw [Option.some.inj this, ofColumns_cumulative_length, transposeColumns_length]
    exact le_max_left _ _
  have hMeq : M = ofColumns rowsA rowsA
      (productColumns T (ofColumns colsA rowsA (keptColumns colsA rowsA B rowsA)) rowsA) := hM
  have wfM : WellFormed M := by
    rw [hMeq]
    apply ofColumns_wellFormed
    · exact productColumns_length _ _ _
    · intro col hcol x hx
      obtain ⟨c, hc, rfl⟩ := mem_productColumns hcol
      obtain ⟨hxr, hxc, hgt⟩ := mem_productColumn.mp hx
      by_contra hge
      rw [hcell x.1 c hxr hc, if_neg hge] at hxc
      rw [← Option.some.inj hxc] at hgt
      unfold kThreshold at hgt
      norm_num at hgt
    · intro col hcol
      obtain ⟨c, _, rfl⟩ := mem_productColumns hcol
      exact productColumn_fst_pairwise _ _ _ _
  obtain ⟨D, hD, _, hin, hout⟩ := FromSparseMatrix_spec wfM
  refine ⟨_, _, M, e, D, MatrixToSparse_eq rowsA colsA A hA, MatrixToSparse_eq colsA rowsA B hB,
    h, hD, ?_⟩
  intro r c hr hc
  have hrT : r < T.cumulative_elements_.length := lt_of_lt_of_le hr hTlen
  have hrc := hcell r c hrT hc
  rw [if_pos hr] at hrc
  have hcols : M.cols_count_ = rowsA := by rw [hMeq]; rfl
  have hrows : M.rows_count_ = rowsA := by rw [hMeq]; rfl
  split
  · rename_i hgt
    obtain ⟨i, hi, h1, h2⟩ := Multiply_inCol_of_cell hrT hc hrc hgt
    rw [← hMeq] at hi h1 h2
    obtain ⟨r', v', h1', h2', hd⟩ := hin c i hi
    rw [h1] at h1'
    rw [h2] at h2'
    rw [← Option.some.inj h1', ← Option.some.inj h2', hcols] at hd
    exact hd
  · rename_i hle
    have := hout r c (by rw [hrows]; exact hr) (by rw [hcols]; exact hc) (by
      intro i hi hir
      rw [hMeq] at hi hir
      obtain ⟨r', v, h1, _, _, h4, h5⟩ := Multiply_entry_of_inCol hi
      rw [hir] at h1
      rw [← Option.some.inj h1, hrc] at h4
      rw [← Option.some.inj h4] at h5
      exact hle h5)
    rw [hcols] at this
    exact this

/-- C25, at the 2 x 3 buffer `[1, 0, 2, 0, 3, 0]` and the 3 x 2 buffer
`[1, 0, 0, 1, 1, 1]`. -/
theorem product_of_full_columns_witness :
    ∃ MA MB M e D, MatrixToSparse 2 3 [1, 0, 2, 0, 3, 0] = some MA ∧
      MatrixToSparse 3 2 [1, 0, 0, 1, 1, 1] = some MB ∧ Multiply MA MB 0 = some (M, e) ∧
      FromSparseMatrix M = some D ∧
      ∀ r c, r < 2 → c < 2 →
        D[r * 2 + c]? = some
          (if thresholdedDot [1, 0, 2, 0, 3, 0] 3 [1, 0, 0, 1, 1, 1] 2 r c > kThreshold
            then thresholdedDot [1, 0, 2, 0, 3, 0] 3 [1, 0, 0, 1, 1, 1] 2 r c else 0) :=
  product_of_full_columns { task_data := ⟨[], [2, 3, 3, 2], []⟩ } 2 3 3 2
    [1, 0, 2, 0, 3, 0] [1, 0, 0, 1, 1, 1] 0 rfl (by decide) rfl rfl (by
    intro c hc
    interval_cases c
    · exact ⟨0, by decide, by decide!⟩
    · exact ⟨1, by decide, by decide!⟩
    · exact ⟨0, by decide, by decide!⟩)

end sparse_matrix_multiplication_stl
